import Mathlib

/-!
Verification development for the q1tsim quantum-circuit simulator core.

The Rust sources are embedded shallowly: machine integers (`u64`, `usize`)
become `Nat` with explicit masking where the code masks, packed bit vectors
become `List Nat` of 64-bit words, fallible operations return a success flag
or `Except`, and floating-point complex matrices become matrices over an
arbitrary commutative ring (the claims under study are structural and do not
depend on rounding).
-/

namespace Q1

/-! ## PauliOp (src/stabilizer.rs) -/

/-- Enumeration for the Pauli spin operations (`PauliOp` in stabilizer.rs). -/
inductive PauliOp where
  | I
  | Z
  | X
  | Y
deriving DecidableEq, Repr

/-- `PauliOp::from_bits`. -/
def PauliOp.fromBits (bits : Nat) : PauliOp :=
  match bits &&& 0x03 with
  | 0 => PauliOp.I
  | 1 => PauliOp.Z
  | 2 => PauliOp.X
  | _ => PauliOp.Y

/-- `PauliOp::to_bits`. -/
def PauliOp.toBits : PauliOp → Nat
  | PauliOp.I => 0
  | PauliOp.Z => 1
  | PauliOp.X => 2
  | PauliOp.Y => 3

/-! ## Packed stabilizer tableau (src/stabilizer.rs)

`xz` and `phase` are vectors of 64-bit words; a word is a `Nat` kept below
`2^64` (invariant `WF`).  `!x` on `u64` is modelled by `not64`. -/

/-- Bitwise complement on a 64-bit word (`!x` for `x: u64`). -/
def not64 (x : Nat) : Nat := (2 ^ 64 - 1) ^^^ x

/-- Structure describing a single stabilizer state (`StabilizerMatrix`). -/
structure StabilizerMatrix where
  nr_bits : Nat
  xz : List Nat
  phase : List Nat
deriving DecidableEq, Repr

namespace StabilizerMatrix

/-- Number of 64-bit words allocated for `xz`: `(2*nr_bits*nr_bits + 0x3f) >> 6`. -/
def xzSize (n : Nat) : Nat := (2 * n * n + 0x3f) >>> 6

/-- Number of 64-bit words allocated for `phase`: `(nr_bits + 0x3f) >> 6`. -/
def phaseSize (n : Nat) : Nat := (n + 0x3f) >>> 6

/-- `bit_indices(i, j)`: word index and bit offset of cell `(i, j)`. -/
def bitIndices (m : StabilizerMatrix) (i j : Nat) : Nat × Nat :=
  let idx := 2 * (i * m.nr_bits + j)
  (idx >>> 6, idx &&& 0x3f)

/-- `get_bits(i, j)`: the 2-bit encoding stored at cell `(i, j)`. -/
def getBits (m : StabilizerMatrix) (i j : Nat) : Nat :=
  let p := m.bitIndices i j
  (m.xz.getD p.1 0 >>> p.2) &&& 0x03

/-- `get(i, j)`. -/
def get (m : StabilizerMatrix) (i j : Nat) : PauliOp :=
  PauliOp.fromBits (m.getBits i j)

/-- `get_z(i, j)`: the low (Z) bit of cell `(i, j)`. -/
def getZ (m : StabilizerMatrix) (i j : Nat) : Bool :=
  let p := m.bitIndices i j
  (m.xz.getD p.1 0 &&& (1 <<< p.2)) != 0

/-- `get_x(i, j)`: the high (X) bit of cell `(i, j)`. -/
def getX (m : StabilizerMatrix) (i j : Nat) : Bool :=
  let p := m.bitIndices i j
  (m.xz.getD p.1 0 &&& (2 <<< p.2)) != 0

/-- `set_bits(i, j, op)`. -/
def setBits (m : StabilizerMatrix) (i j : Nat) (op : Nat) : StabilizerMatrix :=
  let p := m.bitIndices i j
  let w := m.xz.getD p.1 0
  { m with xz := m.xz.set p.1 ((w &&& not64 (0x03 <<< p.2)) ||| ((op &&& 0x03) <<< p.2)) }

/-- `set(i, j, op)`. -/
def set (m : StabilizerMatrix) (i j : Nat) (op : PauliOp) : StabilizerMatrix :=
  m.setBits i j op.toBits

/-- `get_phase(i)`. -/
def getPhase (m : StabilizerMatrix) (i : Nat) : Bool :=
  (m.phase.getD (i >>> 6) 0 &&& (1 <<< (i &&& 0x3f))) != 0

/-- `set_phase(i, p)`. -/
def setPhase (m : StabilizerMatrix) (i : Nat) (p : Bool) : StabilizerMatrix :=
  let w := m.phase.getD (i >>> 6) 0
  let w' := (w &&& not64 (1 <<< (i &&& 0x3f))) ||| ((if p then 1 else 0) <<< (i &&& 0x3f))
  { m with phase := m.phase.set (i >>> 6) w' }

/-- `xor_phase(i, p)`. -/
def xorPhase (m : StabilizerMatrix) (i : Nat) (p : Bool) : StabilizerMatrix :=
  if p then
    { m with phase := m.phase.set (i >>> 6) (m.phase.getD (i >>> 6) 0 ^^^ (1 <<< (i &&& 0x3f))) }
  else m

/-- `StabilizerMatrix::new(nr_bits)`: identity-Z tableau. -/
def new (nr_bits : Nat) : StabilizerMatrix :=
  let base : StabilizerMatrix :=
    { nr_bits := nr_bits
      xz := List.replicate (xzSize nr_bits) 0
      phase := List.replicate (phaseSize nr_bits) 0 }
  (List.range nr_bits).foldl (fun m i => m.set i i PauliOp.Z) base

/-- Well-formedness: the vectors have the allocated length and hold 64-bit words. -/
def WF (m : StabilizerMatrix) : Prop :=
  m.xz.length = xzSize m.nr_bits ∧ m.phase.length = phaseSize m.nr_bits ∧
    (∀ w ∈ m.xz, w < 2 ^ 64) ∧ (∀ w ∈ m.phase, w < 2 ^ 64)

instance (m : StabilizerMatrix) : Decidable m.WF := by
  unfold WF; infer_instance

end StabilizerMatrix

/-! ## Word-level bit lemmas -/

theorem testBit_not64 (x t : Nat) :
    (not64 x).testBit t = (decide (t < 64) ^^ x.testBit t) := by
  rw [not64, Nat.testBit_xor, Nat.testBit_two_pow_sub_one]

theorem testBit_three (u : Nat) : (3 : Nat).testBit u = decide (u < 2) := by
  rw [show (3 : Nat) = 2 ^ 2 - 1 from by norm_num, Nat.testBit_two_pow_sub_one]

theorem testBit_and_three (v t : Nat) :
    (v &&& 3).testBit t = (v.testBit t && decide (t < 2)) := by
  rw [show (3 : Nat) = 2 ^ 2 - 1 from by norm_num, Nat.and_pow_two_sub_one_eq_mod,
    Nat.testBit_mod_two_pow]
  cases h : v.testBit t <;> simp [h, Bool.and_comm]

theorem and_one_shift_ne_zero (w b : Nat) :
    ((w &&& (1 <<< b)) != 0) = w.testBit b := by
  rw [show (1 : Nat) <<< b = 2 ^ b from by rw [Nat.shiftLeft_eq, Nat.one_mul],
    Nat.and_two_pow]
  cases h : w.testBit b <;> simp [h, (Nat.two_pow_pos b).ne']

theorem and_two_shift_ne_zero (w b : Nat) :
    ((w &&& (2 <<< b)) != 0) = w.testBit (b + 1) := by
  rw [show (2 : Nat) <<< b = 2 ^ (b + 1) from by
      rw [Nat.shiftLeft_eq, Nat.pow_succ, Nat.mul_comm], Nat.and_two_pow]
  cases h : w.testBit (b + 1) <;> simp [h, (Nat.two_pow_pos (b + 1)).ne']

/-- `testBit` of the word produced by writing a 2-bit field at (even) offset `b`. -/
theorem testBit_write (w v b t : Nat) (hb : b + 1 < 64) :
    ((w &&& not64 (0x03 <<< b)) ||| ((v &&& 0x03) <<< b)).testBit t =
      (if t = b then v.testBit 0 else if t = b + 1 then v.testBit 1
       else (w.testBit t && decide (t < 64))) := by
  rw [Nat.testBit_or, Nat.testBit_and, testBit_not64, Nat.testBit_shiftLeft,
    Nat.testBit_shiftLeft, testBit_and_three, testBit_three]
  by_cases h1 : t = b
  · subst h1
    simp [Nat.sub_self, show t < 64 from by omega]
  · by_cases h2 : t = b + 1
    · subst h2
      simp [Nat.add_sub_cancel_left, show b + 1 < 64 from hb, show b ≤ b + 1 from by omega]
    · rw [if_neg h1, if_neg h2]
      by_cases h4 : b ≤ t
      · have hlt : ¬(t - b < 2) := by omega
        simp [h4, hlt]
      · simp [h4]

/-- Reading back the field just written returns the written 2-bit value. -/
theorem two_bit_get_set_eq (w v b : Nat) (hb : b + 1 < 64) :
    (((w &&& not64 (0x03 <<< b)) ||| ((v &&& 0x03) <<< b)) >>> b) &&& 0x03 = v &&& 0x03 := by
  apply Nat.eq_of_testBit_eq
  intro t
  rw [testBit_and_three, testBit_and_three, Nat.testBit_shiftRight,
    testBit_write w v b (b + t) hb]
  match t with
  | 0 => simp
  | 1 => simp [show b + 1 ≠ b from by omega]
  | (u + 2) => simp [show ¬(u + 2 < 2) from by omega]

/-- Writing one 2-bit field does not disturb another (even, distinct) field. -/
theorem two_bit_get_set_ne (w v b b' : Nat) (hb : b + 1 < 64) (hb' : b' + 1 < 64)
    (hne : b ≠ b') (heb : b % 2 = 0) (heb' : b' % 2 = 0) :
    (((w &&& not64 (0x03 <<< b)) ||| ((v &&& 0x03) <<< b)) >>> b') &&& 0x03 =
      (w >>> b') &&& 0x03 := by
  apply Nat.eq_of_testBit_eq
  intro t
  rw [testBit_and_three, testBit_and_three, Nat.testBit_shiftRight, Nat.testBit_shiftRight,
    testBit_write w v b (b' + t) hb]
  by_cases ht : t < 2
  · rw [if_neg (by omega), if_neg (by omega)]
    simp [show b' + t < 64 from by omega]
  · simp [ht]

/-- Writing a field's current value back leaves the word unchanged. -/
theorem two_bit_set_self (w b : Nat) (hb : b + 1 < 64) (hw : w < 2 ^ 64) :
    (w &&& not64 (0x03 <<< b)) ||| ((((w >>> b) &&& 0x03) &&& 0x03) <<< b) = w := by
  apply Nat.eq_of_testBit_eq
  intro t
  rw [testBit_write w ((w >>> b) &&& 0x03) b t hb]
  by_cases h1 : t = b
  · subst h1
    rw [if_pos rfl, testBit_and_three, Nat.testBit_shiftRight]
    simp
  · by_cases h2 : t = b + 1
    · subst h2
      rw [if_neg h1, if_pos rfl, testBit_and_three, Nat.testBit_shiftRight]
      simp
    · rw [if_neg h1, if_neg h2]
      by_cases h3 : t < 64
      · simp [h3]
      · have hwt : w.testBit t = false :=
          Nat.testBit_lt_two_pow
            (lt_of_lt_of_le hw (Nat.pow_le_pow_right (by norm_num) (by omega)))
        simp [h3, hwt]

/-- `testBit` of the word produced by writing one bit at offset `b`. -/
theorem testBit_write1 (w v b t : Nat) (hb : b < 64) (hv : v ≤ 1) :
    ((w &&& not64 (1 <<< b)) ||| (v <<< b)).testBit t =
      (if t = b then v.testBit 0 else (w.testBit t && decide (t < 64))) := by
  have h1 : ∀ u, (1 : Nat).testBit u = decide (u = 0) := by
    intro u
    rw [show (1 : Nat) = 2 ^ 1 - 1 from by norm_num, Nat.testBit_two_pow_sub_one]
    cases u <;> simp
  rw [Nat.testBit_or, Nat.testBit_and, testBit_not64, Nat.testBit_shiftLeft,
    Nat.testBit_shiftLeft, h1]
  by_cases hteq : t = b
  · subst hteq
    simp [Nat.sub_self, show t < 64 from hb]
  · rw [if_neg hteq]
    by_cases h4 : b ≤ t
    · have hne0 : t - b ≠ 0 := by omega
      have hvt : v.testBit (t - b) = false :=
        Nat.testBit_lt_two_pow
          (lt_of_le_of_lt hv (by
            have : (2 : Nat) ^ 1 ≤ 2 ^ (t - b) := Nat.pow_le_pow_right (by norm_num) (by omega)
            omega))
      simp [h4, hne0, hvt]
    · simp [h4]

/-- `testBit` of a word after xoring in a single bit. -/
theorem testBit_xor_one (w b t : Nat) :
    (w ^^^ (1 <<< b)).testBit t = (w.testBit t ^^ decide (t = b)) := by
  rw [Nat.testBit_xor,
    show (1 : Nat) <<< b = 2 ^ b from by rw [Nat.shiftLeft_eq, Nat.one_mul],
    Nat.testBit_two_pow]
  by_cases h : b = t
  · subst h; simp
  · have h' : t ≠ b := fun hh => h hh.symm
    simp [h, h']

/-- Writing a single bit's current value back leaves the word unchanged. -/
theorem one_bit_set_self (w b : Nat) (hb : b < 64) (hw : w < 2 ^ 64) :
    (w &&& not64 (1 <<< b)) ||| ((if w.testBit b then 1 else 0) <<< b) = w := by
  apply Nat.eq_of_testBit_eq
  intro t
  rw [testBit_write1 w (if w.testBit b then 1 else 0) b t hb (by split <;> norm_num)]
  by_cases h1 : t = b
  · subst h1
    cases h : w.testBit t <;> simp [h]
  · rw [if_neg h1]
    by_cases h3 : t < 64
    · simp [h3]
    · have hwt : w.testBit t = false :=
        Nat.testBit_lt_two_pow
          (lt_of_lt_of_le hw (Nat.pow_le_pow_right (by norm_num) (by omega)))
      simp [h3, hwt]

/-! ## Cell-arithmetic helper lemmas -/

theorem and63_eq_mod (x : Nat) : x &&& 0x3f = x % 64 := by
  rw [show (0x3f : Nat) = 2 ^ 6 - 1 from by norm_num, Nat.and_pow_two_sub_one_eq_mod]

theorem cell_off_even (n i j : Nat) : ((2 * (i * n + j)) &&& 0x3f) % 2 = 0 := by
  rw [and63_eq_mod]
  have h1 : (2 * (i * n + j)) % 64 % 2 = (2 * (i * n + j)) % 2 :=
    Nat.mod_mod_of_dvd _ (by norm_num)
  omega

theorem cell_off_lt (n i j : Nat) : ((2 * (i * n + j)) &&& 0x3f) + 1 < 64 := by
  have he := cell_off_even n i j
  rw [and63_eq_mod] at he ⊢
  have h2 : (2 * (i * n + j)) % 64 < 64 := Nat.mod_lt _ (by norm_num)
  omega

/-- The word index of an in-range cell is within the allocated `xz` vector. -/
theorem cell_word_lt (n i j : Nat) (hi : i < n) (hj : j < n) :
    (2 * (i * n + j)) >>> 6 < StabilizerMatrix.xzSize n := by
  have hij : i * n + j < n * n := by
    calc i * n + j < i * n + n := by omega
    _ = (i + 1) * n := by ring
    _ ≤ n * n := Nat.mul_le_mul_right n (by omega)
  have hidx : 2 * (i * n + j) < 2 * n * n := by rw [Nat.mul_assoc]; omega
  rw [Nat.shiftRight_eq_div_pow]
  unfold StabilizerMatrix.xzSize
  rw [Nat.shiftRight_eq_div_pow]
  norm_num
  rw [Nat.div_lt_iff_lt_mul (show 0 < 64 by norm_num)]
  have hq := @Nat.lt_div_mul_add (2 * n * n + 63) 64 (by norm_num)
  omega

/-- The word index of an in-range phase bit is within the allocated vector. -/
theorem phase_word_lt (n i : Nat) (hi : i < n) :
    i >>> 6 < StabilizerMatrix.phaseSize n := by
  rw [Nat.shiftRight_eq_div_pow]
  unfold StabilizerMatrix.phaseSize
  rw [Nat.shiftRight_eq_div_pow]
  norm_num
  rw [Nat.div_lt_iff_lt_mul (show 0 < 64 by norm_num)]
  have hq := @Nat.lt_div_mul_add (n + 63) 64 (by norm_num)
  omega

/-- Distinct in-range cells have distinct packed indices. -/
theorem cellIdx_inj (n i j i' j' : Nat) (hj : j < n) (hj' : j' < n)
    (h : 2 * (i * n + j) = 2 * (i' * n + j')) : i = i' ∧ j = j' := by
  have h1 : i * n + j = i' * n + j' := by omega
  have key : ∀ a b c d : Nat, c < n → d < n → a * n + c = b * n + d → a ≤ b := by
    intro a b c d hc hd he
    by_contra hab
    push_neg at hab
    have hlt : b * n + d < a * n + c := by
      calc b * n + d < b * n + n := by omega
      _ = (b + 1) * n := by ring
      _ ≤ a * n := Nat.mul_le_mul_right n (by omega)
      _ ≤ a * n + c := by omega
    omega
  have hii' : i = i' :=
    le_antisymm (key i i' j j' hj hj' h1) (key i' i j' j hj' hj h1.symm)
  subst hii'
  exact ⟨rfl, by omega⟩

/-! ## List helper lemmas -/

theorem getD_set_eq {l : List Nat} {p : Nat} (w : Nat) (hp : p < l.length) :
    (l.set p w).getD p 0 = w := by
  rw [List.getD_eq_getElem?_getD, List.getElem?_set, if_pos rfl, if_pos hp]
  rfl

theorem getD_set_ne {l : List Nat} {p q : Nat} (w : Nat) (hpq : p ≠ q) :
    (l.set p w).getD q 0 = l.getD q 0 := by
  rw [List.getD_eq_getElem?_getD, List.getElem?_set, if_neg hpq, ← List.getD_eq_getElem?_getD]

theorem getD_mem {l : List Nat} {p : Nat} (hp : p < l.length) : l.getD p 0 ∈ l := by
  rw [List.getD_eq_getElem?_getD, List.getElem?_eq_getElem hp]
  exact List.getElem_mem hp

theorem set_getD_self {l : List Nat} {p : Nat} : l.set p (l.getD p 0) = l := by
  by_cases hp : p < l.length
  · apply List.ext_getElem
    · simp
    · intro u h1 h2
      rw [List.getElem_set]
      split
      · subst ‹p = u›
        rw [List.getD_eq_getElem?_getD, List.getElem?_eq_getElem hp]
        rfl
      · rfl
  · exact List.set_eq_of_length_le (by omega)

namespace StabilizerMatrix

/-! ### Field-preservation facts -/

theorem nr_bits_setBits (m : StabilizerMatrix) (i j v : Nat) :
    (m.setBits i j v).nr_bits = m.nr_bits := rfl

theorem nr_bits_setPhase (m : StabilizerMatrix) (i : Nat) (p : Bool) :
    (m.setPhase i p).nr_bits = m.nr_bits := rfl

theorem nr_bits_xorPhase (m : StabilizerMatrix) (i : Nat) (p : Bool) :
    (m.xorPhase i p).nr_bits = m.nr_bits := by
  unfold xorPhase; split <;> rfl

theorem phase_setBits (m : StabilizerMatrix) (i j v : Nat) :
    (m.setBits i j v).phase = m.phase := rfl

theorem xz_setPhase (m : StabilizerMatrix) (i : Nat) (p : Bool) :
    (m.setPhase i p).xz = m.xz := rfl

theorem xz_xorPhase (m : StabilizerMatrix) (i : Nat) (p : Bool) :
    (m.xorPhase i p).xz = m.xz := by
  unfold xorPhase; split <;> rfl

theorem getPhase_setBits (m : StabilizerMatrix) (i j v k : Nat) :
    (m.setBits i j v).getPhase k = m.getPhase k := rfl

theorem getBits_setPhase (m : StabilizerMatrix) (i : Nat) (p : Bool) (i' j' : Nat) :
    (m.setPhase i p).getBits i' j' = m.getBits i' j' := rfl

theorem getBits_xorPhase (m : StabilizerMatrix) (i : Nat) (p : Bool) (i' j' : Nat) :
    (m.xorPhase i p).getBits i' j' = m.getBits i' j' := by
  unfold xorPhase; split <;> rfl

/-! ### Read-after-write -/

/-- Effect of `set_bits` on every cell: the addressed cell gets the (masked) new
value, every other cell of the tableau is untouched. -/
theorem getBits_setBits (m : StabilizerMatrix) (hwf : m.WF) (v : Nat) (i j i' j' : Nat)
    (hi : i < m.nr_bits) (hj : j < m.nr_bits) (hi' : i' < m.nr_bits) (hj' : j' < m.nr_bits) :
    (m.setBits i j v).getBits i' j' =
      if i' = i ∧ j' = j then v &&& 0x03 else m.getBits i' j' := by
  obtain ⟨hlen, -, -, -⟩ := hwf
  simp only [setBits, getBits, bitIndices]
  by_cases hcell : i' = i ∧ j' = j
  · obtain ⟨rfl, rfl⟩ := hcell
    rw [if_pos ⟨rfl, rfl⟩, getD_set_eq _ (by rw [hlen]; exact cell_word_lt _ i' j' hi hj),
      two_bit_get_set_eq _ _ _ (cell_off_lt _ i' j')]
  · rw [if_neg hcell]
    by_cases hPP : (2 * (i * m.nr_bits + j)) >>> 6 = (2 * (i' * m.nr_bits + j')) >>> 6
    · rw [← hPP, getD_set_eq _ (by rw [hlen]; exact cell_word_lt _ i j hi hj)]
      apply two_bit_get_set_ne
      · exact cell_off_lt _ i j
      · exact cell_off_lt _ i' j'
      · intro hBB
        apply hcell
        have hdiv : (2 * (i * m.nr_bits + j)) / 64 = (2 * (i' * m.nr_bits + j')) / 64 := by
          rw [Nat.shiftRight_eq_div_pow, Nat.shiftRight_eq_div_pow] at hPP
          norm_num at hPP
          exact hPP
        have hmod : (2 * (i * m.nr_bits + j)) % 64 = (2 * (i' * m.nr_bits + j')) % 64 := by
          rw [and63_eq_mod, and63_eq_mod] at hBB
          exact hBB
        have d1 := Nat.div_add_mod (2 * (i * m.nr_bits + j)) 64
        have d2 := Nat.div_add_mod (2 * (i' * m.nr_bits + j')) 64
        have hidx : 2 * (i * m.nr_bits + j) = 2 * (i' * m.nr_bits + j') := by omega
        obtain ⟨he1, he2⟩ := cellIdx_inj m.nr_bits i j i' j' hj hj' hidx
        exact ⟨he1.symm, he2.symm⟩
      · exact cell_off_even _ i j
      · exact cell_off_even _ i' j'
    · rw [getD_set_ne _ hPP]

/-- `set_bits` with the cell's current contents is a packed-level no-op. -/
theorem eq_of_fields_eq (m m' : StabilizerMatrix) (h1 : m'.nr_bits = m.nr_bits)
    (h2 : m'.xz = m.xz) (h3 : m'.phase = m.phase) : m' = m := by
  cases m; cases m'; simp_all

theorem setBits_self (m : StabilizerMatrix) (hwf : m.WF) (i j : Nat)
    (hi : i < m.nr_bits) (hj : j < m.nr_bits) :
    m.setBits i j (m.getBits i j) = m := by
  obtain ⟨hlen, -, hmem, -⟩ := hwf
  have hp : (2 * (i * m.nr_bits + j)) >>> 6 < m.xz.length := by
    rw [hlen]; exact cell_word_lt _ i j hi hj
  have hw : m.xz.getD ((2 * (i * m.nr_bits + j)) >>> 6) 0 < 2 ^ 64 := hmem _ (getD_mem hp)
  apply eq_of_fields_eq
  · rfl
  · simp only [setBits, getBits, bitIndices]
    rw [two_bit_set_self _ _ (cell_off_lt _ i j) hw]
    exact set_getD_self
  · rfl

/-- Effect of `set_phase` on every phase bit. -/
theorem getPhase_setPhase (m : StabilizerMatrix) (hwf : m.WF) (p : Bool) (i k : Nat)
    (hi : i < m.nr_bits) (hk : k < m.nr_bits) :
    (m.setPhase i p).getPhase k = if k = i then p else m.getPhase k := by
  obtain ⟨-, hlen, -, -⟩ := hwf
  simp only [setPhase, getPhase]
  by_cases hPP : i >>> 6 = k >>> 6
  · rw [← hPP, getD_set_eq _ (by rw [hlen]; exact phase_word_lt _ i hi),
      and_one_shift_ne_zero,
      testBit_write1 _ _ _ _
        (by rw [and63_eq_mod]; exact Nat.mod_lt _ (by norm_num))
        (by split <;> norm_num)]
    by_cases hkk : k = i
    · subst hkk
      rw [if_pos rfl, if_pos rfl]
      cases p <;> simp
    · have hBB : ¬(k &&& 0x3f = i &&& 0x3f) := by
        intro hBB
        apply hkk
        rw [and63_eq_mod, and63_eq_mod] at hBB
        rw [Nat.shiftRight_eq_div_pow, Nat.shiftRight_eq_div_pow] at hPP
        norm_num at hPP
        have d1 := Nat.div_add_mod i 64
        have d2 := Nat.div_add_mod k 64
        omega
      rw [if_neg hBB, if_neg hkk, and_one_shift_ne_zero, hPP]
      have : k &&& 0x3f < 64 := by rw [and63_eq_mod]; exact Nat.mod_lt _ (by norm_num)
      simp [this]
  · rw [getD_set_ne _ hPP, if_neg (by intro h; subst h; exact hPP rfl)]

/-- Effect of `xor_phase` on every phase bit. -/
theorem getPhase_xorPhase (m : StabilizerMatrix) (hwf : m.WF) (p : Bool) (i k : Nat)
    (hi : i < m.nr_bits) (hk : k < m.nr_bits) :
    (m.xorPhase i p).getPhase k =
      if k = i then (m.getPhase k ^^ p) else m.getPhase k := by
  obtain ⟨-, hlen, -, -⟩ := hwf
  cases p with
  | false =>
    show m.getPhase k = _
    split <;> simp
  | true =>
    show ({ m with phase := _ } : StabilizerMatrix).getPhase k = _
    simp only [getPhase]
    by_cases hPP : i >>> 6 = k >>> 6
    · rw [← hPP, getD_set_eq _ (by rw [hlen]; exact phase_word_lt _ i hi),
        and_one_shift_ne_zero, testBit_xor_one, and_one_shift_ne_zero, hPP]
      by_cases hkk : k = i
      · subst hkk
        rw [if_pos rfl, ← hPP]
        simp
      · have hBB : ¬(k &&& 0x3f = i &&& 0x3f) := by
          intro hBB
          apply hkk
          rw [and63_eq_mod, and63_eq_mod] at hBB
          rw [Nat.shiftRight_eq_div_pow, Nat.shiftRight_eq_div_pow] at hPP
          norm_num at hPP
          have d1 := Nat.div_add_mod i 64
          have d2 := Nat.div_add_mod k 64
          omega
        rw [if_neg hkk]
        simp [hBB]
    · rw [getD_set_ne _ hPP, if_neg (by intro h; subst h; exact hPP rfl), and_one_shift_ne_zero]

/-- `set_phase` with the bit's current value is a packed-level no-op. -/
theorem setPhase_self (m : StabilizerMatrix) (hwf : m.WF) (i : Nat) (hi : i < m.nr_bits) :
    m.setPhase i (m.getPhase i) = m := by
  obtain ⟨-, hlen, -, hmem⟩ := hwf
  have hp : i >>> 6 < m.phase.length := by rw [hlen]; exact phase_word_lt _ i hi
  have hw : m.phase.getD (i >>> 6) 0 < 2 ^ 64 := hmem _ (getD_mem hp)
  apply eq_of_fields_eq
  · rfl
  · rfl
  · simp only [setPhase, getPhase, and_one_shift_ne_zero]
    rw [one_bit_set_self _ _ (by rw [and63_eq_mod]; exact Nat.mod_lt _ (by norm_num)) hw]
    exact set_getD_self

/-! ### Connections between the bit accessors -/

theorem getZ_eq_testBit (m : StabilizerMatrix) (i j : Nat) :
    m.getZ i j = (m.getBits i j).testBit 0 := by
  simp only [getZ, getBits, bitIndices, and_one_shift_ne_zero]
  rw [testBit_and_three, Nat.testBit_shiftRight]
  simp

theorem getX_eq_testBit (m : StabilizerMatrix) (i j : Nat) :
    m.getX i j = (m.getBits i j).testBit 1 := by
  simp only [getX, getBits, bitIndices, and_two_shift_ne_zero]
  rw [testBit_and_three, Nat.testBit_shiftRight]
  simp

theorem and_three_lt_four (x : Nat) : x &&& 3 < 4 := by
  have h := Nat.and_lt_two_pow x (show (3 : Nat) < 2 ^ 2 from by norm_num)
  norm_num at h
  exact h

theorem getBits_lt_four (m : StabilizerMatrix) (i j : Nat) : m.getBits i j < 4 :=
  and_three_lt_four _

theorem and_three_of_lt {v : Nat} (h : v < 4) : v &&& 3 = v := by
  rw [show (3 : Nat) = 2 ^ 2 - 1 from by norm_num, Nat.and_pow_two_sub_one_eq_mod]
  exact Nat.mod_eq_of_lt h

/-! ### Well-formedness preservation -/

theorem not64_lt (x : Nat) (hx : x < 2 ^ 64) : not64 x < 2 ^ 64 :=
  Nat.xor_lt_two_pow (by norm_num) hx

theorem shift3_lt (b : Nat) (hb : b + 1 < 64) : (3 : Nat) <<< b < 2 ^ 64 := by
  rw [Nat.shiftLeft_eq]
  calc (3 : Nat) * 2 ^ b ≤ 3 * 2 ^ 62 :=
        Nat.mul_le_mul_left 3 (Nat.pow_le_pow_right (by norm_num) (by omega))
  _ < 2 ^ 64 := by norm_num

theorem WF_setBits (m : StabilizerMatrix) (hwf : m.WF) (i j v : Nat) :
    (m.setBits i j v).WF := by
  obtain ⟨h1, h2, h3, h4⟩ := hwf
  refine ⟨?_, ?_, ?_, ?_⟩
  · show (m.xz.set _ _).length = _
    rw [List.length_set]
    exact h1
  · exact h2
  · intro w hwmem
    rcases List.mem_or_eq_of_mem_set hwmem with h | h
    · exact h3 w h
    · subst h
      apply Nat.or_lt_two_pow
      · exact Nat.and_lt_two_pow _ (not64_lt _ (shift3_lt _ (cell_off_lt _ i j)))
      · rw [Nat.shiftLeft_eq]
        calc (v &&& 0x03) * 2 ^ ((2 * (i * m.nr_bits + j)) &&& 0x3f)
            ≤ 3 * 2 ^ 62 := by
              apply Nat.mul_le_mul
              · exact Nat.and_le_right
              · exact Nat.pow_le_pow_right (by norm_num)
                  (by have := cell_off_lt m.nr_bits i j; omega)
        _ < 2 ^ 64 := by norm_num
  · exact h4

theorem WF_set (m : StabilizerMatrix) (hwf : m.WF) (i j : Nat) (op : PauliOp) :
    (m.set i j op).WF := WF_setBits m hwf i j op.toBits

theorem off63_lt (i : Nat) : i &&& 0x3f < 64 := by
  rw [and63_eq_mod]
  exact Nat.mod_lt _ (by norm_num)

theorem shift1_lt (b : Nat) (hb : b < 64) : (1 : Nat) <<< b < 2 ^ 64 := by
  rw [Nat.shiftLeft_eq, Nat.one_mul]
  exact Nat.pow_lt_pow_right (by norm_num) hb

theorem WF_setPhase (m : StabilizerMatrix) (hwf : m.WF) (i : Nat) (p : Bool) :
    (m.setPhase i p).WF := by
  obtain ⟨h1, h2, h3, h4⟩ := hwf
  refine ⟨h1, ?_, h3, ?_⟩
  · show (m.phase.set _ _).length = _
    rw [List.length_set]
    exact h2
  · intro w hwmem
    rcases List.mem_or_eq_of_mem_set hwmem with h | h
    · exact h4 w h
    · subst h
      apply Nat.or_lt_two_pow
      · exact Nat.and_lt_two_pow _ (not64_lt _ (shift1_lt _ (off63_lt i)))
      · rw [Nat.shiftLeft_eq]
        calc (if p then 1 else 0) * 2 ^ (i &&& 0x3f)
            ≤ 1 * 2 ^ 63 := by
              apply Nat.mul_le_mul
              · split <;> norm_num
              · exact Nat.pow_le_pow_right (by norm_num)
                  (by have := off63_lt i; omega)
        _ < 2 ^ 64 := by norm_num

theorem WF_xorPhase (m : StabilizerMatrix) (hwf : m.WF) (i : Nat) (p : Bool) :
    (m.xorPhase i p).WF := by
  obtain ⟨h1, h2, h3, h4⟩ := hwf
  cases p with
  | false => exact ⟨h1, h2, h3, h4⟩
  | true =>
    refine ⟨h1, ?_, h3, ?_⟩
    · show (m.phase.set _ _).length = _
      rw [List.length_set]
      exact h2
    · intro w hwmem
      rcases List.mem_or_eq_of_mem_set hwmem with h | h
      · exact h4 w h
      · subst h
        by_cases hp : i >>> 6 < m.phase.length
        · exact Nat.xor_lt_two_pow (h4 _ (getD_mem hp)) (shift1_lt _ (off63_lt i))
        · have : m.phase.getD (i >>> 6) 0 = 0 := by
            rw [List.getD_eq_getElem?_getD, List.getElem?_eq_none (by omega)]
            rfl
          rw [this]
          exact Nat.xor_lt_two_pow (by norm_num) (shift1_lt _ (off63_lt i))

/-- `set(i, j, op)` read back through `get`, and its effect on other cells. -/
theorem get_set (m : StabilizerMatrix) (hwf : m.WF) (op : PauliOp) (i j i' j' : Nat)
    (hi : i < m.nr_bits) (hj : j < m.nr_bits) (hi' : i' < m.nr_bits) (hj' : j' < m.nr_bits) :
    (m.set i j op).get i' j' = if i' = i ∧ j' = j then op else m.get i' j' := by
  unfold set get
  rw [getBits_setBits m hwf _ i j i' j' hi hj hi' hj']
  split
  · cases op <;> rfl
  · rfl

end StabilizerMatrix

/-! ## Row operations of the stabilizer tableau (src/stabilizer.rs) -/

namespace StabilizerMatrix

/-- The `PHASE_FACTORS` table of `multiply_row`. -/
def phaseFactors : List Nat :=
  [0, 0, 0, 0,
   0, 0, 1, 3,
   0, 1, 0, 3,
   0, 1, 3, 0]

/-- One iteration of the column loop of `multiply_row(i0, i1)`. -/
def mulRowStep (i0 i1 : Nat) (acc : StabilizerMatrix × Nat) (j : Nat) :
    StabilizerMatrix × Nat :=
  let xz0 := acc.1.getBits i0 j
  let xz1 := acc.1.getBits i1 j
  let m' := acc.1.setBits i0 j (xz0 ^^^ xz1)
  let idx := xz0 <<< 2 ||| xz1
  (m', (acc.2 + phaseFactors.getD idx 0) &&& 0x03)

/-- The column loop of `multiply_row(i0, i1)`: XOR the columns of row `i1`
into row `i0` and accumulate the power of i (`i_pow`, kept `&&& 0x03`). -/
def multiplyRowLoop (m : StabilizerMatrix) (i0 i1 : Nat) : StabilizerMatrix × Nat :=
  (List.range m.nr_bits).foldl (mulRowStep i0 i1) (m, 0)

/-- `multiply_row(i0, i1)`.  The source `assert!(i_pow == 0 || i_pow == 2)`
is a programmer-error check (settled by the C4 theorem); the remaining
effect is the conditional sign flip of row `i0`. -/
def multiplyRow (m : StabilizerMatrix) (i0 i1 : Nat) : StabilizerMatrix :=
  let s := multiplyRowLoop m i0 i1
  s.1.xorPhase i0 (s.2 == 2)

/-- One iteration of the column loop of `swap_rows(i0, i1)`. -/
def swapRowsStep (i0 i1 : Nat) (acc : StabilizerMatrix) (j : Nat) : StabilizerMatrix :=
  let b := acc.getBits i0 j
  let acc1 := acc.setBits i0 j (acc.getBits i1 j)
  acc1.setBits i1 j b

/-- `swap_rows(i0, i1)`. -/
def swapRows (m : StabilizerMatrix) (i0 i1 : Nat) : StabilizerMatrix :=
  let mc := (List.range m.nr_bits).foldl (swapRowsStep i0 i1) m
  let p := mc.getPhase i0
  let mc1 := mc.setPhase i0 (mc.getPhase i1)
  mc1.setPhase i1 p

/-- The pivot test of `normalize`: X-content in the first pass, Z-content in
the second. -/
def bitAt (useX : Bool) (m : StabilizerMatrix) (k j : Nat) : Bool :=
  if useX then m.getX k j else m.getZ k j

/-- One iteration of the elimination loop in `normalize`
(`if m != i && get_?(m, j) { multiply_row(m, i) }`). -/
def elimStep (useX : Bool) (i j : Nat) (acc : StabilizerMatrix) (mm : Nat) :
    StabilizerMatrix :=
  if (mm != i) && bitAt useX acc mm j then multiplyRow acc mm i else acc

def normStep (useX : Bool) (n : Nat) (s : StabilizerMatrix × Nat) (j : Nat) :
    StabilizerMatrix × Nat :=
  match (List.range' s.2 (n - s.2)).find? (fun k => bitAt useX s.1 k j) with
  | none => s
  | some k =>
    let m1 := swapRows s.1 s.2 k
    let m2 := (List.range n).foldl (elimStep useX s.2 j) m1
    (m2, s.2 + 1)

/-- `normalize()`: pivot on X content column by column, then on Z content. -/
def normalize (m : StabilizerMatrix) : StabilizerMatrix :=
  let n := m.nr_bits
  let s1 := (List.range n).foldl (normStep true n) (m, 0)
  ((List.range n).foldl (normStep false n) s1).1

end StabilizerMatrix

/-- A gate as the stabilizer engine sees it: only its Clifford conjugation map
is relevant.  `conjugate ops` returns the rewritten operator list and the sign
flip, or `none` for the `NotAStabilizer` error. -/
structure CliffordGate where
  conjugate : List PauliOp → Option (List PauliOp × Bool)

namespace StabilizerMatrix

/-- The row loop of `apply_gate`: conjugate each listed row in turn, stopping
with `false` (the propagated error) at the first row whose conjugation fails.
On failure the tableau is returned exactly as it was at that point. -/
def applyGateRows (g : CliffordGate) (bits : List Nat) :
    List Nat → StabilizerMatrix → StabilizerMatrix × Bool
  | [], m => (m, true)
  | i :: rest, m =>
    match g.conjugate (bits.map (fun j => m.get i j)) with
    | none => (m, false)
    | some (ops', flip) =>
      let m1 := (bits.zip ops').foldl (fun acc p => acc.set i p.1 p.2) m
      applyGateRows g bits rest (m1.xorPhase i flip)

/-- `apply_gate(gate, bits)`: conjugate every row, then `normalize()`; a
conjugation failure propagates (`false`) and skips the normalization. -/
def applyGate (m : StabilizerMatrix) (g : CliffordGate) (bits : List Nat) :
    StabilizerMatrix × Bool :=
  let r := applyGateRows g bits (List.range m.nr_bits) m
  if r.2 then (r.1.normalize, true) else r

end StabilizerMatrix

/-! ## Effect of `multiply_row` on the tableau -/

theorem foldl_congr_mem {α β : Type} (l : List β) (f g : α → β → α) (a : α)
    (h : ∀ x b, b ∈ l → f x b = g x b) : l.foldl f a = l.foldl g a := by
  induction l generalizing a with
  | nil => rfl
  | cons b bs ih =>
    simp only [List.foldl_cons]
    rw [h a b (by simp)]
    exact ih _ (fun x c hc => h x c (List.mem_cons_of_mem _ hc))

namespace StabilizerMatrix

theorem getPhase_congr {m1 m2 : StabilizerMatrix} (h : m1.phase = m2.phase) (k : Nat) :
    m1.getPhase k = m2.getPhase k := by
  unfold getPhase
  rw [h]

theorem xor_lt_four {a b : Nat} (ha : a < 4) (hb : b < 4) : a ^^^ b < 4 := by
  have h := @Nat.xor_lt_two_pow a b 2 (by norm_num; omega) (by norm_num; omega)
  norm_num at h
  exact h

/-- The pure accumulation function for `i_pow` over one column. -/
def iPowStep (m : StabilizerMatrix) (i0 i1 a j : Nat) : Nat :=
  (a + phaseFactors.getD ((m.getBits i0 j) <<< 2 ||| m.getBits i1 j) 0) &&& 0x03

/-- Full characterization of the column loop of `multiply_row` over any
duplicate-free list of in-range columns. -/
theorem mulRowLoop_spec (i0 i1 : Nat) (cols : List Nat) :
    ∀ (m : StabilizerMatrix) (a : Nat), m.WF → i0 ≠ i1 → i0 < m.nr_bits → i1 < m.nr_bits →
    (∀ j ∈ cols, j < m.nr_bits) → cols.Nodup →
    (cols.foldl (mulRowStep i0 i1) (m, a)).1.nr_bits = m.nr_bits
    ∧ (cols.foldl (mulRowStep i0 i1) (m, a)).1.WF
    ∧ (cols.foldl (mulRowStep i0 i1) (m, a)).1.phase = m.phase
    ∧ (∀ i' j', i' < m.nr_bits → j' < m.nr_bits →
        (cols.foldl (mulRowStep i0 i1) (m, a)).1.getBits i' j' =
          if i' = i0 ∧ j' ∈ cols then m.getBits i0 j' ^^^ m.getBits i1 j'
          else m.getBits i' j')
    ∧ (cols.foldl (mulRowStep i0 i1) (m, a)).2 = cols.foldl (m.iPowStep i0 i1) a := by
  induction cols with
  | nil =>
    intro m a hwf h01 hi0 hi1 hcols hnd
    exact ⟨rfl, hwf, rfl, fun i' j' _ _ => by simp, rfl⟩
  | cons j js ih =>
    intro m a hwf h01 hi0 hi1 hcols hnd
    have hj : j < m.nr_bits := hcols j (by simp)
    have hjs : ∀ u ∈ js, u < m.nr_bits := fun u hu => hcols u (by simp [hu])
    have hjnotin : j ∉ js := (List.nodup_cons.mp hnd).1
    have hndjs : js.Nodup := (List.nodup_cons.mp hnd).2
    -- the first step
    have hstep : mulRowStep i0 i1 (m, a) j =
        (m.setBits i0 j (m.getBits i0 j ^^^ m.getBits i1 j), m.iPowStep i0 i1 a j) := rfl
    have hm1wf : (m.setBits i0 j (m.getBits i0 j ^^^ m.getBits i1 j)).WF :=
      WF_setBits m hwf _ _ _
    have hm1n : (m.setBits i0 j (m.getBits i0 j ^^^ m.getBits i1 j)).nr_bits = m.nr_bits := rfl
    have hm1get : ∀ i' j', i' < m.nr_bits → j' < m.nr_bits →
        (m.setBits i0 j (m.getBits i0 j ^^^ m.getBits i1 j)).getBits i' j' =
          if i' = i0 ∧ j' = j then m.getBits i0 j' ^^^ m.getBits i1 j'
          else m.getBits i' j' := by
      intro i' j' hi' hj'
      rw [getBits_setBits m hwf _ i0 j i' j' hi0 hj hi' hj']
      split
      · rename_i hcase
        rw [and_three_of_lt (xor_lt_four (getBits_lt_four m i0 j) (getBits_lt_four m i1 j)),
          hcase.2]
      · rfl
    obtain ⟨ihn, ihwf, ihph, ihget, ihacc⟩ :=
      ih (m.setBits i0 j (m.getBits i0 j ^^^ m.getBits i1 j)) (m.iPowStep i0 i1 a j)
        hm1wf h01 (by rw [hm1n]; exact hi0) (by rw [hm1n]; exact hi1)
        (by rw [hm1n]; exact hjs) hndjs
    rw [List.foldl_cons, hstep]
    refine ⟨by rw [ihn, hm1n], ihwf, by rw [ihph]; rfl, ?_, ?_⟩
    · intro i' j' hi' hj'
      rw [ihget i' j' (by rw [hm1n]; exact hi') (by rw [hm1n]; exact hj')]
      by_cases hc1 : i' = i0 ∧ j' ∈ js
      · rw [if_pos hc1, if_pos ⟨hc1.1, by simp [hc1.2]⟩]
        have hne : ¬(j' = j) := fun h => hjnotin (h ▸ hc1.2)
        rw [hm1get i0 j' hi0 hj', hm1get i1 j' hi1 hj', if_neg (fun hx => hne hx.2),
          if_neg (fun hx => h01 hx.1.symm)]
      · rw [if_neg hc1]
        rw [hm1get i' j' hi' hj']
        by_cases hc2 : i' = i0 ∧ j' = j
        · rw [if_pos hc2, if_pos ⟨hc2.1, by simp [hc2.2]⟩]
        · have hneg : ¬(i' = i0 ∧ j' ∈ j :: js) := by
            intro hx
            rcases List.mem_cons.mp hx.2 with h | h
            · exact hc2 ⟨hx.1, h⟩
            · exact hc1 ⟨hx.1, h⟩
          rw [if_neg hc2, if_neg hneg]
    · rw [ihacc, List.foldl_cons]
      apply foldl_congr_mem
      intro x b hb
      unfold iPowStep
      have hno1 : ¬(i0 = i0 ∧ b = j) := fun hx => hjnotin (hx.2 ▸ hb)
      have hno2 : ¬(i1 = i0 ∧ b = j) := fun hx => h01 hx.1.symm
      rw [hm1get i0 b hi0 (hjs b hb), hm1get i1 b hi1 (hjs b hb), if_neg hno1, if_neg hno2]

end StabilizerMatrix

namespace StabilizerMatrix

/-- The accumulated power of i of `multiply_row(i0, i1)` (the value of `i_pow`
that the source asserts to be 0 or 2). -/
def iPow (m : StabilizerMatrix) (i0 i1 : Nat) : Nat := (multiplyRowLoop m i0 i1).2

theorem range_nodup (n : Nat) : (List.range n).Nodup := List.nodup_range n

theorem multiplyRowLoop_spec (m : StabilizerMatrix) (hwf : m.WF) (i0 i1 : Nat)
    (h01 : i0 ≠ i1) (hi0 : i0 < m.nr_bits) (hi1 : i1 < m.nr_bits) :
    (multiplyRowLoop m i0 i1).1.nr_bits = m.nr_bits
    ∧ (multiplyRowLoop m i0 i1).1.WF
    ∧ (multiplyRowLoop m i0 i1).1.phase = m.phase
    ∧ (∀ i' j', i' < m.nr_bits → j' < m.nr_bits →
        (multiplyRowLoop m i0 i1).1.getBits i' j' =
          if i' = i0 then m.getBits i0 j' ^^^ m.getBits i1 j' else m.getBits i' j')
    ∧ iPow m i0 i1 = (List.range m.nr_bits).foldl (m.iPowStep i0 i1) 0 := by
  obtain ⟨h1, h2, h3, h4, h5⟩ :=
    mulRowLoop_spec i0 i1 (List.range m.nr_bits) m 0 hwf h01 hi0 hi1
      (fun j hj => List.mem_range.mp hj) (range_nodup _)
  refine ⟨h1, h2, h3, ?_, h5⟩
  intro i' j' hi' hj'
  show (List.foldl (mulRowStep i0 i1) (m, 0) (List.range m.nr_bits)).1.getBits i' j' = _
  rw [h4 i' j' hi' hj']
  by_cases hc : i' = i0
  · rw [if_pos hc, if_pos ⟨hc, List.mem_range.mpr hj'⟩]
  · rw [if_neg hc, if_neg (fun hx => hc hx.1)]

theorem mulRowLoop_nr_bits (i0 i1 : Nat) (cols : List Nat) (s : StabilizerMatrix × Nat) :
    (cols.foldl (mulRowStep i0 i1) s).1.nr_bits = s.1.nr_bits := by
  induction cols generalizing s with
  | nil => rfl
  | cons j js ih =>
    rw [List.foldl_cons, ih]
    rfl

theorem mulRowLoop_phase (i0 i1 : Nat) (cols : List Nat) (s : StabilizerMatrix × Nat) :
    (cols.foldl (mulRowStep i0 i1) s).1.phase = s.1.phase := by
  induction cols generalizing s with
  | nil => rfl
  | cons j js ih =>
    rw [List.foldl_cons, ih]
    rfl

theorem mulRowLoop_WF (i0 i1 : Nat) (cols : List Nat) (s : StabilizerMatrix × Nat)
    (hwf : s.1.WF) : (cols.foldl (mulRowStep i0 i1) s).1.WF := by
  induction cols generalizing s with
  | nil => exact hwf
  | cons j js ih =>
    rw [List.foldl_cons]
    exact ih _ (WF_setBits _ hwf _ _ _)

theorem multiplyRow_nr_bits (m : StabilizerMatrix) (i0 i1 : Nat) :
    (m.multiplyRow i0 i1).nr_bits = m.nr_bits := by
  unfold multiplyRow
  rw [nr_bits_xorPhase]
  exact mulRowLoop_nr_bits i0 i1 _ _

theorem multiplyRow_WF (m : StabilizerMatrix) (hwf : m.WF) (i0 i1 : Nat) :
    (m.multiplyRow i0 i1).WF := by
  unfold multiplyRow
  exact WF_xorPhase _ (mulRowLoop_WF i0 i1 _ _ hwf) _ _

/-- `multiply_row` changes only row `i0`: its cells become the XOR with row
`i1`, everything else keeps its operators; only the `i0` phase can flip. -/
theorem multiplyRow_getBits (m : StabilizerMatrix) (hwf : m.WF) (i0 i1 : Nat)
    (h01 : i0 ≠ i1) (hi0 : i0 < m.nr_bits) (hi1 : i1 < m.nr_bits) (i' j' : Nat)
    (hi' : i' < m.nr_bits) (hj' : j' < m.nr_bits) :
    (m.multiplyRow i0 i1).getBits i' j' =
      if i' = i0 then m.getBits i0 j' ^^^ m.getBits i1 j' else m.getBits i' j' := by
  unfold multiplyRow
  rw [getBits_xorPhase]
  exact (multiplyRowLoop_spec m hwf i0 i1 h01 hi0 hi1).2.2.2.1 i' j' hi' hj'

theorem multiplyRow_getPhase (m : StabilizerMatrix) (hwf : m.WF) (i0 i1 : Nat)
    (h01 : i0 ≠ i1) (hi0 : i0 < m.nr_bits) (hi1 : i1 < m.nr_bits) (k : Nat)
    (hk : k < m.nr_bits) :
    (m.multiplyRow i0 i1).getPhase k =
      if k = i0 then (m.getPhase k ^^ (iPow m i0 i1 == 2)) else m.getPhase k := by
  obtain ⟨hn, hwf', hph, -, -⟩ := multiplyRowLoop_spec m hwf i0 i1 h01 hi0 hi1
  unfold multiplyRow
  rw [getPhase_xorPhase _ hwf' _ _ _ (by rw [hn]; exact hi0) (by rw [hn]; exact hk)]
  rw [getPhase_congr hph]
  rfl

end StabilizerMatrix

/-! ## Parity of the accumulated phase power (towards claim C4) -/

namespace StabilizerMatrix

/-- Whether the operators of rows `i0` and `i1` anticommute at column `j`
(both non-identity and different). -/
def anticommutesAt (m : StabilizerMatrix) (i0 i1 j : Nat) : Bool :=
  (m.getBits i0 j != 0) && (m.getBits i1 j != 0) && (m.getBits i0 j != m.getBits i1 j)

/-- Two generator rows commute iff their operators anticommute at an even
number of columns. -/
def rowsCommute (m : StabilizerMatrix) (i0 i1 : Nat) : Prop :=
  ((List.range m.nr_bits).countP (fun j => anticommutesAt m i0 i1 j)) % 2 = 0

instance (m : StabilizerMatrix) (i0 i1 : Nat) : Decidable (m.rowsCommute i0 i1) := by
  unfold rowsCommute
  infer_instance

/-- An entry of `PHASE_FACTORS` is odd exactly at the anticommuting pairs. -/
theorem phaseFactors_parity (x0 x1 : Nat) (h0 : x0 < 4) (h1 : x1 < 4) :
    (phaseFactors.getD (x0 <<< 2 ||| x1) 0) % 2 =
      (if (x0 != 0) && (x1 != 0) && (x0 != x1) then 1 else 0) := by
  interval_cases x0 <;> interval_cases x1 <;> decide

theorem and_three_mod_two (x : Nat) : (x &&& 3) % 2 = x % 2 := by
  rw [show (3 : Nat) = 2 ^ 2 - 1 from by norm_num, Nat.and_pow_two_sub_one_eq_mod]
  norm_num [Nat.mod_mod_of_dvd]

theorem iPow_fold_parity (m : StabilizerMatrix) (i0 i1 : Nat) (cols : List Nat) :
    ∀ a : Nat, (cols.foldl (m.iPowStep i0 i1) a) % 2 =
      (a + cols.countP (fun j => anticommutesAt m i0 i1 j)) % 2 := by
  induction cols with
  | nil => intro a; simp
  | cons j js ih =>
    intro a
    rw [List.foldl_cons, ih, List.countP_cons]
    have hstep : (m.iPowStep i0 i1 a j) % 2 =
        (a + phaseFactors.getD ((m.getBits i0 j) <<< 2 ||| m.getBits i1 j) 0) % 2 :=
      and_three_mod_two _
    have hpf := phaseFactors_parity (m.getBits i0 j) (m.getBits i1 j)
      (getBits_lt_four m i0 j) (getBits_lt_four m i1 j)
    have hcond : (m.anticommutesAt i0 i1 j) =
        ((m.getBits i0 j != 0) && (m.getBits i1 j != 0) &&
          (m.getBits i0 j != m.getBits i1 j)) := rfl
    rw [← hcond] at hpf
    cases h : m.anticommutesAt i0 i1 j with
    | false =>
      simp only [h, Bool.false_eq_true, if_false] at hpf ⊢
      omega
    | true =>
      simp only [h, if_true] at hpf ⊢
      omega

theorem iPow_fold_lt (m : StabilizerMatrix) (i0 i1 : Nat) (cols : List Nat) :
    ∀ a : Nat, a < 4 → cols.foldl (m.iPowStep i0 i1) a < 4 := by
  induction cols with
  | nil => intro a ha; exact ha
  | cons j js ih =>
    intro a ha
    exact ih _ (and_three_lt_four _)

end StabilizerMatrix

/-! ## Claims C3, C4 and C10 -/

/-- The per-column phase-contribution table exactly as the specification words
it: `I` paired with anything and equal Paulis contribute 0; `Z*X → +iY` (power
1), `X*Z → −iY` (power 3), `Z*Y → −iX` (power 3), `Y*Z → +iX` (power 1),
`X*Y → +iZ` (power 1), `Y*X → −iZ` (power 3); first factor = row `i0`. -/
def specPhaseContribution : PauliOp → PauliOp → Nat
  | PauliOp.I, _ => 0
  | PauliOp.Z, PauliOp.I => 0
  | PauliOp.X, PauliOp.I => 0
  | PauliOp.Y, PauliOp.I => 0
  | PauliOp.Z, PauliOp.Z => 0
  | PauliOp.X, PauliOp.X => 0
  | PauliOp.Y, PauliOp.Y => 0
  | PauliOp.Z, PauliOp.X => 1
  | PauliOp.X, PauliOp.Z => 3
  | PauliOp.Z, PauliOp.Y => 3
  | PauliOp.Y, PauliOp.Z => 1
  | PauliOp.X, PauliOp.Y => 1
  | PauliOp.Y, PauliOp.X => 3

/-- C3: the `PHASE_FACTORS` table of `multiply_row`, indexed by
`(xz0 << 2) | xz1`, deviates from the table stated in the specification (which
is the correct Pauli algebra) at exactly the two entries `X*Z` (code adds
power 1, i.e. `+i`, where `X·Z = −iY` demands 3) and `X*Y` (code adds power 3
where `X·Y = +iZ` demands 1); the remaining 14 entries agree.  The claim is
right and the code's table is wrong, so this is a code bug. -/
theorem C3_phase_table_code_bug :
    StabilizerMatrix.phaseFactors.getD ((PauliOp.X.toBits <<< 2) ||| PauliOp.Z.toBits) 0 = 1
    ∧ specPhaseContribution PauliOp.X PauliOp.Z = 3
    ∧ StabilizerMatrix.phaseFactors.getD ((PauliOp.X.toBits <<< 2) ||| PauliOp.Y.toBits) 0 = 3
    ∧ specPhaseContribution PauliOp.X PauliOp.Y = 1
    ∧ (∀ p q : PauliOp, ¬(p = PauliOp.X ∧ (q = PauliOp.Z ∨ q = PauliOp.Y)) →
        StabilizerMatrix.phaseFactors.getD ((p.toBits <<< 2) ||| q.toBits) 0 =
          specPhaseContribution p q) := by
  refine ⟨rfl, rfl, rfl, rfl, ?_⟩
  intro p q
  cases p <;> cases q <;> decide

/-- C4: for distinct rows whose Pauli strings commute, the power of i
accumulated by `multiply_row(i0, i1)` is 0 or 2 (mod 4) — so the source's
`assert!(i_pow == 0 || i_pow == 2)` never fires — and the sign bit of row
`i0` is flipped exactly when that power is 2. -/
theorem C4_multiply_row_commuting (m : StabilizerMatrix) (hwf : m.WF) (i0 i1 : Nat)
    (h01 : i0 ≠ i1) (hi0 : i0 < m.nr_bits) (hi1 : i1 < m.nr_bits)
    (hcomm : m.rowsCommute i0 i1) :
    (StabilizerMatrix.iPow m i0 i1 = 0 ∨ StabilizerMatrix.iPow m i0 i1 = 2)
    ∧ (m.multiplyRow i0 i1).getPhase i0 =
        (m.getPhase i0 ^^ (StabilizerMatrix.iPow m i0 i1 == 2)) := by
  obtain ⟨-, -, -, -, h5⟩ := StabilizerMatrix.multiplyRowLoop_spec m hwf i0 i1 h01 hi0 hi1
  have hpar := StabilizerMatrix.iPow_fold_parity m i0 i1 (List.range m.nr_bits) 0
  have hlt := StabilizerMatrix.iPow_fold_lt m i0 i1 (List.range m.nr_bits) 0 (by norm_num)
  unfold StabilizerMatrix.rowsCommute at hcomm
  constructor
  · rw [h5]
    omega
  · rw [StabilizerMatrix.multiplyRow_getPhase m hwf i0 i1 h01 hi0 hi1 i0 hi0, if_pos rfl]

/-- Witness for C4 at a concrete commuting pair of rows. -/
theorem C4_multiply_row_commuting_witness :
    ((StabilizerMatrix.new 2).WF ∧ (0 : Nat) ≠ 1 ∧ 0 < (StabilizerMatrix.new 2).nr_bits ∧
      1 < (StabilizerMatrix.new 2).nr_bits ∧ (StabilizerMatrix.new 2).rowsCommute 0 1)
    ∧ ((StabilizerMatrix.iPow (StabilizerMatrix.new 2) 0 1 = 0 ∨
          StabilizerMatrix.iPow (StabilizerMatrix.new 2) 0 1 = 2)
        ∧ ((StabilizerMatrix.new 2).multiplyRow 0 1).getPhase 0 =
            ((StabilizerMatrix.new 2).getPhase 0 ^^
              (StabilizerMatrix.iPow (StabilizerMatrix.new 2) 0 1 == 2))) :=
  ⟨⟨by decide, by decide, by decide, by decide, by decide⟩,
    C4_multiply_row_commuting (StabilizerMatrix.new 2) (by decide) 0 1 (by decide)
      (by decide) (by decide) (by decide)⟩

/-- C10: `set(i, j, op)` followed by `get(i, j)` returns `op`; every other
cell and every phase bit is untouched — the 2-bit packing into 64-bit words
never aliases, for arbitrary `nr_bits` (rows may span several words). -/
theorem C10_set_get_isolation (m : StabilizerMatrix) (hwf : m.WF) (op : PauliOp)
    (i j : Nat) (hi : i < m.nr_bits) (hj : j < m.nr_bits) :
    (m.set i j op).get i j = op
    ∧ (∀ i' j', i' < m.nr_bits → j' < m.nr_bits → ¬(i' = i ∧ j' = j) →
        (m.set i j op).get i' j' = m.get i' j')
    ∧ (∀ k, (m.set i j op).getPhase k = m.getPhase k) := by
  refine ⟨?_, ?_, ?_⟩
  · rw [StabilizerMatrix.get_set m hwf op i j i j hi hj hi hj, if_pos ⟨rfl, rfl⟩]
  · intro i' j' hi' hj' hne
    rw [StabilizerMatrix.get_set m hwf op i j i' j' hi hj hi' hj', if_neg hne]
  · intro k
    exact StabilizerMatrix.getPhase_setBits m i j _ k

/-- Witness for C10 on a 12-qubit tableau, whose rows span several 64-bit
words. -/
theorem C10_set_get_isolation_witness :
    ((StabilizerMatrix.new 12).WF ∧ 3 < (StabilizerMatrix.new 12).nr_bits ∧
      7 < (StabilizerMatrix.new 12).nr_bits)
    ∧ (((StabilizerMatrix.new 12).set 3 7 PauliOp.Y).get 3 7 = PauliOp.Y
        ∧ (∀ i' j', i' < (StabilizerMatrix.new 12).nr_bits →
            j' < (StabilizerMatrix.new 12).nr_bits → ¬(i' = 3 ∧ j' = 7) →
            ((StabilizerMatrix.new 12).set 3 7 PauliOp.Y).get i' j' =
              (StabilizerMatrix.new 12).get i' j')
        ∧ (∀ k, ((StabilizerMatrix.new 12).set 3 7 PauliOp.Y).getPhase k =
            (StabilizerMatrix.new 12).getPhase k)) :=
  ⟨⟨by decide, by decide, by decide⟩,
    C10_set_get_isolation (StabilizerMatrix.new 12) (by decide) PauliOp.Y 3 7
      (by decide) (by decide)⟩

/-! ## `apply_gate` row processing (towards claim C5) -/

theorem map_congr_mem {α β : Type} (l : List α) (f g : α → β)
    (h : ∀ a ∈ l, f a = g a) : l.map f = l.map g := by
  induction l with
  | nil => rfl
  | cons a as ih =>
    simp only [List.map_cons]
    rw [h a (by simp), ih (fun b hb => h b (List.mem_cons_of_mem _ hb))]

namespace StabilizerMatrix

theorem get_xorPhase (m : StabilizerMatrix) (i : Nat) (p : Bool) (i' j' : Nat) :
    (m.xorPhase i p).get i' j' = m.get i' j' := by
  unfold get
  rw [getBits_xorPhase]

/-- The write-back loop of `apply_gate` for one row touches only that row. -/
theorem writeback_spec (r : Nat) (pairs : List (Nat × PauliOp)) :
    ∀ m : StabilizerMatrix, m.WF → r < m.nr_bits → (∀ p ∈ pairs, p.1 < m.nr_bits) →
    ((pairs.foldl (fun acc p => acc.set r p.1 p.2) m).WF
     ∧ (pairs.foldl (fun acc p => acc.set r p.1 p.2) m).nr_bits = m.nr_bits
     ∧ (pairs.foldl (fun acc p => acc.set r p.1 p.2) m).phase = m.phase
     ∧ (∀ r' j', r' ≠ r → r' < m.nr_bits → j' < m.nr_bits →
         (pairs.foldl (fun acc p => acc.set r p.1 p.2) m).get r' j' = m.get r' j')) := by
  induction pairs with
  | nil => intro m hwf hr hp; exact ⟨hwf, rfl, rfl, fun r' j' _ _ _ => rfl⟩
  | cons p ps ih =>
    intro m hwf hr hp
    have hp1 : p.1 < m.nr_bits := hp p (by simp)
    obtain ⟨ihwf, ihn, ihph, ihget⟩ := ih (m.set r p.1 p.2) (WF_set m hwf _ _ _) hr
      (fun q hq => hp q (List.mem_cons_of_mem _ hq))
    refine ⟨ihwf, ihn, ihph, ?_⟩
    intro r' j' hne hr' hj'
    rw [List.foldl_cons]
    rw [ihget r' j' hne hr' hj']
    rw [get_set m hwf p.2 r p.1 r' j' hr hp1 hr' hj', if_neg (fun hx => hne hx.1)]

end StabilizerMatrix

namespace StabilizerMatrix

/-- Processing a list of rows that all conjugate successfully succeeds and
touches only those rows. -/
theorem applyGateRows_succeed (g : CliffordGate) (bits : List Nat) (rs : List Nat) :
    ∀ m : StabilizerMatrix, m.WF → (∀ b ∈ bits, b < m.nr_bits) →
    (∀ r ∈ rs, r < m.nr_bits) → rs.Nodup →
    (∀ r ∈ rs, (g.conjugate (bits.map (fun j => m.get r j))).isSome) →
    (applyGateRows g bits rs m).2 = true
    ∧ (applyGateRows g bits rs m).1.WF
    ∧ (applyGateRows g bits rs m).1.nr_bits = m.nr_bits
    ∧ (∀ r' j', r' ∉ rs → r' < m.nr_bits → j' < m.nr_bits →
        (applyGateRows g bits rs m).1.get r' j' = m.get r' j')
    ∧ (∀ r', r' ∉ rs → r' < m.nr_bits →
        (applyGateRows g bits rs m).1.getPhase r' = m.getPhase r') := by
  induction rs with
  | nil =>
    intro m hwf hbits hrows hnd hsome
    exact ⟨rfl, hwf, rfl, fun r' j' _ _ _ => rfl, fun r' _ _ => rfl⟩
  | cons r rest ih =>
    intro m hwf hbits hrows hnd hsome
    have hr : r < m.nr_bits := hrows r (by simp)
    obtain ⟨v, hv⟩ := Option.isSome_iff_exists.mp (hsome r (by simp))
    obtain ⟨ops', fl⟩ := v
    have heq : applyGateRows g bits (r :: rest) m =
        applyGateRows g bits rest
          (((bits.zip ops').foldl (fun acc p => acc.set r p.1 p.2) m).xorPhase r fl) := by
      show (match g.conjugate (bits.map (fun j => m.get r j)) with
            | none => (m, false)
            | some (ops', flip) =>
              applyGateRows g bits rest
                (((bits.zip ops').foldl
                    (fun (acc : StabilizerMatrix) (p : Nat × PauliOp) => acc.set r p.1 p.2) m).xorPhase r flip)) = _
      rw [hv]
    obtain ⟨wwf, wn, wph, wget⟩ := writeback_spec r (bits.zip ops') m hwf hr
      (fun p hp => hbits p.1 (List.of_mem_zip hp).1)
    set m1 := (bits.zip ops').foldl (fun acc p => acc.set r p.1 p.2) m with hm1
    set m2 := m1.xorPhase r fl with hm2
    have hm2wf : m2.WF := WF_xorPhase m1 wwf r fl
    have hm2n : m2.nr_bits = m.nr_bits := by rw [hm2, nr_bits_xorPhase, wn]
    have hm2get : ∀ r' j', r' ≠ r → r' < m.nr_bits → j' < m.nr_bits →
        m2.get r' j' = m.get r' j' := by
      intro r' j' hne hr' hj'
      rw [hm2, get_xorPhase, wget r' j' hne hr' hj']
    have hm2ph : ∀ r', r' ≠ r → r' < m.nr_bits → m2.getPhase r' = m.getPhase r' := by
      intro r' hne hr'
      rw [hm2, getPhase_xorPhase m1 wwf fl r r' (by rw [wn]; exact hr) (by rw [wn]; exact hr'),
        if_neg hne, getPhase_congr wph]
    have hndr : r ∉ rest := (List.nodup_cons.mp hnd).1
    have hndrest : rest.Nodup := (List.nodup_cons.mp hnd).2
    obtain ⟨i1, i2, i3, i4, i5⟩ := ih m2 hm2wf (by rw [hm2n]; exact hbits)
      (by rw [hm2n]; exact fun q hq => hrows q (List.mem_cons_of_mem _ hq)) hndrest
      (by
        intro q hq
        have hqr : q ≠ r := fun h => hndr (h ▸ hq)
        have : bits.map (fun j => m2.get q j) = bits.map (fun j => m.get q j) :=
          map_congr_mem _ _ _ (fun b hb =>
            hm2get q b hqr (hrows q (List.mem_cons_of_mem _ hq)) (hbits b hb))
        rw [this]
        exact hsome q (List.mem_cons_of_mem _ hq))
    rw [heq]
    refine ⟨i1, i2, by rw [i3, hm2n], ?_, ?_⟩
    · intro r' j' hnotin hr' hj'
      have hner : r' ≠ r := fun h => hnotin (by simp [h])
      have hnotrest : r' ∉ rest := fun h => hnotin (List.mem_cons_of_mem _ h)
      rw [i4 r' j' hnotrest (by rw [hm2n]; exact hr') (by rw [hm2n]; exact hj'),
        hm2get r' j' hner hr' hj']
    · intro r' hnotin hr'
      have hner : r' ≠ r := fun h => hnotin (by simp [h])
      have hnotrest : r' ∉ rest := fun h => hnotin (List.mem_cons_of_mem _ h)
      rw [i5 r' hnotrest (by rw [hm2n]; exact hr'), hm2ph r' hner hr']

theorem applyGateRows_append (g : CliffordGate) (bits : List Nat) (l1 l2 : List Nat) :
    ∀ m : StabilizerMatrix,
    applyGateRows g bits (l1 ++ l2) m =
      (if (applyGateRows g bits l1 m).2 then
        applyGateRows g bits l2 (applyGateRows g bits l1 m).1
       else applyGateRows g bits l1 m) := by
  induction l1 with
  | nil =>
    intro m
    simp [applyGateRows]
  | cons r rest ih =>
    intro m
    have hstep : ∀ (l : List Nat),
        applyGateRows g bits (r :: l) m =
          (match g.conjugate (bits.map (fun j => m.get r j)) with
           | none => (m, false)
           | some (ops', flip) =>
             applyGateRows g bits l
               (((bits.zip ops').foldl
                   (fun (acc : StabilizerMatrix) (p : Nat × PauliOp) => acc.set r p.1 p.2) m).xorPhase r flip)) :=
      fun l => rfl
    rw [show (r :: rest) ++ l2 = r :: (rest ++ l2) from rfl, hstep (rest ++ l2), hstep rest]
    cases hv : g.conjugate (bits.map (fun j => m.get r j)) with
    | none => simp
    | some v =>
      obtain ⟨ops', fl⟩ := v
      exact ih _

end StabilizerMatrix

theorem range_split (i n : Nat) (h : i ≤ n) :
    List.range n = List.range i ++ List.range' i (n - i) := by
  rw [List.range_eq_range', List.range_eq_range']
  have h2 := List.range'_append 0 i (n - i) 1
  simp at h2
  rw [h2, show n - i + i = n from by omega]

theorem range'_cons (i n : Nat) (h : i < n) :
    List.range' i (n - i) = i :: List.range' (i + 1) (n - i - 1) := by
  rw [show n - i = (n - i - 1) + 1 from by omega, List.range'_succ]
  congr 1

/-- C5: when a gate's `conjugate` fails (`NotAStabilizer`) on row `i` during
`apply_gate` — rows before `i` having succeeded — the error is propagated, the
result is exactly the partial row loop (so `normalize()` is not performed),
and the failing row together with all later rows keeps its Pauli operators
and its phase bit. -/
theorem C5_apply_gate_error_propagation (m : StabilizerMatrix) (hwf : m.WF)
    (g : CliffordGate) (bits : List Nat) (hbits : ∀ b ∈ bits, b < m.nr_bits)
    (i : Nat) (hi : i < m.nr_bits)
    (hfail : g.conjugate (bits.map (fun j => m.get i j)) = none)
    (hsucc : ∀ r, r < i → (g.conjugate (bits.map (fun j => m.get r j))).isSome) :
    (m.applyGate g bits).2 = false
    ∧ m.applyGate g bits = StabilizerMatrix.applyGateRows g bits (List.range m.nr_bits) m
    ∧ (∀ r j, i ≤ r → r < m.nr_bits → j < m.nr_bits →
        (m.applyGate g bits).1.get r j = m.get r j)
    ∧ (∀ r, i ≤ r → r < m.nr_bits →
        (m.applyGate g bits).1.getPhase r = m.getPhase r) := by
  obtain ⟨s1, s2, s3, s4, s5⟩ := StabilizerMatrix.applyGateRows_succeed g bits
    (List.range i) m hwf hbits
    (fun r hr => lt_trans (List.mem_range.mp hr) hi) (StabilizerMatrix.range_nodup i)
    (fun r hr => hsucc r (List.mem_range.mp hr))
  have hext : bits.map (fun j => (StabilizerMatrix.applyGateRows g bits (List.range i) m).1.get i j) =
      bits.map (fun j => m.get i j) :=
    map_congr_mem _ _ _ (fun b hb => s4 i b (by simp) hi (hbits b hb))
  have hfailA : g.conjugate
      (bits.map (fun j => (StabilizerMatrix.applyGateRows g bits (List.range i) m).1.get i j)) =
      none := by
    rw [hext]
    exact hfail
  have hrows : StabilizerMatrix.applyGateRows g bits (List.range m.nr_bits) m =
      ((StabilizerMatrix.applyGateRows g bits (List.range i) m).1, false) := by
    rw [range_split i m.nr_bits (le_of_lt hi),
      StabilizerMatrix.applyGateRows_append g bits _ _ m, if_pos s1,
      range'_cons i m.nr_bits hi]
    show (match g.conjugate
            (bits.map (fun j =>
              (StabilizerMatrix.applyGateRows g bits (List.range i) m).1.get i j)) with
          | none => ((StabilizerMatrix.applyGateRows g bits (List.range i) m).1, false)
          | some (ops', flip) =>
            StabilizerMatrix.applyGateRows g bits (List.range' (i + 1) (m.nr_bits - i - 1))
              (((bits.zip ops').foldl
                  (fun (acc : StabilizerMatrix) (p : Nat × PauliOp) => acc.set i p.1 p.2)
                  (StabilizerMatrix.applyGateRows g bits (List.range i) m).1).xorPhase i flip))
        = _
    rw [hfailA]
  have happ : m.applyGate g bits =
      ((StabilizerMatrix.applyGateRows g bits (List.range i) m).1, false) := by
    show (if (StabilizerMatrix.applyGateRows g bits (List.range m.nr_bits) m).2 then
            ((StabilizerMatrix.applyGateRows g bits (List.range m.nr_bits) m).1.normalize, true)
          else StabilizerMatrix.applyGateRows g bits (List.range m.nr_bits) m) = _
    rw [hrows]
    simp
  refine ⟨by rw [happ], by rw [happ, hrows], ?_, ?_⟩
  · intro r j hir hr hj
    rw [happ]
    exact s4 r j (fun hmem => absurd (List.mem_range.mp hmem) (by omega)) hr hj
  · intro r hir hr
    rw [happ]
    exact s5 r (fun hmem => absurd (List.mem_range.mp hmem) (by omega)) hr

/-- A concrete gate for the C5 witness: conjugation fails exactly on `[I]`
(as a non-Clifford gate reports `NotAStabilizer`). -/
def failOnIdGate : CliffordGate :=
  ⟨fun ops => if ops = [PauliOp.I] then none else some (ops, false)⟩

/-- Witness for C5: on the fresh 2-qubit tableau, conjugating qubit 0 with a
gate that fails on `[I]` fails at row 1 after row 0 succeeded. -/
theorem C5_apply_gate_error_propagation_witness :
    ((StabilizerMatrix.new 2).WF
      ∧ (∀ b ∈ [0], b < (StabilizerMatrix.new 2).nr_bits)
      ∧ 1 < (StabilizerMatrix.new 2).nr_bits
      ∧ failOnIdGate.conjugate
          (List.map (fun j => (StabilizerMatrix.new 2).get 1 j) [0]) = none
      ∧ (∀ r, r < 1 →
          (failOnIdGate.conjugate
            (List.map (fun j => (StabilizerMatrix.new 2).get r j) [0])).isSome))
    ∧ (((StabilizerMatrix.new 2).applyGate failOnIdGate [0]).2 = false
        ∧ (StabilizerMatrix.new 2).applyGate failOnIdGate [0] =
            StabilizerMatrix.applyGateRows failOnIdGate [0]
              (List.range (StabilizerMatrix.new 2).nr_bits) (StabilizerMatrix.new 2)
        ∧ (∀ r j, 1 ≤ r → r < (StabilizerMatrix.new 2).nr_bits →
            j < (StabilizerMatrix.new 2).nr_bits →
            ((StabilizerMatrix.new 2).applyGate failOnIdGate [0]).1.get r j =
              (StabilizerMatrix.new 2).get r j)
        ∧ (∀ r, 1 ≤ r → r < (StabilizerMatrix.new 2).nr_bits →
            ((StabilizerMatrix.new 2).applyGate failOnIdGate [0]).1.getPhase r =
              (StabilizerMatrix.new 2).getPhase r)) :=
  ⟨⟨by decide, by decide, by decide, by decide, by decide⟩,
    C5_apply_gate_error_propagation (StabilizerMatrix.new 2) (by decide) failOnIdGate [0]
      (by decide) 1 (by decide) (by decide) (by decide)⟩

/-! ## Circuit executor: the `ConditionalGate` branch of `reexecute`
(src/circuit.rs, lines 367-381) -/

theorem or_two_pow_of_lt {a k : Nat} (h : a < 2 ^ k) : a ||| 2 ^ k = a + 2 ^ k := by
  apply Nat.eq_of_testBit_eq
  intro t
  rw [Nat.testBit_or]
  rcases Nat.lt_trichotomy t k with ht | ht | ht
  · have h2 : (2 ^ k).testBit t = false := by
      rw [Nat.testBit_two_pow]
      exact decide_eq_false (by omega)
    have h3 : (a + 2 ^ k).testBit t = a.testBit t := by
      rw [Nat.testBit_to_div_mod, Nat.testBit_to_div_mod]
      have hk : 2 ^ k = 2 ^ (k - t) * 2 ^ t := by
        rw [← Nat.pow_add]
        congr 1
        omega
      rw [hk, Nat.add_mul_div_right _ _ (Nat.two_pow_pos t)]
      have heven : 2 ^ (k - t) % 2 = 0 := by
        rw [show k - t = (k - t - 1) + 1 from by omega, Nat.pow_succ]
        omega
      have hmod : (a / 2 ^ t + 2 ^ (k - t)) % 2 = (a / 2 ^ t) % 2 := by omega
      rw [hmod]
    rw [h2, h3]
    simp
  · subst ht
    have h4 : a.testBit t = false := Nat.testBit_lt_two_pow h
    have h6 : (a + 2 ^ t).testBit t = true := by
      rw [Nat.testBit_to_div_mod]
      have hdiv : (a + 2 ^ t) / 2 ^ t = 1 := by
        rw [Nat.add_div_right _ (Nat.two_pow_pos t), Nat.div_eq_of_lt h]
      rw [hdiv]
      rfl
    rw [h4, h6, Nat.testBit_two_pow_self]
    rfl
  · have h7 : a.testBit t = false :=
      Nat.testBit_lt_two_pow
        (lt_of_lt_of_le h (Nat.pow_le_pow_right (by norm_num) (by omega)))
    have h8 : (2 ^ k).testBit t = false := by
      rw [Nat.testBit_two_pow]
      exact decide_eq_false (by omega)
    have h9 : (a + 2 ^ k).testBit t = false := by
      apply Nat.testBit_lt_two_pow
      calc a + 2 ^ k < 2 ^ k + 2 ^ k := by omega
      _ = 2 ^ (k + 1) := by rw [Nat.pow_succ]; omega
      _ ≤ 2 ^ t := Nat.pow_le_pow_right (by norm_num) (by omega)
    rw [h7, h8, h9]
    rfl

/-- Modelled from the spec (§4.4; `qustate.rs` is not among the sources):
`QuState::apply_conditional_gate(mask, G, bits)` applies the gate to exactly
the shot columns whose mask entry is `true` and leaves every other column
untouched.  Shot columns are abstracted to an arbitrary type, the gate to a
column transformation. -/
def applyConditionalGate {α : Type} (mask : List Bool) (f : α → α) (cols : List α) :
    List α :=
  List.zipWith (fun mk c => if mk then f c else c) mask cols

/-- The `CircuitOp::ConditionalGate` arm of `Circuit::reexecute`: build each
shot's target word `cbits[s]` by OR-ing bit `isrc = control[idst]` of the
shot's classical word into position `idst`, compare against `target` for the
mask, then apply the gate conditionally. -/
def condGateBranch {α : Type} (control : List Nat) (target : Nat) (f : α → α)
    (c_state : List Nat) (q_state : List α) : List α :=
  let cbits := control.enum.foldl
    (fun dbl (p : Nat × Nat) =>
      List.zipWith (fun db sb => db ||| (((sb >>> p.2) &&& 1) <<< p.1)) dbl c_state)
    (List.replicate c_state.length 0)
  let apply_gate := cbits.map (fun b => b == target)
  applyConditionalGate apply_gate f q_state

/-- The word-assembly formula exactly as the claim (and spec §6) states it:
`Σ_k ((w >> c_k) & 1) << k`, the first control index giving the least
significant bit. -/
def specCondWord (control : List Nat) (w : Nat) : Nat :=
  control.enum.foldl (fun acc p => acc + (((w >>> p.2) &&& 1) <<< p.1)) 0

theorem getD_zipWith {α β γ : Type} (f : α → β → γ) (l1 : List α) (l2 : List β)
    (s : Nat) (h1 : s < l1.length) (h2 : s < l2.length) (d1 : α) (d2 : β) (d : γ) :
    (List.zipWith f l1 l2).getD s d = f (l1.getD s d1) (l2.getD s d2) := by
  rw [List.getD_eq_getElem?_getD, List.getElem?_zipWith, List.getElem?_eq_getElem h1,
    List.getElem?_eq_getElem h2, List.getD_eq_getElem?_getD, List.getElem?_eq_getElem h1,
    List.getD_eq_getElem?_getD, List.getElem?_eq_getElem h2]
  rfl

theorem getD_map_lt {α β : Type} (f : α → β) (l : List α) (s : Nat) (h : s < l.length)
    (d1 : α) (d : β) : (List.map f l).getD s d = f (l.getD s d1) := by
  rw [List.getD_eq_getElem?_getD, List.getElem?_map, List.getElem?_eq_getElem h,
    List.getD_eq_getElem?_getD, List.getElem?_eq_getElem h]
  rfl

theorem getD_replicate_lt {α : Type} (n s : Nat) (v d : α) (h : s < n) :
    (List.replicate n v).getD s d = v := by
  rw [List.getD_eq_getElem?_getD, List.getElem?_replicate, if_pos h]
  rfl

/-- Per-shot view of the nested `cbits` accumulation loop. -/
theorem condFold_getD (cst : List Nat) (ps : List (Nat × Nat)) :
    ∀ (dbs : List Nat), dbs.length = cst.length → ∀ s, s < cst.length →
    ((ps.foldl
        (fun dbl (p : Nat × Nat) =>
          List.zipWith (fun db sb => db ||| (((sb >>> p.2) &&& 1) <<< p.1)) dbl cst)
        dbs).length = cst.length
     ∧ (ps.foldl
          (fun dbl (p : Nat × Nat) =>
            List.zipWith (fun db sb => db ||| (((sb >>> p.2) &&& 1) <<< p.1)) dbl cst)
          dbs).getD s 0 =
        ps.foldl (fun a p => a ||| (((cst.getD s 0 >>> p.2) &&& 1) <<< p.1)) (dbs.getD s 0)) := by
  induction ps with
  | nil => intro dbs hlen s hs; exact ⟨hlen, rfl⟩
  | cons p pr ih =>
    intro dbs hlen s hs
    have hzlen : (List.zipWith (fun db sb => db ||| (((sb >>> p.2) &&& 1) <<< p.1)) dbs cst).length
        = cst.length := by
      rw [List.length_zipWith, hlen]
      exact Nat.min_self _
    obtain ⟨ih1, ih2⟩ := ih _ hzlen s hs
    refine ⟨ih1, ?_⟩
    rw [List.foldl_cons, List.foldl_cons, ih2,
      getD_zipWith _ dbs cst s (by omega) hs 0 0 0]

/-- The OR-accumulation of `reexecute` equals the spec's sum formula: the bits
are written at the distinct positions `idst`, so OR and addition agree. -/
theorem orFold_eq_sumFold (w : Nat) (ctrl : List Nat) :
    ∀ (k a : Nat), a < 2 ^ k →
    (List.enumFrom k ctrl).foldl (fun acc p => acc ||| (((w >>> p.2) &&& 1) <<< p.1)) a
      = (List.enumFrom k ctrl).foldl (fun acc p => acc + (((w >>> p.2) &&& 1) <<< p.1)) a := by
  induction ctrl with
  | nil => intro k a ha; rfl
  | cons c cs ih =>
    intro k a ha
    show (List.enumFrom (k + 1) cs).foldl _ (a ||| (((w >>> c) &&& 1) <<< k)) =
      (List.enumFrom (k + 1) cs).foldl _ (a + (((w >>> c) &&& 1) <<< k))
    have hb : (w >>> c) &&& 1 = 0 ∨ (w >>> c) &&& 1 = 1 := by
      have : (w >>> c) &&& 1 ≤ 1 := Nat.and_le_right
      omega
    have hor : a ||| (((w >>> c) &&& 1) <<< k) = a + (((w >>> c) &&& 1) <<< k) := by
      rcases hb with hb | hb
      · rw [hb]
        simp
      · rw [hb, Nat.shiftLeft_eq, Nat.one_mul, or_two_pow_of_lt ha]
    rw [hor]
    apply ih
    rcases hb with hb | hb
    · rw [hb]
      simp [Nat.shiftLeft_eq]
      calc a < 2 ^ k := ha
      _ ≤ 2 ^ (k + 1) := Nat.pow_le_pow_right (by norm_num) (by omega)
    · rw [hb, Nat.shiftLeft_eq, Nat.one_mul, Nat.pow_succ]
      omega

/-- Common computation: the mask entry and conditional application for shot `s`. -/
theorem condGateBranch_getD {α : Type} [Inhabited α] (control : List Nat) (target : Nat)
    (f : α → α) (c_state : List Nat) (q_state : List α)
    (hlen : q_state.length = c_state.length) (s : Nat) (hs : s < c_state.length) :
    (condGateBranch control target f c_state q_state).getD s default =
      (if specCondWord control (c_state.getD s 0) == target
       then f (q_state.getD s default) else q_state.getD s default) := by
  obtain ⟨hclen, hcval⟩ := condFold_getD c_state control.enum
    (List.replicate c_state.length 0) (List.length_replicate _ _) s hs
  show (List.zipWith (fun (mk : Bool) (c : α) => if mk then f c else c)
      ((control.enum.foldl
          (fun dbl (p : Nat × Nat) =>
            List.zipWith (fun db sb => db ||| (((sb >>> p.2) &&& 1) <<< p.1)) dbl c_state)
          (List.replicate c_state.length 0)).map (fun b => b == target))
      q_state).getD s default = _
  rw [getD_zipWith (fun (mk : Bool) (c : α) => if mk then f c else c) _ q_state s
      (by rw [List.length_map, hclen]; exact hs)
      (by rw [hlen]; exact hs) false default default,
    getD_map_lt (fun b => b == target) _ s (by rw [hclen]; exact hs) 0 false, hcval,
    getD_replicate_lt _ _ _ _ hs]
  have hor := orFold_eq_sumFold (c_state.getD s 0) control 0 0 (by norm_num)
  show (if ((List.enumFrom 0 control).foldl
        (fun a p => a ||| (((c_state.getD s 0 >>> p.2) &&& 1) <<< p.1)) 0 == target) = true
      then f (q_state.getD s default) else q_state.getD s default) = _
  rw [hor]
  rfl

/-- C1: a `ConditionalGate` with non-empty control list applies its gate to
exactly those shots whose classical word `w` satisfies
`Σ_k ((w >> control[k]) & 1) << k == target` (first control index = least
significant bit), and every other shot's column is untouched. -/
theorem C1_conditional_gate_word (α : Type) [Inhabited α] (control : List Nat)
    (target : Nat) (f : α → α) (c_state : List Nat) (q_state : List α)
    (hlen : q_state.length = c_state.length) (hne : control ≠ []) (s : Nat)
    (hs : s < c_state.length) :
    (condGateBranch control target f c_state q_state).getD s default =
      (if specCondWord control (c_state.getD s 0) = target
       then f (q_state.getD s default) else q_state.getD s default) := by
  rw [condGateBranch_getD control target f c_state q_state hlen s hs]
  simp [beq_iff_eq]

/-- Witness for C1: control `[0, 1]`, target 1; shot words `[1, 2]`. -/
theorem C1_conditional_gate_word_witness :
    (([100, 200] : List Nat).length = ([1, 2] : List Nat).length ∧ ([0, 1] : List Nat) ≠ []
      ∧ 0 < ([1, 2] : List Nat).length)
    ∧ (condGateBranch [0, 1] 1 (fun n : Nat => n + 10) [1, 2] [100, 200]).getD 0 default =
        (if specCondWord [0, 1] (([1, 2] : List Nat).getD 0 0) = 1
         then (fun n : Nat => n + 10) (([100, 200] : List Nat).getD 0 default)
         else ([100, 200] : List Nat).getD 0 default) :=
  ⟨⟨by decide, by decide, by decide⟩,
    C1_conditional_gate_word Nat [0, 1] 1 (fun n : Nat => n + 10) [1, 2] [100, 200]
      (by decide) (by decide) 0 (by decide)⟩

/-- C2 counterexample: with an empty control list and target 1, `reexecute`
compares the assembled word 0 against 1 and applies the gate to **no** shot —
the claim would require it to be applied to every shot (result `[1]`). -/
theorem C2_empty_control_counterexample :
    condGateBranch ([] : List Nat) 1 (fun n : Nat => n + 1) [0] [0] = [0]
    ∧ ([0] : List Nat) ≠ [1] := by
  constructor
  · rfl
  · decide

/-- C2 as amended: with an empty control list the assembled word is 0 for
every shot, so the gate is applied to every shot exactly when `target = 0`,
and to no shot otherwise. -/
theorem C2_empty_control_amended {α : Type} [Inhabited α] (target : Nat) (f : α → α)
    (c_state : List Nat) (q_state : List α) (hlen : q_state.length = c_state.length)
    (s : Nat) (hs : s < c_state.length) :
    (condGateBranch [] target f c_state q_state).getD s default =
      (if target = 0 then f (q_state.getD s default) else q_state.getD s default) := by
  rw [condGateBranch_getD [] target f c_state q_state hlen s hs]
  show (if ((0 == target) = true) then _ else _) = _
  by_cases h : target = 0
  · subst h
    rfl
  · rw [if_neg (by simp [beq_iff_eq]; omega), if_neg h]

/-- Witness for the amended C2 with `target = 0` (gate applied). -/
theorem C2_empty_control_amended_witness :
    (([7] : List Nat).length = ([5] : List Nat).length ∧ 0 < ([5] : List Nat).length)
    ∧ (condGateBranch [] 0 (fun n : Nat => n + 1) [5] [7]).getD 0 default =
        (if (0 : Nat) = 0 then (fun n : Nat => n + 1) (([7] : List Nat).getD 0 default)
         else ([7] : List Nat).getD 0 default) :=
  ⟨⟨by decide, by decide⟩,
    C2_empty_control_amended 0 (fun n : Nat => n + 1) [5] [7] (by decide) 0 (by decide)⟩

/-- An exported gate, abstracted to the two OpenQasm export methods of the
`Gate` trait with the qubit-name table and affected-bit list already applied:
`open_qasm` yields the gate's plain statement, `conditional_open_qasm` takes
the condition string and may fail. -/
structure QGate where
  open_qasm : String
  conditional_open_qasm : String → Except String String

/-- The two `CircuitOp` variants relevant to conditional-gate export.  (The
remaining variants of `Circuit::open_qasm` append fixed text or fail
unconditionally and do not interact with the conditional-gate handling.) -/
inductive CircuitOp where
  | gate (g : QGate)
  | conditionalGate (control : List Nat) (target : Nat) (g : QGate)

/-- `Circuit::is_full_register`: the control list has exactly `nr_cbits`
entries and, after (stable) sorting, reads `0, 1, ..., n-1`. -/
def is_full_register (nr_cbits : Nat) (control : List Nat) : Bool :=
  let n := control.length
  if n ≠ nr_cbits then false
  else
    let scontrol := List.insertionSort (fun a b => a ≤ b) control
    (List.range n).all (fun i => scontrol.getD i 0 == i)

/-- `Circuit::check_open_qasm_condition_bits`. -/
def check_open_qasm_condition_bits (nr_cbits : Nat) (control : List Nat) :
    Except String Unit :=
  if !(is_full_register nr_cbits control) then
    Except.error ("OpenQasm can only perform conditional operations based on a complete classical register")
  else
    Except.ok ()

/-- The op loop of `Circuit::open_qasm`, parameterised by the text accumulated
so far.  `Gate` ops append their statement; `ConditionalGate` ops follow
circuit.rs lines 582-600: empty control emits the plain gate, otherwise the
control bits are checked, the sorted target word `starget` is assembled by
moving bit `tshift` of `target` to position `control[tshift]`, and the gate's
conditional form is emitted with condition `b == starget`. -/
def openQasmOps (nr_cbits : Nat) : List CircuitOp → String → Except String String
  | [], res => Except.ok res
  | CircuitOp.gate g :: ops, res =>
    openQasmOps nr_cbits ops (res ++ g.open_qasm ++ (";\n"))
  | CircuitOp.conditionalGate control target g :: ops, res =>
    if control.isEmpty then
      openQasmOps nr_cbits ops (res ++ g.open_qasm ++ (";\n"))
    else
      match check_open_qasm_condition_bits nr_cbits control with
      | Except.error e => Except.error e
      | Except.ok _ =>
        let starget := control.enum.foldl
          (fun st p => st ||| (((target >>> p.1) &&& 1) <<< p.2)) 0
        match g.conditional_open_qasm (("b == ") ++ toString starget) with
        | Except.error e => Except.error e
        | Except.ok gate_qasm => openQasmOps nr_cbits ops (res ++ gate_qasm ++ (";\n"))

/-- The claim's target-word rewrite: move bit `k` of `target` to bit position
`control[k]` for every `k`, i.e. `Σ_k ((target >> k) & 1) << control[k]`. -/
def specStarget (control : List Nat) (target : Nat) : Nat :=
  control.enum.foldl (fun st p => st + (((target >>> p.1) &&& 1) <<< p.2)) 0

/-- OR-ing in a fresh power of two is addition. -/
theorem or_two_pow_of_testBit (a c : Nat) (h : a.testBit c = false) :
    a ||| 2 ^ c = a + 2 ^ c := by
  have hdm : 2 ^ (c + 1) * (a / 2 ^ (c + 1)) + a % 2 ^ (c + 1) = a :=
    Nat.div_add_mod a (2 ^ (c + 1))
  have hlolt : a % 2 ^ (c + 1) < 2 ^ (c + 1) := Nat.mod_lt _ (Nat.two_pow_pos _)
  have hloc : (a % 2 ^ (c + 1)).testBit c = false := by
    rw [Nat.testBit_mod_two_pow]
    simp [h]
  have hlo2 : a % 2 ^ (c + 1) < 2 ^ c := by
    by_contra hge
    push_neg at hge
    have hlt2 : a % 2 ^ (c + 1) / 2 ^ c < 2 := by
      rw [Nat.div_lt_iff_lt_mul (Nat.two_pow_pos c)]
      calc a % 2 ^ (c + 1) < 2 ^ (c + 1) := hlolt
      _ = 2 ^ c * 2 := by ring
      _ ≤ 2 * 2 ^ c := by omega
    have hge1 : 1 ≤ a % 2 ^ (c + 1) / 2 ^ c :=
      (Nat.le_div_iff_mul_le (Nat.two_pow_pos c)).mpr (by omega)
    have htrue : (a % 2 ^ (c + 1)).testBit c = true := by
      rw [Nat.testBit_to_div_mod]
      have : a % 2 ^ (c + 1) / 2 ^ c = 1 := by omega
      rw [this]
      rfl
    rw [hloc] at htrue
    exact absurd htrue (by simp)
  have hsum : a + 2 ^ c = 2 ^ (c + 1) * (a / 2 ^ (c + 1)) + (a % 2 ^ (c + 1) + 2 ^ c) := by
    omega
  have hsumlt : a % 2 ^ (c + 1) + 2 ^ c < 2 ^ (c + 1) := by
    have hp : 2 ^ (c + 1) = 2 * 2 ^ c := by ring
    omega
  apply Nat.eq_of_testBit_eq
  intro j
  rw [Nat.testBit_or, hsum]
  conv_lhs => rw [← hdm]
  rw [Nat.testBit_mul_pow_two_add _ hlolt j, Nat.testBit_mul_pow_two_add _ hsumlt j,
    Nat.testBit_two_pow]
  by_cases hj : j < c + 1
  · rw [if_pos hj, if_pos hj]
    by_cases hjc : j = c
    · subst hjc
      rw [Nat.testBit_lt_two_pow hlo2]
      have h2 : a % 2 ^ (j + 1) + 2 ^ j = 2 ^ j * 1 + a % 2 ^ (j + 1) := by omega
      rw [h2, Nat.testBit_mul_pow_two_add 1 hlo2 j, if_neg (lt_irrefl j), Nat.sub_self]
      simp
    · have hjlt : j < c := by omega
      have h2 : a % 2 ^ (c + 1) + 2 ^ c = 2 ^ c * 1 + a % 2 ^ (c + 1) := by omega
      rw [h2, Nat.testBit_mul_pow_two_add 1 hlo2 j, if_pos hjlt]
      have : decide (c = j) = false := by simp; omega
      rw [this, Bool.or_false]
  · rw [if_neg hj, if_neg hj]
    have : decide (c = j) = false := by simp; omega
    rw [this, Bool.or_false]

/-- Over pairwise-distinct destination bits, the OR-accumulation of `starget`
equals the corresponding sum. -/
theorem starget_or_eq_sum (target : Nat) :
    ∀ (ps : List (Nat × Nat)) (acc : Nat),
      (List.map Prod.snd ps).Nodup →
      (∀ p ∈ ps, acc.testBit p.2 = false) →
      ps.foldl (fun st p => st ||| (((target >>> p.1) &&& 1) <<< p.2)) acc
        = ps.foldl (fun st p => st + (((target >>> p.1) &&& 1) <<< p.2)) acc := by
  intro ps
  induction ps with
  | nil => intro acc _ _; rfl
  | cons p pr ih =>
    intro acc hnd hbit
    rw [List.map_cons, List.nodup_cons] at hnd
    have hx : (target >>> p.1) &&& 1 = 0 ∨ (target >>> p.1) &&& 1 = 1 := by
      have : (target >>> p.1) &&& 1 ≤ 1 := Nat.and_le_right
      omega
    have hstep : acc ||| (((target >>> p.1) &&& 1) <<< p.2)
        = acc + (((target >>> p.1) &&& 1) <<< p.2) := by
      rcases hx with hx | hx
      · rw [hx]
        simp [Nat.shiftLeft_eq]
      · rw [hx, Nat.shiftLeft_eq, Nat.one_mul]
        exact or_two_pow_of_testBit acc p.2 (hbit p (List.mem_cons_self p pr))
    rw [List.foldl_cons, List.foldl_cons, hstep]
    apply ih
    · exact hnd.2
    · intro q hq
      rw [← hstep, Nat.testBit_or]
      have h1 : acc.testBit q.2 = false := hbit q (List.mem_cons_of_mem p hq)
      have h2 : Nat.testBit (((target >>> p.1) &&& 1) <<< p.2) q.2 = false := by
        rcases hx with hx | hx
        · rw [hx]
          simp [Nat.shiftLeft_eq]
        · rw [hx, Nat.shiftLeft_eq, Nat.one_mul, Nat.testBit_two_pow]
          have hne : p.2 ≠ q.2 := by
            intro he
            exact hnd.1 (he ▸ List.mem_map_of_mem Prod.snd hq)
          simp [hne]
      rw [h1, h2]
      rfl

/-- `is_full_register` succeeds exactly when the control list is a
permutation of `0, 1, ..., nr_cbits - 1`. -/
theorem is_full_register_iff (nr_cbits : Nat) (control : List Nat) :
    is_full_register nr_cbits control = true ↔ control.Perm (List.range nr_cbits) := by
  unfold is_full_register
  by_cases hn : control.length = nr_cbits
  · rw [if_neg (by omega)]
    have hslen : (List.insertionSort (fun a b => a ≤ b) control).length = control.length :=
      List.length_insertionSort _ _
    constructor
    · intro hall
      have heq : List.insertionSort (fun a b => a ≤ b) control = List.range control.length := by
        apply List.ext_getElem (by rw [hslen, List.length_range])
        intro i h1 h2
        have hi := (List.all_eq_true.mp hall) i (List.mem_range.mpr (by omega))
        have := beq_iff_eq.mp hi
        rw [List.getElem_range]
        rw [List.getD_eq_getElem _ _ h1] at this
        exact this
      have : control.Perm (List.range control.length) := by
        rw [← heq]
        exact (List.perm_insertionSort _ control).symm
      rw [hn] at this
      exact this
    · intro hp
      have hsp : (List.insertionSort (fun a b => a ≤ b) control).Perm
          (List.range control.length) := by
        rw [hn]
        exact (List.perm_insertionSort _ control).trans hp
      have heq : List.insertionSort (fun a b => a ≤ b) control = List.range control.length := by
        apply List.eq_of_perm_of_sorted hsp (List.sorted_insertionSort _ control)
        exact List.sorted_le_range _
      rw [List.all_eq_true]
      intro i hi
      have hilt : i < control.length := List.mem_range.mp hi
      rw [heq, List.getD_eq_getElem _ _ (by rw [List.length_range]; exact hilt),
        List.getElem_range]
      exact beq_iff_eq.mpr rfl
  · rw [if_pos (by omega)]
    constructor
    · intro h
      exact absurd h (by simp)
    · intro hp
      exact absurd (hp.length_eq.trans (List.length_range _)) hn

theorem openQasmOps_cons_gate (nr_cbits : Nat) (g : QGate) (ops : List CircuitOp)
    (res : String) :
    openQasmOps nr_cbits (CircuitOp.gate g :: ops) res =
      openQasmOps nr_cbits ops (res ++ g.open_qasm ++ (";\n")) := rfl

theorem openQasmOps_cons_condGate (nr_cbits : Nat) (c : List Nat) (t : Nat) (g : QGate)
    (ops : List CircuitOp) (res : String) :
    openQasmOps nr_cbits (CircuitOp.conditionalGate c t g :: ops) res =
      (if c.isEmpty then openQasmOps nr_cbits ops (res ++ g.open_qasm ++ (";\n"))
      else
        match check_open_qasm_condition_bits nr_cbits c with
        | Except.error e => Except.error e
        | Except.ok _ =>
          match g.conditional_open_qasm (("b == ") ++ toString
              (c.enum.foldl (fun st p => st ||| (((t >>> p.1) &&& 1) <<< p.2)) 0)) with
          | Except.error e => Except.error e
          | Except.ok gate_qasm => openQasmOps nr_cbits ops (res ++ gate_qasm ++ (";\n"))) := rfl

/-- If some conditional gate in the op list has a non-empty control list that
is not a permutation of the register, the whole export errors out. -/
theorem openQasmOps_error_of_bad_control (nr_cbits : Nat) :
    ∀ (ops : List CircuitOp) (res : String) (control : List Nat) (target : Nat) (g : QGate),
      CircuitOp.conditionalGate control target g ∈ ops → control ≠ [] →
      ¬ control.Perm (List.range nr_cbits) →
      ∃ e, openQasmOps nr_cbits ops res = Except.error e := by
  intro ops
  induction ops with
  | nil =>
    intro res c t g hmem _ _
    exact absurd hmem (List.not_mem_nil _)
  | cons op ops ih =>
    intro res c t g hmem hne hnp
    rcases List.mem_cons.mp hmem with heq | hmem2
    · subst heq
      rw [openQasmOps_cons_condGate]
      have hce : c.isEmpty = false := by
        cases c with
        | nil => exact absurd rfl hne
        | cons a l => rfl
      rw [if_neg (by rw [hce]; exact Bool.false_ne_true)]
      have hifr : is_full_register nr_cbits c = false := by
        cases hfr : is_full_register nr_cbits c with
        | false => rfl
        | true => exact absurd ((is_full_register_iff _ _).mp hfr) hnp
      have hchk : check_open_qasm_condition_bits nr_cbits c = Except.error
          ("OpenQasm can only perform conditional operations based on a complete classical register") := by
        unfold check_open_qasm_condition_bits
        rw [hifr]
        rfl
      rw [hchk]
      exact ⟨_, rfl⟩
    · cases op with
      | gate g2 =>
        rw [openQasmOps_cons_gate]
        exact ih _ _ _ _ hmem2 hne hnp
      | conditionalGate c2 t2 g2 =>
        rw [openQasmOps_cons_condGate]
        by_cases hce : c2.isEmpty = true
        · rw [if_pos hce]
          exact ih _ _ _ _ hmem2 hne hnp
        · rw [if_neg hce]
          cases hchk : check_open_qasm_condition_bits nr_cbits c2 with
          | error e =>
            exact ⟨e, rfl⟩
          | ok u =>
            cases hg : g2.conditional_open_qasm (("b == ") ++ toString
                (c2.enum.foldl (fun st p => st ||| (((t2 >>> p.1) &&& 1) <<< p.2)) 0)) with
            | error e =>
              exact ⟨e, rfl⟩
            | ok gq =>
              exact ih _ _ _ _ hmem2 hne hnp

/-- A conditional gate whose control list is a full-register permutation is
exported with condition string built from the claim's rewritten target. -/
theorem openQasmOps_cond_perm (nr_cbits : Nat) (control : List Nat) (target : Nat)
    (g : QGate) (ops : List CircuitOp) (res : String) (hne : control ≠ [])
    (hp : control.Perm (List.range nr_cbits)) :
    openQasmOps nr_cbits (CircuitOp.conditionalGate control target g :: ops) res =
      (match g.conditional_open_qasm (("b == ") ++ toString (specStarget control target)) with
      | Except.error e => Except.error e
      | Except.ok gq => openQasmOps nr_cbits ops (res ++ gq ++ (";\n"))) := by
  rw [openQasmOps_cons_condGate]
  have hce : control.isEmpty = false := by
    cases control with
    | nil => exact absurd rfl hne
    | cons a l => rfl
  rw [if_neg (by rw [hce]; exact Bool.false_ne_true)]
  have hifr : is_full_register nr_cbits control = true := (is_full_register_iff _ _).mpr hp
  have hchk : check_open_qasm_condition_bits nr_cbits control = Except.ok () := by
    unfold check_open_qasm_condition_bits
    rw [hifr]
    rfl
  rw [hchk]
  have hnodup : control.Nodup := (List.Perm.nodup_iff hp).mpr (List.nodup_range _)
  have hfold : control.enum.foldl (fun st p => st ||| (((target >>> p.1) &&& 1) <<< p.2)) 0
      = specStarget control target := by
    unfold specStarget
    apply starget_or_eq_sum
    · rw [List.enum_map_snd]
      exact hnodup
    · intro p _
      exact Nat.zero_testBit _
  rw [hfold]

/-- C9: `Circuit::open_qasm` fails with an error whenever some
`ConditionalGate` op has a non-empty control list that is not a permutation
of `[0, nr_cbits)`; and when the control list is such a permutation, the
condition handed to the gate's conditional export is `b == T'` with `T'`
obtained by moving bit `k` of the target to bit position `control[k]`. -/
theorem C9_open_qasm_conditional (nr_cbits : Nat) :
    (∀ (ops : List CircuitOp) (res : String) (control : List Nat) (target : Nat) (g : QGate),
        CircuitOp.conditionalGate control target g ∈ ops → control ≠ [] →
        ¬ control.Perm (List.range nr_cbits) →
        ∃ e, openQasmOps nr_cbits ops res = Except.error e)
    ∧ (∀ (control : List Nat) (target : Nat) (g : QGate) (ops : List CircuitOp) (res : String),
        control ≠ [] → control.Perm (List.range nr_cbits) →
        openQasmOps nr_cbits (CircuitOp.conditionalGate control target g :: ops) res =
          (match g.conditional_open_qasm (("b == ") ++ toString (specStarget control target)) with
          | Except.error e => Except.error e
          | Except.ok gq => openQasmOps nr_cbits ops (res ++ gq ++ (";\n")))) :=
  ⟨fun ops res control target g hmem hne hnp =>
      openQasmOps_error_of_bad_control nr_cbits ops res control target g hmem hne hnp,
    fun control target g ops res hne hp =>
      openQasmOps_cond_perm nr_cbits control target g ops res hne hp⟩

/-- A concrete gate used to instantiate the C9 theorem. -/
def gW : QGate :=
  ⟨("x q"), fun cond => Except.ok (("if ") ++ cond ++ (" x q"))⟩

/-- Witness for C9 at `nr_cbits = 2`: control `[0, 0]` (not a permutation)
makes the export fail; control `[1, 0]` (a permutation) emits the rewritten
condition. -/
theorem C9_open_qasm_conditional_witness :
    (CircuitOp.conditionalGate [0, 0] 1 gW ∈ [CircuitOp.conditionalGate [0, 0] 1 gW]
      ∧ ([0, 0] : List Nat) ≠ [] ∧ ¬ ([0, 0] : List Nat).Perm (List.range 2)
      ∧ ∃ e, openQasmOps 2 [CircuitOp.conditionalGate [0, 0] 1 gW] ("") = Except.error e)
    ∧ (([1, 0] : List Nat) ≠ [] ∧ ([1, 0] : List Nat).Perm (List.range 2)
      ∧ openQasmOps 2 (CircuitOp.conditionalGate [1, 0] 2 gW :: []) ("") =
          (match gW.conditional_open_qasm (("b == ") ++ toString (specStarget [1, 0] 2)) with
          | Except.error e => Except.error e
          | Except.ok gq => openQasmOps 2 [] (("") ++ gq ++ (";\n")))) :=
  ⟨⟨by simp, by decide, by decide,
      (C9_open_qasm_conditional 2).1 [CircuitOp.conditionalGate [0, 0] 1 gW] ("") [0, 0] 1 gW
        (by simp) (by decide) (by decide)⟩,
    ⟨by decide, by decide,
      (C9_open_qasm_conditional 2).2 [1, 0] 2 gW [] ("") (by decide) (by decide)⟩⟩

/-! Matrices over a commutative ring are modelled as entry functions
`Nat → Nat → α` and state slices as `Nat → α`; the complex entries of the
source are abstracted to the ring `α`.  Entries are only ever read below the
intended dimensions. -/

/-- The identity matrix `CMatrix::eye` (dimension-free as an entry function). -/
def eye (α : Type) [CommRing α] : Nat → Nat → α :=
  fun i j => if i = j then 1 else 0

/-- `cmatrix::kron_mat m0 m1` for a `2^k1 × 2^k1` right factor: block
`(i0, j0)` of the result is `m0[i0, j0] * m1`. -/
def kron_mat {α : Type} [CommRing α] (k1 : Nat) (m0 m1 : Nat → Nat → α) :
    Nat → Nat → α :=
  fun i j => m0 (i / 2 ^ k1) (j / 2 ^ k1) * m1 (i % 2 ^ k1) (j % 2 ^ k1)

/-- The default `Gate::apply_slice` of a `k`-bit gate with matrix `mat` on a
slice of length `len`: with block size `n = len >> k`, block `i` of the
result is `Σ_j mat[i, j] ·` block `j` of the state.  (The hand-unrolled
`k = 1` and `k = 2` branches of the source compute this same formula.) -/
def apply_slice {α : Type} [CommRing α] (k : Nat) (mat : Nat → Nat → α)
    (len : Nat) (state : Nat → α) : Nat → α :=
  fun idx =>
    ∑ j ∈ Finset.range (2 ^ k),
      mat (idx / (len >>> k)) j * state (j * (len >>> k) + idx % (len >>> k))

/-- `Kron::apply_slice`: apply `g0` to the full slice, then `g1` to each half
(`n = len / 2`), each sub-gate acting by the generic block formula. -/
def kron_apply_slice {α : Type} [CommRing α] (k0 : Nat) (m0 : Nat → Nat → α)
    (k1 : Nat) (m1 : Nat → Nat → α) (len : Nat) (state : Nat → α) : Nat → α :=
  fun idx =>
    if idx < len / 2 then
      apply_slice k1 m1 (len / 2) (apply_slice k0 m0 len state) idx
    else
      apply_slice k1 m1 (len / 2)
        (fun t => apply_slice k0 m0 len state (len / 2 + t)) (idx - len / 2)

theorem two_mul_shiftRight_one (n : Nat) : (2 * n) >>> 1 = n := by
  rw [Nat.shiftRight_eq_div_pow, pow_one, Nat.mul_div_cancel_left _ (by norm_num)]

/-- A single-qubit gate's action on the lower half of a slice. -/
theorem apply_slice_one_lo {α : Type} [CommRing α] (m0 : Nat → Nat → α) (n : Nat)
    (state : Nat → α) (x : Nat) (hx : x < n) :
    apply_slice 1 m0 (2 * n) state x = m0 0 0 * state x + m0 0 1 * state (n + x) := by
  unfold apply_slice
  rw [two_mul_shiftRight_one]
  rw [show (2 : Nat) ^ 1 = 2 from rfl, Finset.sum_range_succ, Finset.sum_range_one,
    Nat.div_eq_of_lt hx, Nat.mod_eq_of_lt hx, Nat.zero_mul, Nat.zero_add, Nat.one_mul]

/-- A single-qubit gate's action on the upper half of a slice. -/
theorem apply_slice_one_hi {α : Type} [CommRing α] (m0 : Nat → Nat → α) (n : Nat)
    (state : Nat → α) (x : Nat) (hx : x < n) :
    apply_slice 1 m0 (2 * n) state (n + x)
      = m0 1 0 * state x + m0 1 1 * state (n + x) := by
  have hn : 0 < n := by omega
  unfold apply_slice
  rw [two_mul_shiftRight_one]
  have hdiv : (n + x) / n = 1 := by
    rw [Nat.add_comm, Nat.add_div_right _ hn, Nat.div_eq_of_lt hx]
  have hmod : (n + x) % n = x := by
    rw [Nat.add_mod_left, Nat.mod_eq_of_lt hx]
  rw [show (2 : Nat) ^ 1 = 2 from rfl, Finset.sum_range_succ, Finset.sum_range_one,
    hdiv, hmod, Nat.zero_mul, Nat.zero_add, Nat.one_mul]

theorem apply_slice_eval {α : Type} [CommRing α] (k : Nat) (mat : Nat → Nat → α)
    (len : Nat) (state : Nat → α) (idx : Nat) :
    apply_slice k mat len state idx
      = ∑ j ∈ Finset.range (2 ^ k),
          mat (idx / (len >>> k)) j * state (j * (len >>> k) + idx % (len >>> k)) := rfl

/-- On a slice of length `2^(1+k1) * m`, applying a single-qubit `G0` to the
whole slice and then `G1` to each half equals applying the Kronecker-product
matrix. -/
theorem kron_apply_slice_single {α : Type} [CommRing α] (k1 m : Nat)
    (m0 m1 : Nat → Nat → α) (state : Nat → α) (idx : Nat)
    (hidx : idx < 2 * (2 ^ k1 * m)) :
    kron_apply_slice 1 m0 k1 m1 (2 * (2 ^ k1 * m)) state idx
      = apply_slice (1 + k1) (kron_mat k1 m0 m1) (2 * (2 ^ k1 * m)) state idx := by
  have hm : 0 < m := by
    rcases Nat.eq_zero_or_pos m with h | h
    · subst h
      simp at hidx
    · exact h
  have hN1 : 0 < 2 ^ k1 := Nat.two_pow_pos k1
  have hn0 : 0 < 2 ^ k1 * m := Nat.mul_pos hN1 hm
  have hhalf : 2 * (2 ^ k1 * m) / 2 = 2 ^ k1 * m :=
    Nat.mul_div_cancel_left _ (by norm_num)
  have hnb : (2 ^ k1 * m) >>> k1 = m := by
    rw [Nat.shiftRight_eq_div_pow, Nat.mul_div_cancel_left m hN1]
  have hlb : (2 * (2 ^ k1 * m)) >>> (1 + k1) = m := by
    rw [Nat.shiftRight_eq_div_pow, pow_add, pow_one,
      show 2 * (2 ^ k1 * m) = (2 * 2 ^ k1) * m by ring]
    exact Nat.mul_div_cancel_left m (by positivity)
  have hsplit : (2 : Nat) ^ (1 + k1) = 2 ^ k1 + 2 ^ k1 := by
    rw [pow_add, pow_one]
    ring
  rw [apply_slice_eval, hlb, hsplit, Finset.sum_range_add]
  unfold kron_apply_slice
  rw [hhalf]
  by_cases hcase : idx < 2 ^ k1 * m
  · rw [if_pos hcase]
    rw [apply_slice_eval, hnb]
    have hq : idx / m < 2 ^ k1 := (Nat.div_lt_iff_lt_mul hm).mpr (by omega)
    have hdd : idx / m / 2 ^ k1 = 0 := Nat.div_eq_of_lt hq
    have hdm : idx / m % 2 ^ k1 = idx / m := Nat.mod_eq_of_lt hq
    have hterm : ∀ j ∈ Finset.range (2 ^ k1),
        m1 (idx / m) j * apply_slice 1 m0 (2 * (2 ^ k1 * m)) state (j * m + idx % m)
          = m1 (idx / m) j * (m0 0 0 * state (j * m + idx % m)
              + m0 0 1 * state (2 ^ k1 * m + (j * m + idx % m))) := by
      intro j hj
      have hjlt : j < 2 ^ k1 := Finset.mem_range.mp hj
      have harg : j * m + idx % m < 2 ^ k1 * m := by
        have h1 : idx % m < m := Nat.mod_lt _ hm
        have h2 : (j + 1) * m ≤ 2 ^ k1 * m := Nat.mul_le_mul_right m hjlt
        have h3 : j * m + m = (j + 1) * m := by ring
        omega
      rw [apply_slice_one_lo m0 (2 ^ k1 * m) state _ harg]
    rw [Finset.sum_congr rfl hterm]
    have hL : ∀ j ∈ Finset.range (2 ^ k1),
        m1 (idx / m) j * (m0 0 0 * state (j * m + idx % m)
            + m0 0 1 * state (2 ^ k1 * m + (j * m + idx % m)))
          = m1 (idx / m) j * (m0 0 0 * state (j * m + idx % m))
            + m1 (idx / m) j * (m0 0 1 * state (2 ^ k1 * m + (j * m + idx % m))) := by
      intro j _
      ring
    rw [Finset.sum_congr rfl hL, Finset.sum_add_distrib]
    congr 1
    · apply Finset.sum_congr rfl
      intro j hj
      have hjlt : j < 2 ^ k1 := Finset.mem_range.mp hj
      unfold kron_mat
      rw [hdd, hdm, Nat.div_eq_of_lt hjlt, Nat.mod_eq_of_lt hjlt]
      ring
    · apply Finset.sum_congr rfl
      intro j hj
      have hjlt : j < 2 ^ k1 := Finset.mem_range.mp hj
      unfold kron_mat
      have hjd : (2 ^ k1 + j) / 2 ^ k1 = 1 := by
        rw [Nat.add_comm, Nat.add_div_right _ hN1, Nat.div_eq_of_lt hjlt]
      have hjm : (2 ^ k1 + j) % 2 ^ k1 = j := by
        rw [Nat.add_mod_left, Nat.mod_eq_of_lt hjlt]
      have hst : (2 ^ k1 + j) * m + idx % m = 2 ^ k1 * m + (j * m + idx % m) := by
        ring
      rw [hdd, hdm, hjd, hjm, hst]
      ring
  · rw [if_neg hcase]
    rw [apply_slice_eval, hnb]
    have hu : idx - 2 ^ k1 * m < 2 ^ k1 * m := by omega
    have hidxeq : idx = 2 ^ k1 * m + (idx - 2 ^ k1 * m) := by omega
    have huq : (idx - 2 ^ k1 * m) / m < 2 ^ k1 := (Nat.div_lt_iff_lt_mul hm).mpr (by omega)
    have hdivm : idx / m = (idx - 2 ^ k1 * m) / m + 2 ^ k1 := by
      conv_lhs => rw [hidxeq]
      rw [show 2 ^ k1 * m + (idx - 2 ^ k1 * m) = (idx - 2 ^ k1 * m) + 2 ^ k1 * m by ring,
        Nat.add_mul_div_right _ _ hm]
    have hmodm : idx % m = (idx - 2 ^ k1 * m) % m := by
      conv_lhs => rw [hidxeq]
      rw [show 2 ^ k1 * m + (idx - 2 ^ k1 * m) = (idx - 2 ^ k1 * m) + 2 ^ k1 * m by ring,
        Nat.add_mul_mod_self_right]
    have hdd : idx / m / 2 ^ k1 = 1 := by
      rw [hdivm, Nat.add_div_right _ hN1, Nat.div_eq_of_lt huq]
    have hdm : idx / m % 2 ^ k1 = (idx - 2 ^ k1 * m) / m := by
      rw [hdivm, Nat.add_mod_right, Nat.mod_eq_of_lt huq]
    have hterm : ∀ j ∈ Finset.range (2 ^ k1),
        m1 ((idx - 2 ^ k1 * m) / m) j
            * apply_slice 1 m0 (2 * (2 ^ k1 * m)) state
                (2 ^ k1 * m + (j * m + (idx - 2 ^ k1 * m) % m))
          = m1 ((idx - 2 ^ k1 * m) / m) j
              * (m0 1 0 * state (j * m + (idx - 2 ^ k1 * m) % m)
                + m0 1 1 * state (2 ^ k1 * m + (j * m + (idx - 2 ^ k1 * m) % m))) := by
      intro j hj
      have hjlt : j < 2 ^ k1 := Finset.mem_range.mp hj
      have harg : j * m + (idx - 2 ^ k1 * m) % m < 2 ^ k1 * m := by
        have h1 : (idx - 2 ^ k1 * m) % m < m := Nat.mod_lt _ hm
        have h2 : (j + 1) * m ≤ 2 ^ k1 * m := Nat.mul_le_mul_right m hjlt
        have h3 : j * m + m = (j + 1) * m := by ring
        omega
      rw [apply_slice_one_hi m0 (2 ^ k1 * m) state _ harg]
    rw [Finset.sum_congr rfl hterm]
    have hL : ∀ j ∈ Finset.range (2 ^ k1),
        m1 ((idx - 2 ^ k1 * m) / m) j
            * (m0 1 0 * state (j * m + (idx - 2 ^ k1 * m) % m)
              + m0 1 1 * state (2 ^ k1 * m + (j * m + (idx - 2 ^ k1 * m) % m)))
          = m1 ((idx - 2 ^ k1 * m) / m) j
              * (m0 1 0 * state (j * m + (idx - 2 ^ k1 * m) % m))
            + m1 ((idx - 2 ^ k1 * m) / m) j
                * (m0 1 1 * state (2 ^ k1 * m + (j * m + (idx - 2 ^ k1 * m) % m))) := by
      intro j _
      ring
    rw [Finset.sum_congr rfl hL, Finset.sum_add_distrib]
    congr 1
    · apply Finset.sum_congr rfl
      intro j hj
      have hjlt : j < 2 ^ k1 := Finset.mem_range.mp hj
      unfold kron_mat
      rw [hdd, hdm, hmodm, Nat.div_eq_of_lt hjlt, Nat.mod_eq_of_lt hjlt]
      ring
    · apply Finset.sum_congr rfl
      intro j hj
      have hjlt : j < 2 ^ k1 := Finset.mem_range.mp hj
      unfold kron_mat
      have hjd : (2 ^ k1 + j) / 2 ^ k1 = 1 := by
        rw [Nat.add_comm, Nat.add_div_right _ hN1, Nat.div_eq_of_lt hjlt]
      have hjm : (2 ^ k1 + j) % 2 ^ k1 = j := by
        rw [Nat.add_mod_left, Nat.mod_eq_of_lt hjlt]
      have hst : (2 ^ k1 + j) * m + (idx - 2 ^ k1 * m) % m
          = 2 ^ k1 * m + (j * m + (idx - 2 ^ k1 * m) % m) := by
        ring
      rw [hdd, hdm, hmodm, hjd, hjm, hst]
      ring

/-- The CX matrix (control = first qubit): `|10⟩ ↔ |11⟩`. -/
def CXmat : Nat → Nat → ℤ := fun i j =>
  if (i = 0 ∧ j = 0) ∨ (i = 1 ∧ j = 1) ∨ (i = 2 ∧ j = 3) ∨ (i = 3 ∧ j = 2) then 1 else 0

/-- The X (NOT) matrix. -/
def Xmat : Nat → Nat → ℤ := fun i j =>
  if (i = 0 ∧ j = 1) ∨ (i = 1 ∧ j = 0) then 1 else 0

/-- The basis state `|100⟩` of a 3-qubit slice. -/
def e4 : Nat → ℤ := fun i => if i = 4 then 1 else 0

/-- C8 counterexample: for `Kron(CX, X)` on the slice `|100⟩` (G0-bits
leading), `Kron::apply_slice` leaves entry 4 at 1 (it returns `|100⟩`),
while multiplication by `CX ⊗ X` zeroes it (the product is `|111⟩`). -/
theorem C8_kron_counterexample :
    kron_apply_slice 2 CXmat 1 Xmat 8 e4 4 = 1
    ∧ apply_slice 3 (kron_mat 1 CXmat Xmat) 8 e4 4 = 0
    ∧ (1 : ℤ) ≠ 0 := by
  refine ⟨?_, ?_, ?_⟩ <;> decide

/-- C8 (amended): `Kron::apply_slice` transforms the slice identically to
multiplication by `G0.matrix() ⊗ G1.matrix()` when `G0` affects a single
qubit; the counterexample above shows the unrestricted claim fails for a
two-qubit `G0`. -/
theorem C8_kron_apply_slice_amended {α : Type} [CommRing α] (k1 m : Nat)
    (m0 m1 : Nat → Nat → α) (state : Nat → α) (idx : Nat)
    (hidx : idx < 2 * (2 ^ k1 * m)) :
    kron_apply_slice 1 m0 k1 m1 (2 * (2 ^ k1 * m)) state idx
      = apply_slice (1 + k1) (kron_mat k1 m0 m1) (2 * (2 ^ k1 * m)) state idx :=
  kron_apply_slice_single k1 m m0 m1 state idx hidx

/-- Witness for the amended C8: `X ⊗ X` on a length-4 slice. -/
theorem C8_kron_apply_slice_amended_witness :
    (1 : Nat) < 2 * (2 ^ 1 * 1)
    ∧ kron_apply_slice 1 Xmat 1 Xmat (2 * (2 ^ 1 * 1)) (fun i => (i : ℤ)) 1
        = apply_slice (1 + 1) (kron_mat 1 Xmat Xmat) (2 * (2 ^ 1 * 1)) (fun i => (i : ℤ)) 1 :=
  ⟨by decide, C8_kron_apply_slice_amended 1 1 Xmat Xmat (fun i => (i : ℤ)) 1 (by decide)⟩

/-- `get_sort_key`: the new row number for row `idx`, built by extracting the
affected bits of `idx` MSB-first. -/
def get_sort_key (idx nr_bits : Nat) (affected : List Nat) : Nat :=
  affected.foldl (fun res b => (res <<< 1) ||| ((idx >>> (nr_bits - b - 1)) &&& 1)) 0

/-- The stable sort of `0 .. 2^nr_bits` by sort key (Rust's stable
`sort_by_key` modelled by insertion sort). -/
def sorted_indices (nr_bits : Nat) (affected : List Nat) : List Nat :=
  List.insertionSort
    (fun a b => get_sort_key a nr_bits affected ≤ get_sort_key b nr_bits affected)
    (List.range (2 ^ nr_bits))

/-- Modelled from the spec (§4.3; `permutation.rs` is not among the sources):
`Permutation::new(idxs).inverse()` is the assignment `i ↦` position of `i`
in `idxs`.  `bit_permutation` composes the pieces exactly as the source. -/
def bit_permutation (nr_bits : Nat) (affected : List Nat) : Nat → Nat :=
  fun i => (sorted_indices nr_bits affected).indexOf i

/-- Modelled from the spec (§4.2/§4.3; `permutation.rs` is not among the
sources): `Permutation::transform(M) = P · M · Pᵀ` reindexes rows and
columns of `M` through the permutation assignment. -/
def transform {α : Type} [CommRing α] (p : Nat → Nat) (mat : Nat → Nat → α) :
    Nat → Nat → α :=
  fun i j => mat (p i) (p j)

/-- `Gate::expanded_matrix`: the special tensor construction for single-qubit
gates, the permutation-based construction otherwise. -/
def expanded_matrix {α : Type} [CommRing α] (gate_bits : Nat)
    (gmat : Nat → Nat → α) (bits : List Nat) (nr_bits : Nat) : Nat → Nat → α :=
  if gate_bits = 1 then
    kron_mat (nr_bits - bits.headD 0) (eye α)
      (kron_mat (nr_bits - bits.headD 0 - 1) gmat (eye α))
  else
    transform (bit_permutation nr_bits bits)
      (kron_mat (nr_bits - gate_bits) gmat (eye α))

theorem get_sort_key_single (idx nr_bits b0 : Nat) :
    get_sort_key idx nr_bits [b0] = (idx >>> (nr_bits - b0 - 1)) &&& 1 := by
  unfold get_sort_key
  rw [List.foldl_cons, List.foldl_nil]
  simp

theorem orderedInsert_key_zero {α : Type} (k : α → Nat) [DecidableRel (fun a b => k a ≤ k b)]
    (a : α) (hk : k a = 0) (l : List α) :
    List.orderedInsert (fun x y => k x ≤ k y) a l = a :: l := by
  cases l with
  | nil => rfl
  | cons b t =>
    show (if k a ≤ k b then a :: b :: t else b :: _) = a :: b :: t
    rw [if_pos (by omega)]

theorem orderedInsert_key_one_skip {α : Type} (k : α → Nat)
    [DecidableRel (fun a b => k a ≤ k b)] (a : α) (hk : k a = 1) :
    ∀ (l0 : List α), (∀ x ∈ l0, k x = 0) → ∀ (l1 : List α),
      List.orderedInsert (fun x y => k x ≤ k y) a (l0 ++ l1)
        = l0 ++ List.orderedInsert (fun x y => k x ≤ k y) a l1 := by
  intro l0
  induction l0 with
  | nil => intro _ l1; rfl
  | cons b t ih =>
    intro h0 l1
    have hb : k b = 0 := h0 b (List.mem_cons_self _ _)
    show (if k a ≤ k b then a :: (b :: t ++ l1) else b :: _) = _
    rw [if_neg (by omega)]
    show b :: List.orderedInsert (fun x y => k x ≤ k y) a (t ++ l1)
      = b :: (t ++ List.orderedInsert (fun x y => k x ≤ k y) a l1)
    rw [ih (fun x hx => h0 x (List.mem_cons_of_mem _ hx)) l1]

theorem orderedInsert_key_one_front {α : Type} (k : α → Nat)
    [DecidableRel (fun a b => k a ≤ k b)] (a : α) (hk : k a = 1) (l1 : List α)
    (h1 : ∀ x ∈ l1, k x = 1) :
    List.orderedInsert (fun x y => k x ≤ k y) a l1 = a :: l1 := by
  cases l1 with
  | nil => rfl
  | cons b t =>
    have hb : k b = 1 := h1 b (List.mem_cons_self _ _)
    show (if k a ≤ k b then a :: b :: t else b :: _) = a :: b :: t
    rw [if_pos (by omega)]

/-- Insertion sort by a two-valued key is the concatenation of the key-0 and
key-1 sublists (stability). -/
theorem insertionSort_two_key {α : Type} (k : α → Nat)
    [DecidableRel (fun a b => k a ≤ k b)] :
    ∀ l : List α, (∀ a ∈ l, k a ≤ 1) →
      List.insertionSort (fun a b => k a ≤ k b) l
        = l.filter (fun a => k a == 0) ++ l.filter (fun a => k a == 1) := by
  intro l
  induction l with
  | nil => intro _; rfl
  | cons a t ih =>
    intro hk
    have hka : k a ≤ 1 := hk a (List.mem_cons_self _ _)
    have hrec := ih (fun x hx => hk x (List.mem_cons_of_mem _ hx))
    show List.orderedInsert _ a (List.insertionSort _ t) = _
    rw [hrec]
    rcases Nat.le_one_iff_eq_zero_or_eq_one.mp hka with h0 | h1
    · rw [orderedInsert_key_zero k a h0]
      rw [List.filter_cons, List.filter_cons]
      have e0 : (k a == 0) = true := by simp [h0]
      have e1 : (k a == 1) = false := by simp [h0]
      rw [e0, e1]
      rfl
    · rw [orderedInsert_key_one_skip k a h1 _
        (fun x hx => by
          have := List.of_mem_filter hx
          simpa using this) _]
      rw [orderedInsert_key_one_front k a h1 _
        (fun x hx => by
          have := List.of_mem_filter hx
          simpa using this)]
      rw [List.filter_cons, List.filter_cons]
      have e0 : (k a == 0) = false := by simp [h1]
      have e1 : (k a == 1) = true := by simp [h1]
      rw [e0, e1]
      simp

/-- Insert bit value `beta` at bit position `s` of `p`. -/
def insert_bit (s beta : Nat) : Nat → Nat :=
  fun p => p / 2 ^ s * 2 ^ (s + 1) + beta * 2 ^ s + p % 2 ^ s

/-- Drop bit position `s` of `x`. -/
def drop_bit (s : Nat) : Nat → Nat :=
  fun x => x / 2 ^ (s + 1) * 2 ^ s + x % 2 ^ s

theorem insert_bit_eq (s beta p : Nat) :
    insert_bit s beta p = p + p / 2 ^ s * 2 ^ s + beta * 2 ^ s := by
  unfold insert_bit
  rw [pow_succ, ← Nat.mul_assoc]
  have hdm : p / 2 ^ s * 2 ^ s + p % 2 ^ s = p := Nat.div_add_mod' p (2 ^ s)
  omega

theorem insert_bit_strictMono (s beta : Nat) {p q : Nat} (h : p < q) :
    insert_bit s beta p < insert_bit s beta q := by
  rw [insert_bit_eq, insert_bit_eq]
  have hdiv : p / 2 ^ s ≤ q / 2 ^ s := Nat.div_le_div_right (by omega)
  have hmul : p / 2 ^ s * 2 ^ s ≤ q / 2 ^ s * 2 ^ s := Nat.mul_le_mul_right _ hdiv
  omega

theorem insert_bit_lt (N s beta p : Nat) (hs : s < N) (hb : beta ≤ 1)
    (hp : p < 2 ^ (N - 1)) : insert_bit s beta p < 2 ^ N := by
  have hsplit : (2 : Nat) ^ (N - 1) = 2 ^ (N - 1 - s) * 2 ^ s := by
    rw [← pow_add]
    congr 1
    omega
  have hdq : p / 2 ^ s < 2 ^ (N - 1 - s) := by
    rw [Nat.div_lt_iff_lt_mul (Nat.two_pow_pos s)]
    omega
  have hNsplit : (2 : Nat) ^ N = 2 ^ (N - 1 - s) * 2 ^ (s + 1) := by
    rw [← pow_add]
    congr 1
    omega
  have hmod : p % 2 ^ s < 2 ^ s := Nat.mod_lt _ (Nat.two_pow_pos s)
  have hps : (2 : Nat) ^ (s + 1) = 2 ^ s * 2 := pow_succ 2 s
  have hstep : (p / 2 ^ s + 1) * 2 ^ (s + 1) ≤ 2 ^ (N - 1 - s) * 2 ^ (s + 1) :=
    Nat.mul_le_mul_right _ (by omega)
  unfold insert_bit
  have hub : p / 2 ^ s * 2 ^ (s + 1) + beta * 2 ^ s + p % 2 ^ s
      < (p / 2 ^ s + 1) * 2 ^ (s + 1) := by
    have : (p / 2 ^ s + 1) * 2 ^ (s + 1) = p / 2 ^ s * 2 ^ (s + 1) + 2 ^ (s + 1) := by
      ring
    rw [this, hps]
    have hbb : beta * 2 ^ s ≤ 2 ^ s := by
      rcases Nat.le_one_iff_eq_zero_or_eq_one.mp hb with h | h <;> simp [h]
    omega
  omega

theorem insert_bit_testBit (s beta p : Nat) (hb : beta ≤ 1) :
    (insert_bit s beta p >>> s) &&& 1 = beta := by
  unfold insert_bit
  rw [Nat.shiftRight_eq_div_pow, Nat.and_one_is_mod]
  have hmod : p % 2 ^ s < 2 ^ s := Nat.mod_lt _ (Nat.two_pow_pos s)
  have hregroup : p / 2 ^ s * 2 ^ (s + 1) + beta * 2 ^ s + p % 2 ^ s
      = p % 2 ^ s + (2 * (p / 2 ^ s) + beta) * 2 ^ s := by
    rw [pow_succ]
    ring
  rw [hregroup, Nat.add_mul_div_right _ _ (Nat.two_pow_pos s),
    Nat.div_eq_of_lt hmod, Nat.zero_add]
  omega

theorem drop_bit_insert_bit (s beta p : Nat) (hb : beta ≤ 1) :
    drop_bit s (insert_bit s beta p) = p := by
  unfold drop_bit insert_bit
  have hmod : p % 2 ^ s < 2 ^ s := Nat.mod_lt _ (Nat.two_pow_pos s)
  have hlo : beta * 2 ^ s + p % 2 ^ s < 2 ^ (s + 1) := by
    have hbb : beta * 2 ^ s ≤ 2 ^ s := by
      rcases Nat.le_one_iff_eq_zero_or_eq_one.mp hb with h | h <;> simp [h]
    rw [pow_succ]
    omega
  have hregroup : p / 2 ^ s * 2 ^ (s + 1) + beta * 2 ^ s + p % 2 ^ s
      = beta * 2 ^ s + p % 2 ^ s + p / 2 ^ s * 2 ^ (s + 1) := by
    ring
  rw [hregroup, Nat.add_mul_div_right _ _ (Nat.two_pow_pos (s + 1)),
    Nat.div_eq_of_lt hlo, Nat.zero_add]
  have hmodterm : (beta * 2 ^ s + p % 2 ^ s + p / 2 ^ s * 2 ^ (s + 1)) % 2 ^ s
      = p % 2 ^ s := by
    have h1 : beta * 2 ^ s + p % 2 ^ s + p / 2 ^ s * 2 ^ (s + 1)
        = p % 2 ^ s + (beta + p / 2 ^ s * 2) * 2 ^ s := by
      rw [pow_succ]
      ring
    rw [h1, Nat.add_mul_mod_self_right, Nat.mod_mod_of_dvd p (dvd_refl (2 ^ s))]
  rw [hmodterm]
  exact Nat.div_add_mod' p (2 ^ s)

theorem drop_bit_lt (N s x : Nat) (hs : s < N) (hx : x < 2 ^ N) :
    drop_bit s x < 2 ^ (N - 1) := by
  unfold drop_bit
  have hNs : (2 : Nat) ^ N = 2 ^ (N - 1 - s) * 2 ^ (s + 1) := by
    rw [← pow_add]
    congr 1
    omega
  have hd : x / 2 ^ (s + 1) < 2 ^ (N - 1 - s) := by
    rw [Nat.div_lt_iff_lt_mul (Nat.two_pow_pos (s + 1))]
    omega
  have hmod : x % 2 ^ s < 2 ^ s := Nat.mod_lt _ (Nat.two_pow_pos s)
  have hsplit : (2 : Nat) ^ (N - 1) = 2 ^ (N - 1 - s) * 2 ^ s := by
    rw [← pow_add]
    congr 1
    omega
  have hstep : (x / 2 ^ (s + 1) + 1) * 2 ^ s ≤ 2 ^ (N - 1 - s) * 2 ^ s :=
    Nat.mul_le_mul_right _ (by omega)
  have hexp : (x / 2 ^ (s + 1) + 1) * 2 ^ s = x / 2 ^ (s + 1) * 2 ^ s + 2 ^ s := by
    ring
  omega

theorem insert_drop_bit (s x : Nat) :
    insert_bit s ((x >>> s) &&& 1) (drop_bit s x) = x := by
  rw [Nat.shiftRight_eq_div_pow, Nat.and_one_is_mod]
  unfold insert_bit drop_bit
  have hrlo : x % 2 ^ s < 2 ^ s := Nat.mod_lt _ (Nat.two_pow_pos s)
  have hdiv : (x / 2 ^ (s + 1) * 2 ^ s + x % 2 ^ s) / 2 ^ s = x / 2 ^ (s + 1) := by
    rw [Nat.add_comm, Nat.add_mul_div_right _ _ (Nat.two_pow_pos s),
      Nat.div_eq_of_lt hrlo, Nat.zero_add]
  have hmod2 : (x / 2 ^ (s + 1) * 2 ^ s + x % 2 ^ s) % 2 ^ s = x % 2 ^ s := by
    rw [Nat.add_comm, Nat.add_mul_mod_self_right, Nat.mod_mod_of_dvd x (dvd_refl _)]
  rw [hdiv, hmod2]
  have e1 : x % 2 ^ (s + 1) / 2 ^ s = x / 2 ^ s % 2 := by
    rw [pow_succ]
    exact Nat.mod_mul_right_div_self x (2 ^ s) 2
  have e2 : x % 2 ^ (s + 1) % 2 ^ s = x % 2 ^ s :=
    Nat.mod_mod_of_dvd x ⟨2, pow_succ 2 s⟩
  have e3 : x % 2 ^ (s + 1) / 2 ^ s * 2 ^ s + x % 2 ^ (s + 1) % 2 ^ s = x % 2 ^ (s + 1) :=
    Nat.div_add_mod' _ _
  rw [e1, e2] at e3
  have e4 : x / 2 ^ (s + 1) * 2 ^ (s + 1) + x % 2 ^ (s + 1) = x := Nat.div_add_mod' x _
  omega

/-- The key-`beta` indices of `0 .. 2^N`, in order, are the images of
`insert_bit s beta`. -/
theorem filter_range_bit (N s beta : Nat) (hs : s < N) (hb : beta ≤ 1) :
    (List.range (2 ^ N)).filter (fun i => ((i >>> s) &&& 1) == beta)
      = (List.range (2 ^ (N - 1))).map (insert_bit s beta) := by
  have hnd1 : ((List.range (2 ^ N)).filter
      (fun i => ((i >>> s) &&& 1) == beta)).Pairwise (· < ·) :=
    (List.pairwise_lt_range _).filter _
  have hnd2 : ((List.range (2 ^ (N - 1))).map (insert_bit s beta)).Pairwise (· < ·) :=
    List.pairwise_map.mpr
      ((List.pairwise_lt_range _).imp (fun h => insert_bit_strictMono s beta h))
  have hmem : ∀ a, a ∈ (List.range (2 ^ N)).filter (fun i => ((i >>> s) &&& 1) == beta)
      ↔ a ∈ (List.range (2 ^ (N - 1))).map (insert_bit s beta) := by
    intro a
    rw [List.mem_filter, List.mem_range, List.mem_map]
    constructor
    · rintro ⟨ha, hbit⟩
      refine ⟨drop_bit s a, ?_, ?_⟩
      · rw [List.mem_range]
        exact drop_bit_lt N s a hs ha
      · have hbeq : (a >>> s) &&& 1 = beta := by simpa using hbit
        rw [← hbeq]
        exact insert_drop_bit s a
    · rintro ⟨p, hp, rfl⟩
      rw [List.mem_range] at hp
      refine ⟨insert_bit_lt N s beta p hs hb hp, ?_⟩
      simp [insert_bit_testBit s beta p hb]
  have hperm := (List.perm_ext_iff_of_nodup
    (hnd1.imp (fun h => Nat.ne_of_lt h)) (hnd2.imp (fun h => Nat.ne_of_lt h))).mpr hmem
  exact List.eq_of_perm_of_sorted hperm
    (hnd1.imp (fun h => Nat.le_of_lt h)) (hnd2.imp (fun h => Nat.le_of_lt h))

/-- The sorted index list for a single affected qubit: all bit-`s`-clear
indices in order, then all bit-`s`-set indices (`s = N - b0 - 1`). -/
theorem sorted_indices_single (N b0 : Nat) (hb : b0 < N) :
    sorted_indices N [b0]
      = (List.range (2 ^ (N - 1))).map (insert_bit (N - b0 - 1) 0)
        ++ (List.range (2 ^ (N - 1))).map (insert_bit (N - b0 - 1) 1) := by
  unfold sorted_indices
  have hsort := insertionSort_two_key (fun i => get_sort_key i N [b0])
    (List.range (2 ^ N))
    (fun a _ => by
      show get_sort_key a N [b0] ≤ 1
      rw [get_sort_key_single]
      exact Nat.and_le_right)
  rw [hsort]
  have hf0 : (List.range (2 ^ N)).filter (fun a => get_sort_key a N [b0] == 0)
      = (List.range (2 ^ N)).filter (fun i => ((i >>> (N - b0 - 1)) &&& 1) == 0) := by
    apply List.filter_congr
    intro a _
    rw [get_sort_key_single]
  have hf1 : (List.range (2 ^ N)).filter (fun a => get_sort_key a N [b0] == 1)
      = (List.range (2 ^ N)).filter (fun i => ((i >>> (N - b0 - 1)) &&& 1) == 1) := by
    apply List.filter_congr
    intro a _
    rw [get_sort_key_single]
  have hs : N - b0 - 1 < N := by omega
  rw [hf0, hf1, filter_range_bit N _ 0 hs (by omega), filter_range_bit N _ 1 hs (by omega)]

theorem indexOf_range (M p : Nat) (hp : p < M) : (List.range M).indexOf p = p := by
  induction M with
  | zero => omega
  | succ m ih =>
    rw [List.range_succ]
    by_cases hpm : p < m
    · rw [List.indexOf_append_of_mem (List.mem_range.mpr hpm)]
      exact ih hpm
    · have hpe : p = m := by omega
      subst hpe
      rw [List.indexOf_append_of_not_mem (by simp), List.length_range]
      simp

theorem indexOf_map_injective {β : Type} [DecidableEq β] (f : Nat → β)
    (hf : ∀ x y, f x = f y → x = y) :
    ∀ (l : List Nat) (a : Nat), (l.map f).indexOf (f a) = l.indexOf a := by
  intro l
  induction l with
  | nil => intro a; rfl
  | cons b t ih =>
    intro a
    rw [List.map_cons]
    by_cases h : b = a
    · subst h
      rw [List.indexOf_cons_self, List.indexOf_cons_self]
    · rw [List.indexOf_cons_ne _ (fun he => h (hf b a he)),
        List.indexOf_cons_ne _ h, ih]

/-- The inverse bit permutation for a single affected qubit `b0`: index `i`
is sent to (bit `s` of `i`) `· 2^(N-1) +` (`i` with bit `s` dropped), where
`s = N - b0 - 1`. -/
theorem bit_permutation_single (N b0 : Nat) (hb : b0 < N) (i : Nat) (hi : i < 2 ^ N) :
    bit_permutation N [b0] i
      = ((i >>> (N - b0 - 1)) &&& 1) * 2 ^ (N - 1) + drop_bit (N - b0 - 1) i := by
  unfold bit_permutation
  rw [sorted_indices_single N b0 hb]
  have hble : (i >>> (N - b0 - 1)) &&& 1 ≤ 1 := Nat.and_le_right
  have hinj : ∀ beta, beta ≤ 1 →
      ∀ x y, insert_bit (N - b0 - 1) beta x = insert_bit (N - b0 - 1) beta y → x = y := by
    intro beta hbeta x y hxy
    have hx := drop_bit_insert_bit (N - b0 - 1) beta x hbeta
    have hy := drop_bit_insert_bit (N - b0 - 1) beta y hbeta
    rw [← hx, ← hy, hxy]
  have hdlt : drop_bit (N - b0 - 1) i < 2 ^ (N - 1) :=
    drop_bit_lt N _ i (by omega) hi
  have hbit : (i >>> (N - b0 - 1)) &&& 1 = 0 ∨ (i >>> (N - b0 - 1)) &&& 1 = 1 := by
    omega
  rcases hbit with h0 | h1
  · have hieq : insert_bit (N - b0 - 1) 0 (drop_bit (N - b0 - 1) i) = i := by
      conv_rhs => rw [← insert_drop_bit (N - b0 - 1) i]
      rw [h0]
    have hmem : i ∈ (List.range (2 ^ (N - 1))).map (insert_bit (N - b0 - 1) 0) := by
      rw [← hieq]
      exact List.mem_map_of_mem _ (List.mem_range.mpr hdlt)
    rw [List.indexOf_append_of_mem hmem]
    conv_lhs => rw [← hieq]
    rw [indexOf_map_injective _ (hinj 0 (by omega)) _ _, indexOf_range _ _ hdlt, h0]
    simp
  · have hieq : insert_bit (N - b0 - 1) 1 (drop_bit (N - b0 - 1) i) = i := by
      conv_rhs => rw [← insert_drop_bit (N - b0 - 1) i]
      rw [h1]
    have hnmem : i ∉ (List.range (2 ^ (N - 1))).map (insert_bit (N - b0 - 1) 0) := by
      intro hmem
      rcases List.mem_map.mp hmem with ⟨p, _, hpe⟩
      have hb0 := insert_bit_testBit (N - b0 - 1) 0 p (by omega)
      rw [hpe] at hb0
      omega
    rw [List.indexOf_append_of_not_mem hnmem, List.length_map, List.length_range]
    conv_lhs => rw [← hieq]
    rw [indexOf_map_injective _ (hinj 1 (by omega)) _ _, indexOf_range _ _ hdlt, h1,
      Nat.one_mul]

theorem drop_bit_mod (s x : Nat) : drop_bit s x % 2 ^ s = x % 2 ^ s := by
  unfold drop_bit
  rw [Nat.add_comm, Nat.add_mul_mod_self_right, Nat.mod_mod_of_dvd x (dvd_refl _)]

theorem drop_bit_div (s x : Nat) : drop_bit s x / 2 ^ s = x / 2 ^ (s + 1) := by
  unfold drop_bit
  rw [Nat.add_comm, Nat.add_mul_div_right _ _ (Nat.two_pow_pos s),
    Nat.div_eq_of_lt (Nat.mod_lt _ (Nat.two_pow_pos s)), Nat.zero_add]

theorem expanded_matrix_single {α : Type} [CommRing α] (N b0 : Nat) (hb : b0 < N)
    (gmat : Nat → Nat → α) (i j : Nat) (hi : i < 2 ^ N) (hj : j < 2 ^ N) :
    expanded_matrix 1 gmat [b0] N i j
      = transform (bit_permutation N [b0]) (kron_mat (N - 1) gmat (eye α)) i j := by
  have hNb : N - b0 = (N - b0 - 1) + 1 := by omega
  unfold expanded_matrix
  rw [if_pos rfl]
  unfold transform
  rw [bit_permutation_single N b0 hb i hi, bit_permutation_single N b0 hb j hj]
  simp only [List.headD_cons]
  rw [hNb]
  simp only [Nat.add_sub_cancel]
  have f1 : ∀ x : Nat, x % 2 ^ (N - b0 - 1 + 1) / 2 ^ (N - b0 - 1) = x / 2 ^ (N - b0 - 1) % 2 := by
    intro x
    rw [pow_succ]
    exact Nat.mod_mul_right_div_self x (2 ^ (N - b0 - 1)) 2
  have f2 : ∀ x : Nat, x % 2 ^ (N - b0 - 1 + 1) % 2 ^ (N - b0 - 1) = x % 2 ^ (N - b0 - 1) :=
    fun x => Nat.mod_mod_of_dvd x ⟨2, pow_succ 2 (N - b0 - 1)⟩
  have f3 : ∀ x : Nat, (x >>> (N - b0 - 1)) &&& 1 = x / 2 ^ (N - b0 - 1) % 2 := by
    intro x
    rw [Nat.shiftRight_eq_div_pow, Nat.and_one_is_mod]
  have hqlt : ∀ x : Nat, x < 2 ^ N → drop_bit (N - b0 - 1) x < 2 ^ (N - 1) :=
    fun x hx => drop_bit_lt N _ x (by omega) hx
  have f4 : ∀ x : Nat, x < 2 ^ N →
      (((x >>> (N - b0 - 1)) &&& 1) * 2 ^ (N - 1) + drop_bit (N - b0 - 1) x) / 2 ^ (N - 1)
        = x / 2 ^ (N - b0 - 1) % 2 := by
    intro x hx
    rw [Nat.add_comm, Nat.add_mul_div_right _ _ (Nat.two_pow_pos (N - 1)),
      Nat.div_eq_of_lt (hqlt x hx), Nat.zero_add, f3]
  have f5 : ∀ x : Nat, x < 2 ^ N →
      (((x >>> (N - b0 - 1)) &&& 1) * 2 ^ (N - 1) + drop_bit (N - b0 - 1) x) % 2 ^ (N - 1)
        = drop_bit (N - b0 - 1) x := by
    intro x hx
    rw [Nat.add_comm, Nat.add_mul_mod_self_right, Nat.mod_eq_of_lt (hqlt x hx)]
  unfold kron_mat
  rw [f1 i, f1 j, f2 i, f2 j, f4 i hi, f4 j hj, f5 i hi, f5 j hj]
  unfold eye
  by_cases hd : i / 2 ^ (N - b0 - 1 + 1) = j / 2 ^ (N - b0 - 1 + 1)
    <;> by_cases hm : i % 2 ^ (N - b0 - 1) = j % 2 ^ (N - b0 - 1)
  · have hq : drop_bit (N - b0 - 1) i = drop_bit (N - b0 - 1) j := by
      unfold drop_bit
      rw [hd, hm]
    rw [if_pos hd, if_pos hm, if_pos hq]
    ring
  · have hq : drop_bit (N - b0 - 1) i ≠ drop_bit (N - b0 - 1) j := by
      intro he
      have h1 := drop_bit_mod (N - b0 - 1) i
      have h2 := drop_bit_mod (N - b0 - 1) j
      rw [he] at h1
      exact hm (h1.symm.trans h2)
    rw [if_pos hd, if_neg hm, if_neg hq]
    ring
  · have hq : drop_bit (N - b0 - 1) i ≠ drop_bit (N - b0 - 1) j := by
      intro he
      have h1 := drop_bit_div (N - b0 - 1) i
      have h2 := drop_bit_div (N - b0 - 1) j
      rw [he] at h1
      exact hd (h1.symm.trans h2)
    rw [if_neg hd, if_neg hq]
    ring
  · have hq : drop_bit (N - b0 - 1) i ≠ drop_bit (N - b0 - 1) j := by
      intro he
      have h1 := drop_bit_div (N - b0 - 1) i
      have h2 := drop_bit_div (N - b0 - 1) j
      rw [he] at h1
      exact hd (h1.symm.trans h2)
    rw [if_neg hd, if_neg hq]
    ring

/-- C7: for a `k`-qubit gate on `k` valid qubit indices of an `N`-qubit
system, `Gate::expanded_matrix` equals `P · (G ⊗ I_{2^(N-k)}) · Pᵀ` with
`P = bit_permutation(N, bits)`; in particular the special single-qubit
tensor construction agrees with the permutation-based one. -/
theorem C7_expanded_matrix {α : Type} [CommRing α] (gate_bits nr_bits : Nat)
    (gmat : Nat → Nat → α) (bits : List Nat) (hlen : bits.length = gate_bits)
    (hvalid : ∀ b ∈ bits, b < nr_bits) (i j : Nat) (hi : i < 2 ^ nr_bits)
    (hj : j < 2 ^ nr_bits) :
    expanded_matrix gate_bits gmat bits nr_bits i j
      = transform (bit_permutation nr_bits bits)
          (kron_mat (nr_bits - gate_bits) gmat (eye α)) i j := by
  by_cases h1 : gate_bits = 1
  · subst h1
    obtain ⟨b0, rfl⟩ : ∃ b0, bits = [b0] := by
      cases bits with
      | nil => exact absurd hlen (by simp)
      | cons b t =>
        cases t with
        | nil => exact ⟨b, rfl⟩
        | cons c u => exact absurd hlen (by simp)
    have hb0 : b0 < nr_bits := hvalid b0 (List.mem_cons_self _ _)
    exact expanded_matrix_single nr_bits b0 hb0 gmat i j hi hj
  · unfold expanded_matrix
    rw [if_neg h1]

/-- Witness for C7: the single-qubit case on qubit 1 of a 2-qubit system. -/
theorem C7_expanded_matrix_witness :
    (([1] : List Nat).length = 1 ∧ (∀ b ∈ ([1] : List Nat), b < 2)
      ∧ (1 : Nat) < 2 ^ 2 ∧ (3 : Nat) < 2 ^ 2)
    ∧ expanded_matrix 1 (fun i j => (i * 10 + j : ℤ)) [1] 2 1 3
        = transform (bit_permutation 2 [1])
            (kron_mat (2 - 1) (fun i j => (i * 10 + j : ℤ)) (eye ℤ)) 1 3 :=
  ⟨⟨by decide, by decide, by decide, by decide⟩,
    C7_expanded_matrix 1 2 (fun i j => (i * 10 + j : ℤ)) [1] (by decide) (by decide)
      1 3 (by decide) (by decide)⟩

/-! ## Towards C6: effect of `swap_rows`, and the normalization passes -/

namespace StabilizerMatrix

theorem foldl_id {α β : Type} (f : α → β → α) (a : α) :
    ∀ l : List β, (∀ x ∈ l, f a x = a) → l.foldl f a = a := by
  intro l
  induction l with
  | nil => intro _; rfl
  | cons b bs ih =>
    intro h
    rw [List.foldl_cons, h b (List.mem_cons_self _ _)]
    exact ih (fun x hx => h x (List.mem_cons_of_mem _ hx))

theorem swapRowsLoop_spec (i0 i1 : Nat) (cols : List Nat) :
    ∀ (m : StabilizerMatrix), m.WF → i0 ≠ i1 → i0 < m.nr_bits → i1 < m.nr_bits →
    (∀ j ∈ cols, j < m.nr_bits) → cols.Nodup →
    (cols.foldl (swapRowsStep i0 i1) m).nr_bits = m.nr_bits
    ∧ (cols.foldl (swapRowsStep i0 i1) m).WF
    ∧ (cols.foldl (swapRowsStep i0 i1) m).phase = m.phase
    ∧ (∀ i' j', i' < m.nr_bits → j' < m.nr_bits →
        (cols.foldl (swapRowsStep i0 i1) m).getBits i' j' =
          if i' = i0 ∧ j' ∈ cols then m.getBits i1 j'
          else if i' = i1 ∧ j' ∈ cols then m.getBits i0 j'
          else m.getBits i' j') := by
  induction cols with
  | nil =>
    intro m hwf h01 hi0 hi1 hcols hnd
    exact ⟨rfl, hwf, rfl, fun i' j' _ _ => by simp⟩
  | cons j js ih =>
    intro m hwf h01 hi0 hi1 hcols hnd
    have hj : j < m.nr_bits := hcols j (by simp)
    have hjs : ∀ u ∈ js, u < m.nr_bits := fun u hu => hcols u (by simp [hu])
    have hjnotin : j ∉ js := (List.nodup_cons.mp hnd).1
    have hndjs : js.Nodup := (List.nodup_cons.mp hnd).2
    have hm1wf : (m.setBits i0 j (m.getBits i1 j)).WF := WF_setBits m hwf _ _ _
    have hm2wf : ((m.setBits i0 j (m.getBits i1 j)).setBits i1 j (m.getBits i0 j)).WF :=
      WF_setBits _ hm1wf _ _ _
    have hstep : swapRowsStep i0 i1 m j
        = (m.setBits i0 j (m.getBits i1 j)).setBits i1 j (m.getBits i0 j) := rfl
    have hm2get : ∀ i' j', i' < m.nr_bits → j' < m.nr_bits →
        ((m.setBits i0 j (m.getBits i1 j)).setBits i1 j (m.getBits i0 j)).getBits i' j' =
          if i' = i0 ∧ j' = j then m.getBits i1 j'
          else if i' = i1 ∧ j' = j then m.getBits i0 j'
          else m.getBits i' j' := by
      intro i' j' hi' hj'
      rw [getBits_setBits _ hm1wf _ i1 j i' j' hi1 hj hi' hj',
        getBits_setBits m hwf _ i0 j i' j' hi0 hj hi' hj']
      by_cases hc1 : i' = i1 ∧ j' = j
      · rw [if_pos hc1, if_neg (fun hx : i' = i0 ∧ j' = j => h01 (hx.1.symm.trans hc1.1)),
          if_pos hc1, and_three_of_lt (getBits_lt_four m i0 j), hc1.2]
      · rw [if_neg hc1]
        by_cases hc2 : i' = i0 ∧ j' = j
        · rw [if_pos hc2, if_pos hc2, and_three_of_lt (getBits_lt_four m i1 j), hc2.2]
        · rw [if_neg hc2, if_neg hc2, if_neg hc1]
    obtain ⟨ihn, ihwf, ihph, ihget⟩ :=
      ih ((m.setBits i0 j (m.getBits i1 j)).setBits i1 j (m.getBits i0 j))
        hm2wf h01 hi0 hi1 hjs hndjs
    rw [List.foldl_cons, hstep]
    refine ⟨ihn, ihwf, by rw [ihph]; rfl, ?_⟩
    intro i' j' hi' hj'
    rw [ihget i' j' hi' hj']
    by_cases hc1 : i' = i0 ∧ j' ∈ js
    · have hne : j' ≠ j := fun h => hjnotin (h ▸ hc1.2)
      rw [if_pos hc1, hm2get i1 j' hi1 hj',
        if_neg (fun hx : i1 = i0 ∧ j' = j => h01 hx.1.symm),
        if_neg (fun hx : i1 = i1 ∧ j' = j => hne hx.2),
        if_pos ⟨hc1.1, List.mem_cons_of_mem _ hc1.2⟩]
    · rw [if_neg hc1]
      by_cases hc2 : i' = i1 ∧ j' ∈ js
      · have hne : j' ≠ j := fun h => hjnotin (h ▸ hc2.2)
        rw [if_pos hc2, hm2get i0 j' hi0 hj',
          if_neg (fun hx : i0 = i0 ∧ j' = j => hne hx.2),
          if_neg (fun hx : i0 = i1 ∧ j' = j => h01 hx.1),
          if_neg (fun hx : i' = i0 ∧ j' ∈ j :: js => h01 (hx.1.symm.trans hc2.1)),
          if_pos ⟨hc2.1, List.mem_cons_of_mem _ hc2.2⟩]
      · rw [if_neg hc2, hm2get i' j' hi' hj']
        by_cases hd1 : i' = i0 ∧ j' = j
        · rw [if_pos hd1, if_pos ⟨hd1.1, hd1.2 ▸ List.mem_cons_self _ _⟩]
        · rw [if_neg hd1]
          by_cases hd2 : i' = i1 ∧ j' = j
          · rw [if_pos hd2, if_neg (fun hx => h01 (hx.1.symm.trans hd2.1)),
              if_pos ⟨hd2.1, hd2.2 ▸ List.mem_cons_self _ _⟩]
          · have hn1 : ¬(i' = i0 ∧ j' ∈ j :: js) := by
              intro hx
              rcases List.mem_cons.mp hx.2 with h | h
              · exact hd1 ⟨hx.1, h⟩
              · exact hc1 ⟨hx.1, h⟩
            have hn2 : ¬(i' = i1 ∧ j' ∈ j :: js) := by
              intro hx
              rcases List.mem_cons.mp hx.2 with h | h
              · exact hd2 ⟨hx.1, h⟩
              · exact hc2 ⟨hx.1, h⟩
            rw [if_neg hd2, if_neg hn1, if_neg hn2]

/-- Full effect of `swap_rows(i0, i1)` for distinct rows: the two rows (cells
and phases) are exchanged, everything else is untouched. -/
theorem swapRows_spec (m : StabilizerMatrix) (hwf : m.WF) (i0 i1 : Nat) (h01 : i0 ≠ i1)
    (hi0 : i0 < m.nr_bits) (hi1 : i1 < m.nr_bits) :
    (m.swapRows i0 i1).nr_bits = m.nr_bits
    ∧ (m.swapRows i0 i1).WF
    ∧ (∀ i' j', i' < m.nr_bits → j' < m.nr_bits →
        (m.swapRows i0 i1).getBits i' j' =
          if i' = i0 then m.getBits i1 j'
          else if i' = i1 then m.getBits i0 j'
          else m.getBits i' j')
    ∧ (∀ k, k < m.nr_bits →
        (m.swapRows i0 i1).getPhase k =
          if k = i0 then m.getPhase i1
          else if k = i1 then m.getPhase i0
          else m.getPhase k) := by
  obtain ⟨hn, hwfc, hph, hget⟩ := swapRowsLoop_spec i0 i1 (List.range m.nr_bits) m hwf h01
    hi0 hi1 (fun j hj => List.mem_range.mp hj) (range_nodup _)
  unfold swapRows
  have hwf1 : ((List.range m.nr_bits).foldl (swapRowsStep i0 i1) m).WF := hwfc
  have hmcph : ∀ k, ((List.range m.nr_bits).foldl (swapRowsStep i0 i1) m).getPhase k
      = m.getPhase k := getPhase_congr hph
  have hwf2 : (((List.range m.nr_bits).foldl (swapRowsStep i0 i1) m).setPhase i0
      (((List.range m.nr_bits).foldl (swapRowsStep i0 i1) m).getPhase i1)).WF :=
    WF_setPhase _ hwf1 _ _
  refine ⟨hn, WF_setPhase _ hwf2 _ _, ?_, ?_⟩
  · intro i' j' hi' hj'
    rw [getBits_setPhase, getBits_setPhase, hget i' j' hi' hj']
    by_cases hc1 : i' = i0
    · rw [if_pos ⟨hc1, List.mem_range.mpr hj'⟩, if_pos hc1]
    · rw [if_neg (fun hx => hc1 hx.1), if_neg hc1]
      by_cases hc2 : i' = i1
      · rw [if_pos ⟨hc2, List.mem_range.mpr hj'⟩, if_pos hc2]
      · rw [if_neg (fun hx => hc2 hx.1), if_neg hc2]
  · intro k hk
    have hn2 : (((List.range m.nr_bits).foldl (swapRowsStep i0 i1) m).setPhase i0
        (((List.range m.nr_bits).foldl (swapRowsStep i0 i1) m).getPhase i1)).nr_bits
          = m.nr_bits := hn
    rw [getPhase_setPhase _ hwf2 _ i1 k (by rw [hn2]; exact hi1)
        (by rw [hn2]; exact hk),
      getPhase_setPhase _ hwf1 _ i0 k (by rw [hn]; exact hi0) (by rw [hn]; exact hk)]
    simp only [hmcph]
    by_cases hk1 : k = i1
    · by_cases hk0 : k = i0
      · exact absurd (hk0.symm.trans hk1) h01
      · rw [if_pos hk1, if_neg hk0, if_pos hk1]
    · by_cases hk0 : k = i0
      · rw [if_neg hk1, if_pos hk0, if_pos hk0]
      · rw [if_neg hk1, if_neg hk0, if_neg hk0, if_neg hk1]

/-- `swap_rows(i, i)` is a packed-level no-op. -/
theorem swapRows_self (m : StabilizerMatrix) (hwf : m.WF) (i : Nat)
    (hi : i < m.nr_bits) : m.swapRows i i = m := by
  unfold swapRows
  have hfold : ∀ cols : List Nat, (∀ c ∈ cols, c < m.nr_bits) →
      cols.foldl (swapRowsStep i i) m = m := by
    intro cols
    induction cols with
    | nil => intro _; rfl
    | cons c cs ih =>
      intro hc
      rw [List.foldl_cons]
      have hstep : swapRowsStep i i m c = m := by
        unfold swapRowsStep
        rw [setBits_self m hwf i c hi (hc c (List.mem_cons_self _ _))]
        exact setBits_self m hwf i c hi (hc c (List.mem_cons_self _ _))
      rw [hstep]
      exact ih (fun x hx => hc x (List.mem_cons_of_mem _ hx))
  rw [hfold (List.range m.nr_bits) (fun c hc => List.mem_range.mp hc)]
  show (m.setPhase i (m.getPhase i)).setPhase i (m.getPhase i) = m
  rw [setPhase_self m hwf i hi]
  exact setPhase_self m hwf i hi

theorem bitAt_eq_testBit (useX : Bool) (m : StabilizerMatrix) (k j : Nat) :
    bitAt useX m k j = (m.getBits k j).testBit (if useX then 1 else 0) := by
  cases useX
  · exact getZ_eq_testBit m k j
  · exact getX_eq_testBit m k j

theorem bitAt_congr (useX : Bool) {m m' : StabilizerMatrix} {k j : Nat}
    (h : m'.getBits k j = m.getBits k j) : bitAt useX m' k j = bitAt useX m k j := by
  rw [bitAt_eq_testBit, bitAt_eq_testBit, h]

theorem bitAt_xor (useX : Bool) (a b : Nat) :
    (a ^^^ b).testBit (if useX then 1 else 0)
      = ((a.testBit (if useX then 1 else 0)) ^^ (b.testBit (if useX then 1 else 0))) :=
  Nat.testBit_xor a b _

/-- Full effect of the elimination loop of `normalize` over a duplicate-free
row list: each listed row other than the pivot that carries the tested bit at
column `j` gets the pivot row XORed in; every other row's cells are
untouched. -/
theorem elimLoop_spec (useX : Bool) (i j : Nat) (rows : List Nat) :
    ∀ (m1 : StabilizerMatrix), m1.WF → i < m1.nr_bits → j < m1.nr_bits →
    rows.Nodup → (∀ r ∈ rows, r < m1.nr_bits) →
    (rows.foldl (elimStep useX i j) m1).nr_bits = m1.nr_bits
    ∧ (rows.foldl (elimStep useX i j) m1).WF
    ∧ (∀ r c, r < m1.nr_bits → c < m1.nr_bits →
        (rows.foldl (elimStep useX i j) m1).getBits r c =
          if r ∈ rows ∧ r ≠ i ∧ bitAt useX m1 r j then m1.getBits r c ^^^ m1.getBits i c
          else m1.getBits r c) := by
  induction rows with
  | nil =>
    intro m1 hwf hi hj hnd hrows
    exact ⟨rfl, hwf, fun r c _ _ => by simp⟩
  | cons r0 rs ih =>
    intro m1 hwf hi hj hnd hrows
    have hr0 : r0 < m1.nr_bits := hrows r0 (List.mem_cons_self _ _)
    have hrs : ∀ r ∈ rs, r < m1.nr_bits := fun r hr => hrows r (List.mem_cons_of_mem _ hr)
    have hr0notin : r0 ∉ rs := (List.nodup_cons.mp hnd).1
    have hndrs : rs.Nodup := (List.nodup_cons.mp hnd).2
    rw [List.foldl_cons]
    by_cases hcond : r0 ≠ i ∧ bitAt useX m1 r0 j = true
    · have hb : ((r0 != i) && bitAt useX m1 r0 j) = true := by
        rw [Bool.and_eq_true, bne_iff_ne]
        exact ⟨hcond.1, hcond.2⟩
      have hstep : elimStep useX i j m1 r0 = multiplyRow m1 r0 i := by
        unfold elimStep
        rw [hb]
        rfl
      rw [hstep]
      have hn1 : (multiplyRow m1 r0 i).nr_bits = m1.nr_bits := multiplyRow_nr_bits _ _ _
      have hwf1 : (multiplyRow m1 r0 i).WF := multiplyRow_WF _ hwf _ _
      have hget1 : ∀ r c, r < m1.nr_bits → c < m1.nr_bits →
          (multiplyRow m1 r0 i).getBits r c =
            if r = r0 then m1.getBits r0 c ^^^ m1.getBits i c else m1.getBits r c :=
        fun r c hr hc => multiplyRow_getBits m1 hwf r0 i hcond.1 hr0 hi r c hr hc
      obtain ⟨ihn, ihwf, ihget⟩ := ih (multiplyRow m1 r0 i) hwf1
        (by rw [hn1]; exact hi) (by rw [hn1]; exact hj) hndrs
        (by rw [hn1]; exact hrs)
      refine ⟨by rw [ihn, hn1], ihwf, ?_⟩
      intro r c hr hc
      rw [ihget r c (by rw [hn1]; exact hr) (by rw [hn1]; exact hc)]
      by_cases hmem : r ∈ rs
      · have hrne : r ≠ r0 := fun h => hr0notin (h ▸ hmem)
        have hgr : ∀ c', c' < m1.nr_bits →
            (multiplyRow m1 r0 i).getBits r c' = m1.getBits r c' := by
          intro c' hc'
          rw [hget1 r c' hr hc', if_neg hrne]
        have hgi : ∀ c', c' < m1.nr_bits →
            (multiplyRow m1 r0 i).getBits i c' = m1.getBits i c' := by
          intro c' hc'
          rw [hget1 i c' hi hc', if_neg (fun h => hcond.1 h.symm)]
        have hbit : bitAt useX (multiplyRow m1 r0 i) r j = bitAt useX m1 r j :=
          bitAt_congr useX (hgr j hj)
        rw [hbit, hgr c hc, hgi c hc]
        by_cases hfire : r ≠ i ∧ bitAt useX m1 r j = true
        · rw [if_pos ⟨hmem, hfire.1, hfire.2⟩,
            if_pos ⟨List.mem_cons_of_mem _ hmem, hfire.1, hfire.2⟩]
        · have hn1c : ¬(r ∈ rs ∧ r ≠ i ∧ bitAt useX m1 r j = true) := by
            intro hx
            exact hfire ⟨hx.2.1, hx.2.2⟩
          have hn2c : ¬(r ∈ r0 :: rs ∧ r ≠ i ∧ bitAt useX m1 r j = true) := by
            intro hx
            exact hfire ⟨hx.2.1, hx.2.2⟩
          rw [if_neg hn1c, if_neg hn2c]
      · have hnc1 : ¬(r ∈ rs ∧ r ≠ i ∧ bitAt useX (multiplyRow m1 r0 i) r j = true) :=
          fun hx => hmem hx.1
        rw [if_neg hnc1, hget1 r c hr hc]
        by_cases hr0e : r = r0
        · subst hr0e
          rw [if_pos rfl, if_pos ⟨List.mem_cons_self _ _, hcond.1, hcond.2⟩]
        · rw [if_neg hr0e]
          have hnc2 : ¬(r ∈ r0 :: rs ∧ r ≠ i ∧ bitAt useX m1 r j = true) := by
            intro hx
            rcases List.mem_cons.mp hx.1 with h | h
            · exact hr0e h
            · exact hmem h
          rw [if_neg hnc2]
    · have hb : ((r0 != i) && bitAt useX m1 r0 j) = false := by
        rw [Bool.and_eq_false_iff]
        by_cases he : r0 = i
        · exact Or.inl (by rw [bne_eq_false_iff_eq]; exact he)
        · right
          cases hbv : bitAt useX m1 r0 j
          · rfl
          · exact absurd ⟨he, hbv⟩ hcond
      have hstep : elimStep useX i j m1 r0 = m1 := by
        unfold elimStep
        rw [hb]
        rfl
      rw [hstep]
      obtain ⟨ihn, ihwf, ihget⟩ := ih m1 hwf hi hj hndrs hrs
      refine ⟨ihn, ihwf, ?_⟩
      intro r c hr hc
      rw [ihget r c hr hc]
      by_cases hc1 : r ∈ rs ∧ r ≠ i ∧ bitAt useX m1 r j = true
      · rw [if_pos hc1, if_pos ⟨List.mem_cons_of_mem _ hc1.1, hc1.2.1, hc1.2.2⟩]
      · rw [if_neg hc1]
        by_cases hr0e : r = r0
        · have hnc : ¬(r ∈ r0 :: rs ∧ r ≠ i ∧ bitAt useX m1 r j = true) := by
            intro hx
            exact hcond ⟨hr0e ▸ hx.2.1, hr0e ▸ hx.2.2⟩
          rw [if_neg hnc]
        · have hnc : ¬(r ∈ r0 :: rs ∧ r ≠ i ∧ bitAt useX m1 r j = true) := by
            intro hx
            rcases List.mem_cons.mp hx.1 with h | h
            · exact hr0e h
            · exact hc1 ⟨h, hx.2.1, hx.2.2⟩
          rw [if_neg hnc]

/-- The Gaussian-elimination invariant of one `normalize` pass: with pivot
rows `lo ≤ t < i` at (strictly increasing) pivot columns `pc t` among the
processed columns `< jb`, each pivot row carries the tested bit exactly at
its pivot column among the processed columns, pivot columns are clear in
every other row, and the not-yet-pivoted rows `≥ i` are clear on all
processed columns. -/
def PivotData (useX : Bool) (m : StabilizerMatrix) (lo i jb : Nat) (pc : Nat → Nat) :
    Prop :=
  lo ≤ i ∧ i ≤ m.nr_bits
  ∧ (∀ t, lo ≤ t → t < i → pc t < jb)
  ∧ (∀ t t', lo ≤ t → t < t' → t' < i → pc t < pc t')
  ∧ (∀ t, lo ≤ t → t < i → bitAt useX m t (pc t) = true)
  ∧ (∀ t r, lo ≤ t → t < i → r < m.nr_bits → r ≠ t → bitAt useX m r (pc t) = false)
  ∧ (∀ t c, lo ≤ t → t < i → c < pc t → bitAt useX m t c = false)
  ∧ (∀ r c, i ≤ r → r < m.nr_bits → c < jb → bitAt useX m r c = false)

/-- One column of a `normalize` pass, from a state satisfying the invariant:
the invariant is maintained (with the pivot assignment possibly extended by
the current column), and in the Z pass all X bits are left untouched. -/
theorem normStep_fwd (useX : Bool) (n : Nat) (M : StabilizerMatrix) (i j lo : Nat)
    (pc : Nat → Nat) (hwf : M.WF) (hn : M.nr_bits = n) (hj : j < n)
    (hPD : PivotData useX M lo i j pc)
    (hXfree : useX = false → ∀ r c, lo ≤ r → r < n → c < n → M.getX r c = false) :
    ∃ M' i' pc', normStep useX n (M, i) j = (M', i')
      ∧ M'.WF ∧ M'.nr_bits = n
      ∧ PivotData useX M' lo i' (j + 1) pc'
      ∧ (∀ t, lo ≤ t → t < i → pc' t = pc t)
      ∧ i ≤ i'
      ∧ (useX = false → ∀ r c, r < n → c < n → M'.getX r c = M.getX r c) := by
  obtain ⟨hloi, hin, hb1, hb2, hb3, hb4, hb5, hb6⟩ := hPD
  rw [hn] at hin
  cases hfind : (List.range' i (n - i)).find? (fun k => bitAt useX M k j) with
  | none =>
    have hstep : normStep useX n (M, i) j = (M, i) := by
      show (match (List.range' i (n - i)).find? (fun k => bitAt useX M k j) with
        | none => (M, i)
        | some k =>
          ((List.range n).foldl (elimStep useX i j) (swapRows M i k), i + 1)) = (M, i)
      rw [hfind]
    have hnone : ∀ k, i ≤ k → k < n → bitAt useX M k j = false := by
      intro k hk1 hk2
      have hmem : k ∈ List.range' i (n - i) := by
        rw [List.mem_range'_1]
        omega
      have := List.find?_eq_none.mp hfind k hmem
      simpa using this
    refine ⟨M, i, pc, hstep, hwf, hn, ⟨hloi, by omega, ?_, hb2, hb3, hb4, hb5, ?_⟩,
      fun t _ _ => rfl, le_refl i, fun _ r c _ _ => rfl⟩
    · intro t ht1 ht2
      have := hb1 t ht1 ht2
      omega
    · intro r c hr1 hr2 hc
      by_cases hcj : c < j
      · exact hb6 r c hr1 hr2 hcj
      · have hcje : c = j := by omega
        subst hcje
        exact hnone r hr1 (by rw [hn] at hr2; exact hr2)
  | some k =>
    have hkmem : k ∈ List.range' i (n - i) := List.mem_of_find?_eq_some hfind
    have hkr : i ≤ k ∧ k < n := by
      rw [List.mem_range'_1] at hkmem
      omega
    have hkbit : bitAt useX M k j = true := by
      have := List.find?_some hfind
      simpa using this
    have hilt : i < n := by omega
    have hstep : normStep useX n (M, i) j
        = ((List.range n).foldl (elimStep useX i j) (swapRows M i k), i + 1) := by
      show (match (List.range' i (n - i)).find? (fun k => bitAt useX M k j) with
        | none => (M, i)
        | some k =>
          ((List.range n).foldl (elimStep useX i j) (swapRows M i k), i + 1)) = _
      rw [hfind]
    -- facts about m1 := swapRows M i k
    have hm1n : (swapRows M i k).nr_bits = n := by
      by_cases hik : k = i
      · rw [hik, swapRows_self M hwf i (by omega)]
        exact hn
      · rw [(swapRows_spec M hwf i k (fun h => hik h.symm) (by omega) (by omega)).1]
        exact hn
    have hm1wf : (swapRows M i k).WF := by
      by_cases hik : k = i
      · rw [hik, swapRows_self M hwf i (by omega)]
        exact hwf
      · exact (swapRows_spec M hwf i k (fun h => hik h.symm) (by omega) (by omega)).2.1
    have hm1get : ∀ r c, r < n → c < n →
        (swapRows M i k).getBits r c =
          if r = i then M.getBits k c else if r = k then M.getBits i c
          else M.getBits r c := by
      intro r c hr hc
      by_cases hik : k = i
      · rw [hik, swapRows_self M hwf i (by omega)]
        by_cases hri : r = i
        · rw [if_pos hri, hri]
        · rw [if_neg hri, if_neg hri]
      · rw [(swapRows_spec M hwf i k (fun h => hik h.symm) (by omega)
          (by omega)).2.2.1 r c (by rw [hn]; exact hr) (by rw [hn]; exact hc)]
    have hm1bit : ∀ r c, r < n → c < n →
        bitAt useX (swapRows M i k) r c =
          if r = i then bitAt useX M k c else if r = k then bitAt useX M i c
          else bitAt useX M r c := by
      intro r c hr hc
      rw [bitAt_eq_testBit, hm1get r c hr hc]
      by_cases h1 : r = i
      · rw [if_pos h1, if_pos h1, ← bitAt_eq_testBit]
      · rw [if_neg h1, if_neg h1]
        by_cases h2 : r = k
        · rw [if_pos h2, if_pos h2, ← bitAt_eq_testBit]
        · rw [if_neg h2, if_neg h2, ← bitAt_eq_testBit]
    obtain ⟨hm2n, hm2wf, hm2get⟩ := elimLoop_spec useX i j (List.range n)
      (swapRows M i k) hm1wf (by rw [hm1n]; exact hilt) (by rw [hm1n]; exact hj)
      (range_nodup n) (fun r hr => by rw [hm1n]; exact List.mem_range.mp hr)
    rw [hm1n] at hm2n hm2get
    rw [hn] at hb4 hb6
    have hm2bit : ∀ r c, r < n → c < n →
        bitAt useX ((List.range n).foldl (elimStep useX i j) (swapRows M i k)) r c =
          if r ≠ i ∧ bitAt useX (swapRows M i k) r j = true
          then ((bitAt useX (swapRows M i k) r c).xor (bitAt useX (swapRows M i k) i c))
          else bitAt useX (swapRows M i k) r c := by
      intro r c hr hc
      rw [bitAt_eq_testBit, hm2get r c hr hc]
      by_cases hfire : r ≠ i ∧ bitAt useX (swapRows M i k) r j = true
      · rw [if_pos ⟨List.mem_range.mpr hr, hfire.1, hfire.2⟩, if_pos hfire,
          Nat.testBit_xor, ← bitAt_eq_testBit, ← bitAt_eq_testBit]
      · rw [if_neg (fun hx => hfire ⟨hx.2.1, hx.2.2⟩), if_neg hfire, ← bitAt_eq_testBit]
    have hbm1ij : bitAt useX (swapRows M i k) i j = true := by
      rw [hm1bit i j hilt hj, if_pos rfl]
      exact hkbit
    have hrowim2 : ∀ c, c < n →
        bitAt useX ((List.range n).foldl (elimStep useX i j) (swapRows M i k)) i c =
          bitAt useX (swapRows M i k) i c := by
      intro c hc
      rw [hm2bit i c hilt hc, if_neg (fun hx => hx.1 rfl)]
    have hm1row_ge : ∀ r c, i ≤ r → r < n → c < j → bitAt useX (swapRows M i k) r c = false := by
      intro r c hr1 hr2 hc
      rw [hm1bit r c hr2 (by omega)]
      by_cases h1 : r = i
      · rw [if_pos h1]
        exact hb6 k c hkr.1 hkr.2 hc
      · rw [if_neg h1]
        by_cases h2 : r = k
        · rw [if_pos h2]
          exact hb6 i c (le_refl i) hilt hc
        · rw [if_neg h2]
          exact hb6 r c hr1 hr2 hc
    have hm1i_lt_j : ∀ c, c < j → bitAt useX (swapRows M i k) i c = false :=
      fun c hc => hm1row_ge i c (le_refl i) hilt hc
    have hm1t_lt : ∀ t c, lo ≤ t → t < i → c < n →
        bitAt useX (swapRows M i k) t c = bitAt useX M t c := by
      intro t c ht1 ht2 hc
      rw [hm1bit t c (by omega) hc, if_neg (by omega), if_neg (by omega)]
    refine ⟨(List.range n).foldl (elimStep useX i j) (swapRows M i k), i + 1,
      fun t => if t = i then j else pc t, hstep, hm2wf, hm2n,
      ⟨by omega, by rw [hm2n]; omega, ?_, ?_, ?_, ?_, ?_, ?_⟩,
      fun t _ ht => by
        show (if t = i then j else pc t) = pc t
        rw [if_neg (by omega)], by omega, ?_⟩
    · intro t ht1 ht2
      show (if t = i then j else pc t) < j + 1
      by_cases hti : t = i
      · rw [if_pos hti]
        omega
      · rw [if_neg hti]
        have := hb1 t ht1 (by omega)
        omega
    · intro t t' ht1 htt htt'
      show (if t = i then j else pc t) < (if t' = i then j else pc t')
      by_cases hti : t' = i
      · rw [if_neg (by omega), if_pos hti]
        exact hb1 t ht1 (by omega)
      · rw [if_neg (by omega), if_neg hti]
        exact hb2 t t' ht1 htt (by omega)
    · intro t ht1 ht2
      show bitAt useX _ t (if t = i then j else pc t) = true
      by_cases hti : t = i
      · rw [if_pos hti, hti, hrowim2 j hj]
        exact hbm1ij
      · rw [if_neg hti]
        have htlt : t < i := by omega
        have hpc : pc t < j := hb1 t ht1 htlt
        have h1 : bitAt useX (swapRows M i k) t (pc t) = true := by
          rw [hm1t_lt t (pc t) ht1 htlt (by omega)]
          exact hb3 t ht1 htlt
        have h2 : bitAt useX (swapRows M i k) i (pc t) = false := hm1i_lt_j _ hpc
        rw [hm2bit t (pc t) (by omega) (by omega)]
        by_cases hfire : t ≠ i ∧ bitAt useX (swapRows M i k) t j = true
        · rw [if_pos hfire, h1, h2]
          rfl
        · rw [if_neg hfire, h1]
    · intro t r ht1 ht2 hr hrt
      rw [hm2n] at hr
      show bitAt useX _ r (if t = i then j else pc t) = false
      by_cases hti : t = i
      · rw [if_pos hti]
        have hrne : r ≠ i := by omega
        by_cases hbrj : bitAt useX (swapRows M i k) r j = true
        · rw [hm2bit r j hr hj, if_pos ⟨hrne, hbrj⟩, hbrj, hbm1ij]
          rfl
        · rw [hm2bit r j hr hj, if_neg (fun hx => hbrj hx.2)]
          cases hbv : bitAt useX (swapRows M i k) r j
          · rfl
          · exact absurd hbv hbrj
      · rw [if_neg hti]
        have htlt : t < i := by omega
        have hpc : pc t < j := hb1 t ht1 htlt
        have hall : ∀ r', r' < n → r' ≠ t →
            bitAt useX (swapRows M i k) r' (pc t) = false := by
          intro r' hr' hr't
          rw [hm1bit r' (pc t) hr' (by omega)]
          by_cases h1 : r' = i
          · rw [if_pos h1]
            exact hb4 t k ht1 htlt hkr.2 (by omega)
          · rw [if_neg h1]
            by_cases h2 : r' = k
            · rw [if_pos h2]
              exact hb4 t i ht1 htlt hilt (by omega)
            · rw [if_neg h2]
              exact hb4 t r' ht1 htlt hr' hr't
        rw [hm2bit r (pc t) hr (by omega)]
        by_cases hfire : r ≠ i ∧ bitAt useX (swapRows M i k) r j = true
        · rw [if_pos hfire, hall r hr hrt, hall i hilt (by omega)]
          rfl
        · rw [if_neg hfire]
          exact hall r hr hrt
    · intro t c ht1 ht2 hc
      have hc2 : c < (if t = i then j else pc t) := hc
      by_cases hti : t = i
      · rw [if_pos hti] at hc2
        rw [hti, hrowim2 c (by omega)]
        exact hm1i_lt_j c hc2
      · rw [if_neg hti] at hc2
        have htlt : t < i := by omega
        have hpc : pc t < j := hb1 t ht1 htlt
        have h1 : bitAt useX (swapRows M i k) t c = false := by
          rw [hm1t_lt t c ht1 htlt (by omega)]
          exact hb5 t c ht1 htlt hc2
        have h2 : bitAt useX (swapRows M i k) i c = false := hm1i_lt_j c (by omega)
        rw [hm2bit t c (by omega) (by omega)]
        by_cases hfire : t ≠ i ∧ bitAt useX (swapRows M i k) t j = true
        · rw [if_pos hfire, h1, h2]
          rfl
        · rw [if_neg hfire, h1]
    · intro r c hr1 hr2 hc
      rw [hm2n] at hr2
      by_cases hcj : c < j
      · have h1 : bitAt useX (swapRows M i k) r c = false := hm1row_ge r c (by omega) hr2 hcj
        have h2 : bitAt useX (swapRows M i k) i c = false := hm1i_lt_j c hcj
        rw [hm2bit r c hr2 (by omega)]
        by_cases hfire : r ≠ i ∧ bitAt useX (swapRows M i k) r j = true
        · rw [if_pos hfire, h1, h2]
          rfl
        · rw [if_neg hfire, h1]
      · have hcje : c = j := by omega
        subst hcje
        have hrne : r ≠ i := by omega
        by_cases hbrj : bitAt useX (swapRows M i k) r c = true
        · rw [hm2bit r c hr2 hj, if_pos ⟨hrne, hbrj⟩, hbrj, hbm1ij]
          rfl
        · rw [hm2bit r c hr2 hj, if_neg (fun hx => hbrj hx.2)]
          cases hbv : bitAt useX (swapRows M i k) r c
          · rfl
          · exact absurd hbv hbrj
    · intro hux r c hr hc
      have hXM : ∀ r', lo ≤ r' → r' < n → ∀ c', c' < n → M.getX r' c' = false :=
        fun r' h1 h2 c' h3 => hXfree hux r' c' h1 h2 h3
      have hXm1 : ∀ r' c', r' < n → c' < n →
          (swapRows M i k).getX r' c' = M.getX r' c' := by
        intro r' c' hr' hc'
        rw [getX_eq_testBit, hm1get r' c' hr' hc']
        by_cases h1 : r' = i
        · rw [if_pos h1, ← getX_eq_testBit, hXM k (by omega) hkr.2 c' hc',
            hXM r' (by omega) hr' c' hc']
        · rw [if_neg h1]
          by_cases h2 : r' = k
          · rw [if_pos h2, ← getX_eq_testBit, hXM i hloi hilt c' hc',
              hXM r' (by omega) hr' c' hc']
          · rw [if_neg h2, ← getX_eq_testBit]
      rw [getX_eq_testBit, hm2get r c hr hc]
      by_cases hfire : r ∈ List.range n ∧ r ≠ i ∧ bitAt useX (swapRows M i k) r j = true
      · rw [if_pos hfire, Nat.testBit_xor, ← getX_eq_testBit, ← getX_eq_testBit,
          hXm1 i c hilt hc, hXM i hloi hilt c hc, hXm1 r c hr hc]
        cases M.getX r c <;> rfl
      · rw [if_neg hfire, ← getX_eq_testBit, hXm1 r c hr hc]

/-- A whole `normalize` pass from an invariant state keeps the invariant,
extending the pivot assignment over the processed columns. -/
theorem pass_fwd (useX : Bool) (n lo : Nat) :
    ∀ (len j0 : Nat), j0 + len ≤ n →
    ∀ (M : StabilizerMatrix) (i : Nat) (pc : Nat → Nat),
      M.WF → M.nr_bits = n → PivotData useX M lo i j0 pc →
      (useX = false → ∀ r c, lo ≤ r → r < n → c < n → M.getX r c = false) →
      ∃ M' i' pc',
        (List.range' j0 len).foldl (normStep useX n) (M, i) = (M', i')
        ∧ M'.WF ∧ M'.nr_bits = n
        ∧ PivotData useX M' lo i' (j0 + len) pc'
        ∧ i ≤ i'
        ∧ (useX = false → ∀ r c, r < n → c < n → M'.getX r c = M.getX r c) := by
  intro len
  induction len with
  | zero =>
    intro j0 hle M i pc hwf hn hPD hXfree
    exact ⟨M, i, pc, rfl, hwf, hn, by rw [Nat.add_zero]; exact hPD, le_refl i,
      fun _ r c _ _ => rfl⟩
  | succ len ih =>
    intro j0 hle M i pc hwf hn hPD hXfree
    have hj0 : j0 < n := by omega
    obtain ⟨M1, i1, pc1, hstep, hwf1, hn1, hPD1, hpc1, hii1, hX1⟩ :=
      normStep_fwd useX n M i j0 lo pc hwf hn hj0 hPD hXfree
    have hXfree1 : useX = false →
        ∀ r c, lo ≤ r → r < n → c < n → M1.getX r c = false := by
      intro hux r c h1 h2 h3
      rw [hX1 hux r c h2 h3]
      exact hXfree hux r c h1 h2 h3
    obtain ⟨M2, i2, pc2, hfold, hwf2, hn2, hPD2, hii2, hX2⟩ :=
      ih (j0 + 1) (by omega) M1 i1 pc1 hwf1 hn1 hPD1 hXfree1
    refine ⟨M2, i2, pc2, ?_,
      hwf2, hn2,
      by rw [show j0 + (len + 1) = j0 + 1 + len from by omega]; exact hPD2,
      by omega, ?_⟩
    · rw [List.range'_succ, List.foldl_cons, hstep]
      exact hfold
    · intro hux r c hr hc
      rw [hX2 hux r c hr hc, hX1 hux r c hr hc]

/-- On a matrix already in the canonical form of a pass, running the pass
again changes nothing: every pivot column self-swaps with no eliminations,
every other column finds no pivot. -/
theorem pass_id (useX : Bool) (n lo hiE : Nat) (M : StabilizerMatrix) (hwf : M.WF)
    (hn : M.nr_bits = n) (pc : Nat → Nat) (hPD : PivotData useX M lo hiE n pc) :
    ∀ (len j0 : Nat), j0 + len ≤ n →
    ∀ i, lo ≤ i → i ≤ hiE →
      (∀ t, lo ≤ t → t < i → pc t < j0) →
      (∀ t, i ≤ t → t < hiE → j0 ≤ pc t) →
      ∃ i', (List.range' j0 len).foldl (normStep useX n) (M, i) = (M, i')
        ∧ lo ≤ i' ∧ i' ≤ hiE
        ∧ (∀ t, lo ≤ t → t < i' → pc t < j0 + len)
        ∧ (∀ t, i' ≤ t → t < hiE → j0 + len ≤ pc t) := by
  obtain ⟨hlohi, hhin, hb1, hb2, hb3, hb4, hb5, hb6⟩ := hPD
  rw [hn] at hhin hb4 hb6
  intro len
  induction len with
  | zero =>
    intro j0 hle i hi1 hi2 hpass hahead
    exact ⟨i, rfl, hi1, hi2, fun t h1 h2 => by rw [Nat.add_zero]; exact hpass t h1 h2,
      fun t h1 h2 => by rw [Nat.add_zero]; exact hahead t h1 h2⟩
  | succ len ih =>
    intro j0 hle i hi1 hi2 hpass hahead
    have hj0 : j0 < n := by omega
    by_cases hcase : i < hiE ∧ pc i = j0
    · have hifind : (List.range' i (n - i)).find? (fun k => bitAt useX M k j0)
          = some i := by
        rw [range'_cons i n (by omega)]
        apply List.find?_cons_of_pos
        show bitAt useX M i j0 = true
        rw [← hcase.2]
        exact hb3 i hi1 hcase.1
      have helim : (List.range n).foldl (elimStep useX i j0) M = M := by
        apply foldl_id
        intro mm hmm
        unfold elimStep
        by_cases hmi : mm = i
        · have hb : (mm != i) = false := by
            rw [bne_eq_false_iff_eq]
            exact hmi
          rw [hb, Bool.false_and]
          rfl
        · have hbit : bitAt useX M mm j0 = false := by
            rw [← hcase.2]
            exact hb4 i mm hi1 hcase.1 (List.mem_range.mp hmm) hmi
          rw [hbit, Bool.and_false]
          rfl
      have hstep : normStep useX n (M, i) j0 = (M, i + 1) := by
        show (match (List.range' i (n - i)).find? (fun k => bitAt useX M k j0) with
          | none => (M, i)
          | some k =>
            ((List.range n).foldl (elimStep useX i j0) (swapRows M i k), i + 1))
            = (M, i + 1)
        rw [hifind]
        show ((List.range n).foldl (elimStep useX i j0) (swapRows M i i), i + 1) = (M, i + 1)
        rw [swapRows_self M hwf i (by rw [hn]; omega), helim]
      obtain ⟨i', hfold, h1, h2, h3, h4⟩ := ih (j0 + 1) (by omega) (i + 1)
        (by omega) hcase.1
        (fun t ht1 ht2 => by
          by_cases hti : t = i
          · rw [hti, hcase.2]
            omega
          · have := hpass t ht1 (by omega)
            omega)
        (fun t ht1 ht2 => by
          have := hb2 i t hi1 (by omega) ht2
          omega)
      refine ⟨i', ?_, h1, h2,
        fun t ht1 ht2 => by
          have := h3 t ht1 ht2
          omega,
        fun t ht1 ht2 => by
          have := h4 t ht1 ht2
          omega⟩
      rw [List.range'_succ, List.foldl_cons, hstep]
      exact hfold
    · have hahead2 : ∀ t, i ≤ t → t < hiE → j0 < pc t := by
        intro t ht1 ht2
        by_cases hti : t = i
        · have h0 := hahead i (le_refl i) (hti ▸ ht2)
          rcases Nat.lt_or_ge j0 (pc i) with h | h
          · rw [hti]
            exact h
          · exact absurd ⟨hti ▸ ht2, by omega⟩ hcase
        · have h1 := hb2 i t hi1 (by omega) ht2
          have h2 := hahead i (le_refl i) (by omega)
          omega
      have hifind : (List.range' i (n - i)).find? (fun k => bitAt useX M k j0)
          = none := by
        apply List.find?_eq_none.mpr
        intro k hk
        rw [List.mem_range'_1] at hk
        show ¬(bitAt useX M k j0 = true)
        by_cases hkE : k < hiE
        · have := hb5 k j0 (by omega) hkE (hahead2 k (by omega) hkE)
          rw [this]
          exact Bool.false_ne_true
        · have := hb6 k j0 (by omega) (by omega) hj0
          rw [this]
          exact Bool.false_ne_true
      have hstep : normStep useX n (M, i) j0 = (M, i) := by
        show (match (List.range' i (n - i)).find? (fun k => bitAt useX M k j0) with
          | none => (M, i)
          | some k =>
            ((List.range n).foldl (elimStep useX i j0) (swapRows M i k), i + 1))
            = (M, i)
        rw [hifind]
      obtain ⟨i', hfold, h1, h2, h3, h4⟩ := ih (j0 + 1) (by omega) i hi1 hi2
        (fun t ht1 ht2 => by
          have := hpass t ht1 ht2
          omega)
        (fun t ht1 ht2 => hahead2 t ht1 ht2)
      refine ⟨i', ?_, h1, h2,
        fun t ht1 ht2 => by
          have := h3 t ht1 ht2
          omega,
        fun t ht1 ht2 => by
          have := h4 t ht1 ht2
          omega⟩
      rw [List.range'_succ, List.foldl_cons, hstep]
      exact hfold

theorem bitAt_true (m : StabilizerMatrix) (k j : Nat) : bitAt true m k j = m.getX k j := rfl

theorem bitAt_false (m : StabilizerMatrix) (k j : Nat) : bitAt false m k j = m.getZ k j := rfl

theorem normalize_idem (M : StabilizerMatrix) (hwf : M.WF) :
    normalize (normalize M) = normalize M := by
  have h0 : PivotData true M 0 0 0 (fun _ => 0) :=
    ⟨le_refl 0, Nat.zero_le _, fun t _ ht => absurd ht (Nat.not_lt_zero t),
      fun t t' _ _ ht' => absurd ht' (Nat.not_lt_zero t'),
      fun t _ ht => absurd ht (Nat.not_lt_zero t),
      fun t r _ ht _ _ => absurd ht (Nat.not_lt_zero t),
      fun t c _ ht _ => absurd ht (Nat.not_lt_zero t),
      fun r c _ _ hc => absurd hc (Nat.not_lt_zero c)⟩
  obtain ⟨M1, iX, pcX, hfold1, hwf1, hn1, hPDX, hi0X, -⟩ :=
    pass_fwd true M.nr_bits 0 M.nr_bits 0 (by omega) M 0 (fun _ => 0) hwf rfl h0
      (fun h => absurd h (by decide))
  rw [Nat.zero_add] at hPDX
  obtain ⟨q1, q2, q3, q4, q5, q6, q7, q8⟩ := hPDX
  have hXfreeZ : (false : Bool) = false →
      ∀ r c, iX ≤ r → r < M.nr_bits → c < M.nr_bits → M1.getX r c = false := by
    intro _ r c h1 h2 h3
    rw [← bitAt_true]
    exact q8 r c h1 (by rw [hn1]; exact h2) h3
  have hz0 : PivotData false M1 iX iX 0 (fun _ => 0) :=
    ⟨le_refl iX, q2, fun t h1 ht => absurd (Nat.lt_of_le_of_lt h1 ht) (Nat.lt_irrefl iX),
      fun t t' h1 htt ht' =>
        absurd (Nat.lt_of_le_of_lt h1 (htt.trans ht')) (Nat.lt_irrefl iX),
      fun t h1 ht => absurd (Nat.lt_of_le_of_lt h1 ht) (Nat.lt_irrefl iX),
      fun t r h1 ht _ _ => absurd (Nat.lt_of_le_of_lt h1 ht) (Nat.lt_irrefl iX),
      fun t c h1 ht _ => absurd (Nat.lt_of_le_of_lt h1 ht) (Nat.lt_irrefl iX),
      fun r c _ _ hc => absurd hc (Nat.not_lt_zero c)⟩
  obtain ⟨M2, iZ, pcZ, hfold2, hwf2, hn2, hPDZ, hiXZ, hX2⟩ :=
    pass_fwd false M.nr_bits iX M.nr_bits 0 (by omega) M1 iX (fun _ => 0) hwf1 hn1 hz0
      hXfreeZ
  rw [Nat.zero_add] at hPDZ
  have hX2' : ∀ r c, r < M.nr_bits → c < M.nr_bits → M2.getX r c = M1.getX r c :=
    hX2 rfl
  have hnorm : normalize M = M2 := by
    show ((List.range M.nr_bits).foldl (normStep false M.nr_bits)
      ((List.range M.nr_bits).foldl (normStep true M.nr_bits) (M, 0))).1 = M2
    rw [List.range_eq_range', hfold1, hfold2]
  have hPDX2 : PivotData true M2 0 iX M.nr_bits pcX := by
    refine ⟨q1, by rw [hn2]; rw [hn1] at q2; exact q2, q3, q4, ?_, ?_, ?_, ?_⟩
    · intro t h1 h2
      rw [bitAt_true, hX2' t (pcX t) (by rw [hn1] at q2; omega) (q3 t h1 h2),
        ← bitAt_true]
      exact q5 t h1 h2
    · intro t r h1 h2 hr hrt
      rw [hn2] at hr
      rw [bitAt_true, hX2' r (pcX t) hr (q3 t h1 h2), ← bitAt_true]
      exact q6 t r h1 h2 (by rw [hn1]; exact hr) hrt
    · intro t c h1 h2 hc
      have hcn : c < M.nr_bits := Nat.lt_trans hc (q3 t h1 h2)
      rw [bitAt_true, hX2' t c (by rw [hn1] at q2; omega) hcn, ← bitAt_true]
      exact q7 t c h1 h2 hc
    · intro r c h1 hr hc
      rw [hn2] at hr
      rw [bitAt_true, hX2' r c hr hc, ← bitAt_true]
      exact q8 r c h1 (by rw [hn1]; exact hr) hc
  obtain ⟨i1f, hfid1, hlo1, hhi1, hp1, ha1⟩ :=
    pass_id true M.nr_bits 0 iX M2 hwf2 hn2 pcX hPDX2 M.nr_bits 0 (by omega) 0
      (le_refl 0) (hPDX2.1) (fun t _ ht => absurd ht (by omega))
      (fun t _ _ => Nat.zero_le _)
  have hi1X : i1f = iX := by
    by_contra hne
    have hlt : i1f < iX := by omega
    have ha := ha1 i1f (le_refl _) hlt
    have hb := q3 i1f (Nat.zero_le _) hlt
    omega
  obtain ⟨z1, z2, z3, z4, z5, z6, z7, z8⟩ := hPDZ
  obtain ⟨i2f, hfid2, hlo2, hhi2, hp2, ha2⟩ :=
    pass_id false M.nr_bits iX iZ M2 hwf2 hn2 pcZ ⟨z1, z2, z3, z4, z5, z6, z7, z8⟩
      M.nr_bits 0 (by omega) iX (le_refl iX) z1
      (fun t h1 ht => absurd (Nat.lt_of_le_of_lt h1 ht) (by omega))
      (fun t _ _ => Nat.zero_le _)
  have hid2 : normalize M2 = M2 := by
    show ((List.range M2.nr_bits).foldl (normStep false M2.nr_bits)
      ((List.range M2.nr_bits).foldl (normStep true M2.nr_bits) (M2, 0))).1 = M2
    rw [hn2, List.range_eq_range', hfid1, hi1X, hfid2]
  rw [hnorm, hid2]

/-- C6: `StabilizerMatrix::normalize` is idempotent — on any well-formed
tableau, running `normalize()` twice leaves the packed operator words and
phase words identical to running it once. -/
theorem C6_normalize_idempotent (M : StabilizerMatrix) (hwf : M.WF) :
    M.normalize.normalize = M.normalize :=
  normalize_idem M hwf

/-- Witness for C6 on the freshly allocated 2-qubit tableau. -/
theorem C6_normalize_idempotent_witness :
    (StabilizerMatrix.new 2).WF
    ∧ (StabilizerMatrix.new 2).normalize.normalize = (StabilizerMatrix.new 2).normalize :=
  ⟨by decide, C6_normalize_idempotent (StabilizerMatrix.new 2) (by decide)⟩
